import Mathlib

/-!
# A verification development for the `dessia_common` dataflow engine

This file gives a shallow embedding, in Lean 4, of the dataflow execution
engine implemented in `dessia_common/workflow.py`: `Variable`, `Block` (with
its variants `InstanciateModel`, `ModelMethod`, `Function`, `ForEach`,
`ModelAttribute`), `Pipe`, `WorkFlow` (graph construction, input computation,
the activation-propagation fixpoint `run`) and `WorkflowRun`.

Python values are modelled by the inductive type `Value`; the ambient object
store (Python's heap of mutable user objects) is modelled as a list of
attribute dictionaries threaded through every block evaluation, so that
reference sharing and in-place mutation are observable.  Python `dict`s keyed
by object identity are modelled as association lists keyed by a numeric
identity (`Variable.id` for variables, the list position for pipes and
blocks).  Exceptions are modelled by `Except PyErr`.
-/

set_option autoImplicit false

namespace Dessia

/-- Python exception kinds that the engine code can raise. -/
inductive PyErr where
  | valueError
  | keyError
  | typeError
  | attributeError
  | indexError
  deriving DecidableEq, Repr

/-- Python values flowing through a workflow: `None`, integers, strings,
references to heap objects, and lists. -/
inductive Value where
  | none
  | int (n : Int)
  | str (s : String)
  | addr (a : Nat)
  | list (vs : List Value)
  deriving Repr

/-- A user object: an attribute dictionary. -/
abbrev Obj : Type := List (String × Value)

/-- The ambient store of user objects; `Value.addr a` refers to position `a`. -/
abbrev Heap : Type := List Obj

/-- Python iteration (as used by `zip` and `for`): lists iterate to their
elements, strings to their characters, anything else raises `TypeError`. -/
def pyIterate : Value → Except PyErr (List Value)
  | .list vs => .ok vs
  | .str s => .ok (s.data.map fun c => .str c.toString)
  | _ => .error .typeError

/-- Lookup in a Python dict (association list keyed by `Nat` identity):
a missing key raises `KeyError`. -/
def dget {α : Type} (d : List (Nat × α)) (k : Nat) : Except PyErr α :=
  match d.lookup k with
  | some v => .ok v
  | Option.none => .error .keyError

/-- Assignment in a Python dict: replace the entry if the key is present,
append a fresh entry otherwise. -/
def dset {α : Type} (d : List (Nat × α)) (k : Nat) (v : α) : List (Nat × α) :=
  if (d.lookup k).isSome then
    d.map (fun p => if p.1 = k then (k, v) else p)
  else
    d ++ [(k, v)]

/-- `Variable`: a named value slot.  The `id` field stands for Python object
identity (two occurrences with the same `id` are the same Python object). -/
structure Variable where
  id : Nat
  name : String
  deriving DecidableEq, Repr

/-- `Block`: ordered input and output `Variable`s plus an `evaluate` method.
`eval` receives the ambient heap and the input values and returns the updated
heap together with `evaluate`'s raw Python return value (usually a list). -/
structure Block where
  inputs : List Variable
  outputs : List Variable
  eval : Heap → List Value → Except PyErr (Heap × Value)

/-- `Pipe`: a directed edge from `input_variable` to `output_variable`. -/
structure Pipe where
  input_variable : Variable
  output_variable : Variable

/-- The reflected constructor of a user class: parameter names (excluding
`self`) and the attribute dictionary the constructor builds from the
arguments. -/
structure ObjectClass where
  params : List String
  init : List Value → Obj

/-- The reflected body of a user method: parameter names (excluding `self`)
and its behaviour, mapping the receiver's state and the arguments to the
receiver's updated state and the return value. -/
structure PyMethod where
  params : List String
  call : Obj → List Value → Obj × Value

/-- `InstanciateModel`: inputs are the constructor's parameters in order;
`evaluate` allocates a fresh object and returns the one-element list holding
a reference to it.  `fresh` supplies identities for the created variables. -/
def InstanciateModel (fresh : Nat) (object_class : ObjectClass) : Block where
  inputs := object_class.params.enum.map fun p => ⟨fresh + p.1, p.2⟩
  outputs := [⟨fresh + object_class.params.length, "Instanciated object"⟩]
  eval := fun heap values =>
    .ok (heap ++ [object_class.init values], .list [.addr heap.length])

/-- `ModelMethod`: first input is the receiver, the rest are the method's
parameters; `evaluate` calls the method on the receiver (updating it in
place on the heap) and returns `[return value, receiver]` — the second
output is the very reference that came in as `values[0]`. -/
def ModelMethod (fresh : Nat) (method_name : String) (method : PyMethod) :
    Block where
  inputs :=
    ⟨fresh, "model at input"⟩ ::
      method.params.enum.map fun p => ⟨fresh + 1 + p.1, p.2⟩
  outputs :=
    [⟨fresh + 1 + method.params.length, "method result of " ++ method_name⟩,
     ⟨fresh + 2 + method.params.length, "model at output " ++ method_name⟩]
  eval := fun heap values =>
    match values with
    | .addr a :: rest =>
      match heap.get? a with
      | some obj =>
        let r := method.call obj rest
        .ok (heap.set a r.1, .list [r.2, .addr a])
      | Option.none => .error .attributeError
    | _ :: _ => .error .attributeError
    | [] => .error .indexError

/-- `ModelAttribute`: one input (an object reference), one output (the
current value of the named attribute). -/
def ModelAttribute (fresh : Nat) (attribute_name : String) : Block where
  inputs := [⟨fresh, "Model"⟩]
  outputs := [⟨fresh + 1, "Model attribute"⟩]
  eval := fun heap values =>
    match values with
    | .addr a :: _ =>
      match heap.get? a with
      | some obj =>
        match obj.lookup attribute_name with
        | some v => .ok (heap, .list [v])
        | Option.none => .error .attributeError
      | Option.none => .error .attributeError
    | _ :: _ => .error .attributeError
    | [] => .error .indexError

/-- `Function` (named `FunctionBlock` here since `Function` is a Mathlib
namespace): inputs are the callable's parameters in order; `evaluate`
returns `self.function(*values)` — the callable's return value itself,
NOT wrapped in a list (compare `InstanciateModel.evaluate`). -/
def FunctionBlock (fresh : Nat) (params : List String)
    (function : Heap → List Value → Except PyErr (Heap × Value)) : Block where
  inputs := params.enum.map fun p => ⟨fresh + p.1, p.2⟩
  outputs := [⟨fresh + params.length, "Output function"⟩]
  eval := function

/-- A node of the dependency graph: a `Variable` (by identity) or a `Block`
(by its position in the block list). -/
inductive GNode where
  | var (id : Nat)
  | blk (i : Nat)
  deriving DecidableEq, Repr

/-- `WorkFlow`: owns blocks, pipes and the designated output variable. -/
structure WorkFlow where
  blocks : List Block
  pipes : List Pipe
  output : Variable

/-- `self.variables`: every block's inputs then outputs, in block order. -/
def WorkFlow.variables (wf : WorkFlow) : List Variable :=
  wf.blocks.flatMap fun b => b.inputs ++ b.outputs

/-- The edges of `WorkFlow._graph`: input → block and block → output for
every block, then source → target for every pipe. -/
def WorkFlow.gedges (wf : WorkFlow) : List (GNode × GNode) :=
  (wf.blocks.enum.flatMap fun bi =>
    (bi.2.inputs.map fun v => (GNode.var v.id, GNode.blk bi.1)) ++
    (bi.2.outputs.map fun v => (GNode.blk bi.1, GNode.var v.id))) ++
  wf.pipes.map fun p =>
    (GNode.var p.input_variable.id, GNode.var p.output_variable.id)

/-- The nodes of `WorkFlow._graph` (variables, blocks, and the endpoints of
every pipe edge, which `networkx.add_edge` inserts implicitly). -/
def WorkFlow.gnodes (wf : WorkFlow) : List GNode :=
  wf.variables.map (fun v => GNode.var v.id) ++
  (wf.blocks.enum.map fun bi => GNode.blk bi.1) ++
  wf.pipes.flatMap fun p =>
    [GNode.var p.input_variable.id, GNode.var p.output_variable.id]

/-- The in-neighbours of a node: sources of edges into it. -/
def inNeighbors (es : List (GNode × GNode)) (n : GNode) : List GNode :=
  (es.filter fun e => e.2 == n).map Prod.fst

/-- One breadth-first expansion step of a reachability search backwards
along edges. -/
def expandAncestors (es : List (GNode × GNode)) (found : List GNode) :
    List GNode :=
  found ++ ((found.flatMap (inNeighbors es)).filter fun n => !(found.contains n))

/-- Iterated backward expansion (enough iterations reach the fixpoint). -/
def iterAncestors (es : List (GNode × GNode)) : Nat → List GNode → List GNode
  | 0, found => found
  | n + 1, found => iterAncestors es n (expandAncestors es found)

/-- `nx.ancestors(self.graph, variable)`: every node having a path to the
variable's node, the node itself excluded. -/
def WorkFlow.ancestors (wf : WorkFlow) (v : Variable) : List GNode :=
  (iterAncestors wf.gedges wf.gnodes.length [GNode.var v.id]).filter
    fun n => !(n == GNode.var v.id)

/-- `WorkFlow.__init__`'s input computation: the variables (in
`self.variables` order) whose ancestor set is empty. -/
def WorkFlow.inputs (wf : WorkFlow) : List Variable :=
  wf.variables.filter fun v => (wf.ancestors v).isEmpty

/-- `Block.__init__(self, input_variables, [output])` gives the workflow a
single output. -/
def WorkFlow.outputs (wf : WorkFlow) : List Variable := [wf.output]

/-- The mutable state of one `run`: the heap, the activation dictionaries
for pipes and blocks (keyed by list position) and for variables (keyed by
identity), the `values` dictionary, and a ghost trace recording the order
in which blocks are evaluated. -/
structure RunState where
  heap : Heap
  pact : List Bool
  bact : List Bool
  vact : List (Nat × Bool)
  values : List (Nat × Value)
  trace : List Nat

/-- The body of `run`'s pipe loop for one pipe: if the pipe is unactivated
and its source variable activated, relay the source's value to the target
unchanged and activate pipe and target. -/
def pipeStep (st : RunState) (i : Nat) (p : Pipe) :
    Except PyErr (RunState × Bool) :=
  if st.pact.getD i false then .ok (st, false)
  else
    match dget st.vact p.input_variable.id with
    | .error e => .error e
    | .ok false => .ok (st, false)
    | .ok true =>
      match dget st.values p.input_variable.id with
      | .error e => .error e
      | .ok v =>
        .ok ({ st with
                pact := st.pact.set i true,
                values := dset st.values p.output_variable.id v,
                vact := dset st.vact p.output_variable.id true }, true)

/-- `for pipe in self.pipes: ...` (pipes come enumerated with positions). -/
def pipePhase (pipes : List (Nat × Pipe)) (st : RunState) (flag : Bool) :
    Except PyErr (RunState × Bool) :=
  match pipes with
  | [] => .ok (st, flag)
  | ip :: rest =>
    match pipeStep st ip.1 ip.2 with
    | .error e => .error e
    | .ok r => pipePhase rest r.1 (flag || r.2)

/-- The `all_inputs_activated` check (breaks at the first unactivated). -/
def allActivated (vact : List (Nat × Bool)) : List Variable → Except PyErr Bool
  | [] => .ok true
  | v :: vs =>
    match dget vact v.id with
    | .error e => .error e
    | .ok true => allActivated vact vs
    | .ok false => .ok false

/-- `[values[i] for i in block.inputs]`. -/
def gatherValues (values : List (Nat × Value)) :
    List Variable → Except PyErr (List Value)
  | [] => .ok []
  | v :: vs =>
    match dget values v.id with
    | .error e => .error e
    | .ok x =>
      match gatherValues values vs with
      | .error e => .error e
      | .ok xs => .ok (x :: xs)

/-- `for output, output_value in zip(block.outputs, output_values): ...` -/
def bindOutputs (st : RunState) (pairs : List (Variable × Value)) : RunState :=
  pairs.foldl
    (fun s pv =>
      { s with values := dset s.values pv.1.id pv.2,
               vact := dset s.vact pv.1.id true })
    st

/-- The body of `run`'s block loop for one block: if unactivated and all
inputs are activated, evaluate it, zip-bind the declared outputs with the
returned values (truncating at the shorter), and activate the block. -/
def blockStep (st : RunState) (j : Nat) (b : Block) :
    Except PyErr (RunState × Bool) :=
  if st.bact.getD j false then .ok (st, false)
  else
    match allActivated st.vact b.inputs with
    | .error e => .error e
    | .ok false => .ok (st, false)
    | .ok true =>
      match gatherValues st.values b.inputs with
      | .error e => .error e
      | .ok ins =>
        match b.eval st.heap ins with
        | .error e => .error e
        | .ok r =>
          match pyIterate r.2 with
          | .error e => .error e
          | .ok outs =>
            let st1 := bindOutputs { st with heap := r.1 } (b.outputs.zip outs)
            .ok ({ st1 with
                    bact := st1.bact.set j true,
                    trace := st1.trace ++ [j] }, true)

/-- `for block in self.blocks: ...` (blocks come enumerated with positions). -/
def blockPhase (blocks : List (Nat × Block)) (st : RunState) (flag : Bool) :
    Except PyErr (RunState × Bool) :=
  match blocks with
  | [] => .ok (st, flag)
  | jb :: rest =>
    match blockStep st jb.1 jb.2 with
    | .error e => .error e
    | .ok r => blockPhase rest r.1 (flag || r.2)

/-- One iteration of the `while something_activated` loop: the pipe phase
then the block phase; the flag records whether anything was activated. -/
def runPass (wf : WorkFlow) (st : RunState) : Except PyErr (RunState × Bool) :=
  match pipePhase wf.pipes.enum st false with
  | .error e => .error e
  | .ok r1 => blockPhase wf.blocks.enum r1.1 r1.2

/-- The `while something_activated` loop, with explicit fuel; `fuelOf`
below is proved sufficient (`runLoop_fuel_stable`), so `run` with that fuel
is the loop's exact semantics. -/
def runLoop (wf : WorkFlow) : Nat → RunState → Except PyErr RunState
  | 0, st => .ok st
  | n + 1, st =>
    match runPass wf st with
    | .error e => .error e
    | .ok r => if r.2 then runLoop wf n r.1 else .ok r.1

/-- Every variable identity that a run can ever activate: the workflow's
variables plus every pipe target. -/
def varUniverse (wf : WorkFlow) : List Nat :=
  ((wf.variables.map Variable.id) ++
    wf.pipes.map fun p => p.output_variable.id).dedup

/-- One more pass than the number of activatable items. -/
def fuelOf (wf : WorkFlow) : Nat :=
  wf.pipes.length + wf.blocks.length + (varUniverse wf).length + 1

/-- The state at the top of the loop: every pipe, block and variable
unactivated, then each provided value bound positionally to the workflow
inputs and those variables activated. -/
def initState (wf : WorkFlow) (heap : Heap) (args : List Value) : RunState :=
  (args.zip wf.inputs).foldl
    (fun st av =>
      { st with values := dset st.values av.2.id av.1,
                vact := dset st.vact av.2.id true })
    { heap := heap,
      pact := List.replicate wf.pipes.length false,
      bact := List.replicate wf.blocks.length false,
      vact := (wf.variables.map Variable.id).dedup.map fun i => (i, false),
      values := [],
      trace := [] }

/-- `WorkflowRun`: the workflow, the final values dictionary, and
`output_value = values[workflow.outputs[0]]`. -/
structure WorkflowRun where
  workflow : WorkFlow
  values : List (Nat × Value)
  output_value : Value

/-- `WorkFlow.run`: arity check (`ValueError`), input binding, the
activation-propagation fixpoint, then `WorkflowRun` construction (whose
`values[...]` lookup raises `KeyError` if the output was never bound).
The final heap is returned alongside. -/
def runW (wf : WorkFlow) (heap : Heap) (args : List Value) :
    Except PyErr (Heap × WorkflowRun) :=
  if args.length ≠ wf.inputs.length then .error .valueError
  else
    match runLoop wf (fuelOf wf) (initState wf heap args) with
    | .error e => .error e
    | .ok st =>
      match dget st.values wf.output.id with
      | .error e => .error e
      | .ok out => .ok (st.heap, ⟨wf, st.values, out⟩)

/-- The `for value in values[0]` loop of `ForEach.evaluate`: one full
sub-workflow run per element, appending each run's `output_value`. -/
def forEachLoop (workflow : WorkFlow) :
    Heap → List Value → List Value → Except PyErr (Heap × List Value)
  | heap, acc, [] => .ok (heap, acc)
  | heap, acc, value :: rest =>
    match runW workflow heap [value] with
    | .error e => .error e
    | .ok r => forEachLoop workflow r.1 (acc ++ [r.2.output_value]) rest

/-- `ForEach`: one input (a collection), one output; `evaluate` runs the
wrapped sub-workflow once per element, in order, collecting each run's
`output_value`, and returns the one-element list holding that list. -/
def ForEach (fresh : Nat) (workflow : WorkFlow) : Block where
  inputs := [⟨fresh, "Foreach input"⟩]
  outputs := [⟨fresh + 1, "Foreach output"⟩]
  eval := fun heap values =>
    match values with
    | v0 :: _ =>
      match pyIterate v0 with
      | .error e => .error e
      | .ok items =>
        match forEachLoop workflow heap [] items with
        | .error e => .error e
        | .ok r => .ok (r.1, .list [.list r.2])
    | [] => .error .indexError

/-! ## Stepwise execution, modelled from the spec

The source file has no `WorkflowState`, `start_run` or `advance`; the spec
(§3, §4.5, §6) describes them, so they are modelled here from the spec's
words and shared with the engine's own state machinery. -/

/-- Modelled from the spec: `WorkflowState` (§3) — missing from the source —
holds the workflow and the in-progress values/activation flags of one run. -/
structure WorkflowState where
  workflow : WorkFlow
  state : RunState

/-- Modelled from the spec: `start_run` (§6) — missing from the source —
creates a `WorkflowState` paused at the initial state: provided input values
bound positionally and activated, everything else unactivated (§4.5 step 1). -/
def startRun (wf : WorkFlow) (heap : Heap) (args : List Value) :
    WorkflowState :=
  ⟨wf, initState wf heap args⟩

/-- Modelled from the spec: the search for "the next Block whose inputs are
all activated, in block-declaration order" (§4.5 step 4) — the first
unactivated block of the enumerated list whose `all_inputs_activated` check
succeeds, or an activation-flag lookup error. -/
def firstReady (st : RunState) :
    List (Nat × Block) → Except PyErr (Option (Nat × Block))
  | [] => .ok Option.none
  | jb :: rest =>
    if st.bact.getD jb.1 false then firstReady st rest
    else
      match allActivated st.vact jb.2.inputs with
      | .error e => .error e
      | .ok true => .ok (some jb)
      | .ok false => firstReady st rest

/-- Modelled from the spec: `WorkflowState.advance` (§6) — missing from the
source — performs one §4.5 step-4 stepwise unit: exactly one additional
Block evaluation (the next Block whose inputs are all activated, in
block-declaration order) or, when no Block is ready, all currently ready
Pipe propagations.  §9 leaves the arbitration between the two granularities
to the implementer; blocks are tried first here.  Returns the advanced
state and whether anything was newly activated. -/
def advance (ws : WorkflowState) : Except PyErr (WorkflowState × Bool) :=
  match firstReady ws.state ws.workflow.blocks.enum with
  | .error e => .error e
  | .ok (some jb) =>
    match blockStep ws.state jb.1 jb.2 with
    | .error e => .error e
    | .ok r => .ok (⟨ws.workflow, r.1⟩, r.2)
  | .ok Option.none =>
    match pipePhase ws.workflow.pipes.enum ws.state false with
    | .error e => .error e
    | .ok r => .ok (⟨ws.workflow, r.1⟩, r.2)

/-- Modelled from the spec: repeated `advance()` until a step reports no new
activation (§4.5 step 3), with fuel for the iteration count. -/
def advanceToEnd : Nat → WorkflowState → Except PyErr WorkflowState
  | 0, ws => .ok ws
  | n + 1, ws =>
    match advance ws with
    | .error e => .error e
    | .ok r => if r.2 then advanceToEnd n r.1 else .ok r.1

/-- Modelled from the spec: the `output_value` a terminal `WorkflowState`
exposes — the value bound to the workflow's designated output variable,
exactly as `WorkflowRun.__init__` reads it. -/
def WorkflowState.output_value (ws : WorkflowState) : Except PyErr Value :=
  dget ws.state.values ws.workflow.output.id

/-! ## Auxiliary notions used by the verification -/

/-- Number of activated entries of a variable-activation dictionary. -/
def countTrueD (d : List (Nat × Bool)) : Nat := (d.filter Prod.snd).length

/-- Total number of activated items of a run state. -/
def score (st : RunState) : Nat :=
  st.pact.count true + st.bact.count true + countTrueD st.vact

/-- Structural invariant of every state reachable in a run of `wf`: the
pipe/block activation lists keep their lengths, and the variable-activation
dictionary has distinct keys, all within `varUniverse wf`. -/
def StInv (wf : WorkFlow) (st : RunState) : Prop :=
  st.pact.length = wf.pipes.length ∧
  st.bact.length = wf.blocks.length ∧
  (st.vact.map Prod.fst).Nodup ∧
  ∀ k ∈ st.vact.map Prod.fst, k ∈ varUniverse wf

/-- Block `b` at position `j` is unactivated with all inputs activated. -/
def readyB (st : RunState) (j : Nat) (b : Block) : Prop :=
  st.bact.getD j false = false ∧ allActivated st.vact b.inputs = .ok true

/-- The spec's description of a workflow-level input (§4.4, amended for the
self-pipe corner): not produced as any block's output and not the target of
a pipe whose source is a different variable. -/
def isSpecInput (wf : WorkFlow) (v : Variable) : Bool :=
  (wf.blocks.all fun b => b.outputs.all fun o => !(o.id == v.id)) &&
  (wf.pipes.all fun p =>
    !(p.output_variable.id == v.id) || (p.input_variable.id == v.id))

/-- One run state extends another: every activated pipe, block and variable
of the smaller state is activated in the larger one, the heap is the same,
and the two agree on the values of the smaller state's activated
variables. -/
def Agrees (A B : RunState) : Prop :=
  A.heap = B.heap ∧
  (∀ i, B.pact.getD i false = true → A.pact.getD i false = true) ∧
  (∀ j, B.bact.getD j false = true → A.bact.getD j false = true) ∧
  ∀ k, B.vact.lookup k = some true →
    A.vact.lookup k = some true ∧ A.values.lookup k = B.values.lookup k

/-- A run state at the activation fixpoint: no pipe and no block of the
workflow could still fire. -/
def Terminal (wf : WorkFlow) (A : RunState) : Prop :=
  (∀ i p, wf.pipes[i]? = some p →
    A.pact.getD i false = true ∨
      A.vact.lookup p.input_variable.id ≠ some true) ∧
  ∀ j b, wf.blocks[j]? = some b →
    A.bact.getD j false = true ∨ allActivated A.vact b.inputs ≠ .ok true

/-- Coherence of a run state with its own history: every fired pipe still
relays its source's current value, and every fired block's recorded outputs
still match re-evaluating it on its inputs' current values. -/
def Coh (wf : WorkFlow) (A : RunState) : Prop :=
  (∀ i p, wf.pipes[i]? = some p → A.pact.getD i false = true →
    A.vact.lookup p.input_variable.id = some true ∧
    A.vact.lookup p.output_variable.id = some true ∧
    A.values.lookup p.output_variable.id =
      A.values.lookup p.input_variable.id) ∧
  ∀ j b, wf.blocks[j]? = some b → A.bact.getD j false = true →
    allActivated A.vact b.inputs = .ok true ∧
    ∃ ins r outs, gatherValues A.values b.inputs = .ok ins ∧
      b.eval A.heap ins = .ok r ∧ pyIterate r.2 = .ok outs ∧
      ∀ pr ∈ b.outputs.zip outs,
        A.vact.lookup (pr : Variable × Value).1.id = some true ∧
        A.values.lookup pr.1.id = some pr.2

/-- Provenance: every activated variable was written by the input binding,
by a pipe that has fired, or by a block that has fired. -/
def Prov (wf : WorkFlow) (st : RunState) : Prop :=
  ∀ k, st.vact.lookup k = some true →
    k ∈ wf.inputs.map Variable.id ∨
    (∃ i p, wf.pipes[i]? = some p ∧ st.pact.getD i false = true ∧
      p.output_variable.id = k) ∨
    ∃ j b, wf.blocks[j]? = some b ∧ st.bact.getD j false = true ∧
      k ∈ b.outputs.map Variable.id

/-- The global invariant of a run of `wf` started on heap `h0`: the heap is
unchanged, the activation lists keep their lengths, every workflow variable
has an activation flag, a variable holds a value exactly when it is
activated, and the state has provenance and coherence. -/
def GInv (wf : WorkFlow) (h0 : Heap) (st : RunState) : Prop :=
  st.heap = h0 ∧
  st.pact.length = wf.pipes.length ∧
  st.bact.length = wf.blocks.length ∧
  (∀ v ∈ wf.variables, (st.vact.lookup v.id).isSome) ∧
  (∀ k, st.vact.lookup k = some true → (st.values.lookup k).isSome) ∧
  (∀ k x, st.values.lookup k = some x → st.vact.lookup k = some true) ∧
  Prov wf st ∧ Coh wf st

/-- Every block's `evaluate` is a pure function of its input values: it
never reads or mutates the heap, never raises, and returns a proper list
of output values. -/
def PureBlocks (wf : WorkFlow) : Prop :=
  ∀ b ∈ wf.blocks, ∃ f : List Value → List Value,
    ∀ (h : Heap) (vs : List Value), b.eval h vs = .ok (h, .list (f vs))

/-- Every identity a run can write: the workflow inputs, the pipe targets
and the block outputs. -/
def writerIds (wf : WorkFlow) : List Nat :=
  wf.inputs.map Variable.id ++
    (wf.pipes.map fun p => p.output_variable.id) ++
    wf.blocks.flatMap fun b => b.outputs.map Variable.id

/-- No variable has two writers: the input binding, the pipe relays and the
block output bindings all write pairwise distinct variables. -/
def SingleWriter (wf : WorkFlow) : Prop := (writerIds wf).Nodup

/-- Every pipe's source is one of the workflow's variables (so its
activation flag exists and its relay can never raise a `KeyError`). -/
def PipeSourcesValid (wf : WorkFlow) : Prop :=
  ∀ p ∈ wf.pipes, p.input_variable.id ∈ wf.variables.map Variable.id

/-! ## Concrete workflows used as test vectors and witnesses -/

/-- A Python function returning a bare integer (not wrapped in a list):
`lambda x: x + 1`. -/
def intSucc : Heap → List Value → Except PyErr (Heap × Value) :=
  fun heap values =>
    match values with
    | [.int n] => .ok (heap, .int (n + 1))
    | _ => .error .typeError

/-- A workflow holding the single `Function` block over `intSucc`. -/
def wfFn : WorkFlow := ⟨[FunctionBlock 0 ["x"] intSucc], [], ⟨1, "Output function"⟩⟩

/-- A Python function correctly returning a one-element list holding its
argument: `lambda x: [x]` (so its `Function` block binds its output to `x`). -/
def listId : Heap → List Value → Except PyErr (Heap × Value) :=
  fun heap values =>
    match values with
    | v :: _ => .ok (heap, .list [v])
    | [] => .error .indexError

/-- A workflow holding the single `Function` block over `listId`; its run
maps input `v` to output `v`. -/
def wfId : WorkFlow := ⟨[FunctionBlock 0 ["x"] listId], [], ⟨1, "Output function"⟩⟩

/-- A workflow with no blocks and no pipes whose designated output variable
is dangling. -/
def wfEmptyOut : WorkFlow := ⟨[], [], ⟨0, "out"⟩⟩

/-- A block consuming one variable `x` and producing nothing. -/
def bX : Block := ⟨[⟨0, "x"⟩], [], fun h _ => .ok (h, .list [])⟩

/-- A workflow whose only pipe is a self-pipe on `bX`'s input `x`. -/
def wfSelf : WorkFlow := ⟨[bX], [⟨⟨0, "x"⟩, ⟨0, "x"⟩⟩], ⟨0, "x"⟩⟩

/-- A workflow with a pipe whose source variable is dangling (identity 99
belongs to no block variable). -/
def wfDangle : WorkFlow := ⟨[bX], [⟨⟨99, "z"⟩, ⟨0, "x"⟩⟩], ⟨0, "x"⟩⟩

/-- Attribute assignment on a user object. -/
def osetAttr (o : Obj) (k : String) (v : Value) : Obj :=
  if (o.lookup k).isSome then o.map (fun p => if p.1 = k then (k, v) else p)
  else o ++ [(k, v)]

/-- A mutating user method: increments the receiver's attribute `n` in
place and returns the old value. -/
def bumpMethod : PyMethod :=
  ⟨[], fun obj _ =>
    match obj.lookup "n" with
    | some (.int n) => (osetAttr obj "n" (.int (n + 1)), .int n)
    | _ => (obj, .none)⟩

/-- Mutation-visibility workflow: a `ModelMethod` over `bumpMethod` whose
re-emitted receiver (variable 12) is piped to two `ModelAttribute` readers
of `n` (variables 20 and 30). -/
def wfC6 : WorkFlow :=
  ⟨[ModelMethod 10 "bump" bumpMethod, ModelAttribute 20 "n", ModelAttribute 30 "n"],
   [⟨⟨12, "model at output bump"⟩, ⟨20, "Model"⟩⟩,
    ⟨⟨12, "model at output bump"⟩, ⟨30, "Model"⟩⟩],
   ⟨21, "Model attribute"⟩⟩

/-- A workflow with a `ForEach` over `wfId`. -/
def wfFE : WorkFlow := ⟨[ForEach 100 wfId], [], ⟨101, "Foreach output"⟩⟩

/-- Two independent single-input function blocks, simultaneously ready. -/
def wfTwo : WorkFlow :=
  ⟨[FunctionBlock 0 ["a"] listId, FunctionBlock 10 ["b"] listId],
   [], ⟨1, "Output function"⟩⟩

/-- A block declaring two outputs whose `evaluate` returns a one-element
list. -/
def bShort : Block :=
  ⟨[⟨0, "x"⟩], [⟨1, "o1"⟩, ⟨2, "o2"⟩],
   fun h vs => .ok (h, .list [vs.headD .none])⟩

/-- A workflow holding only `bShort`. -/
def wfShort : WorkFlow := ⟨[bShort], [], ⟨1, "o1"⟩⟩

/-- A run state with variable 5 activated and bound to `7`, used to
exercise a pipe relay step. -/
def stRelay : RunState :=
  { heap := [], pact := [false], bact := [], vact := [(5, true)],
    values := [(5, .int 7)], trace := [] }

/-- A pipe from variable 5 to variable 6. -/
def pRelay : Pipe := ⟨⟨5, "s"⟩, ⟨6, "t"⟩⟩

/-- A mutating callable: doubles the attribute `n` of the heap's first
object in place and returns the one-element list of the new value. -/
def evalDouble : Heap → List Value → Except PyErr (Heap × Value) :=
  fun h _ =>
    match h with
    | o :: rest =>
      match o.lookup "n" with
      | some (.int k) =>
        .ok (osetAttr o "n" (.int (2 * k)) :: rest, .list [.int (2 * k)])
      | _ => .error .attributeError
    | [] => .error .indexError

/-- A mutating callable: increments the attribute `n` of the heap's first
object in place and returns the one-element list of the new value. -/
def evalInc : Heap → List Value → Except PyErr (Heap × Value) :=
  fun h _ =>
    match h with
    | o :: rest =>
      match o.lookup "n" with
      | some (.int k) =>
        .ok (osetAttr o "n" (.int (k + 1)) :: rest, .list [.int (k + 1)])
      | _ => .error .attributeError
    | [] => .error .indexError

/-- The doubling block: input `u` (10), output `o1` (11). -/
def bDouble : Block := ⟨[⟨10, "u"⟩], [⟨11, "o1"⟩], evalDouble⟩

/-- The incrementing block: input `y` (20), output `o2` (21). -/
def bInc : Block := ⟨[⟨20, "y"⟩], [⟨21, "o2"⟩], evalInc⟩

/-- A workflow whose two heap-mutating blocks `run` and the spec's stepwise
mode evaluate in different orders: `bDouble` is declared first but is only
enabled by the pipe `y → u`, while `bInc` is ready as soon as the input `y`
is bound. -/
def wfOrder : WorkFlow := ⟨[bDouble, bInc], [⟨⟨20, "y"⟩, ⟨10, "u"⟩⟩], ⟨21, "o2"⟩⟩

/-- The shared mutable object of `wfOrder`'s counterexample heap, holding
`n = 1`. -/
def heapOrder : Heap := [[("n", .int 1)]]

/-- A pure single-block workflow: one input `x` (0), one output `o` (1),
the block returning the one-element list of its first input value. -/
def wfPure : WorkFlow :=
  ⟨[⟨[⟨0, "x"⟩], [⟨1, "o"⟩], fun h vs => .ok (h, .list [vs.headD .none])⟩],
   [], ⟨1, "o"⟩⟩

/-! ## Dictionary lemmas -/

theorem lookup_mapReplace_self {α : Type} (d : List (Nat × α)) (k : Nat) (v : α) :
    (d.map fun p => if p.1 = k then (k, v) else p).lookup k =
      (d.lookup k).map fun _ => v := by
  induction d with
  | nil => rfl
  | cons p d ih =>
    obtain ⟨a, b⟩ := p
    simp only [List.map_cons]
    by_cases h : a = k
    · subst h
      rw [show (if (a, b).1 = a then (a, v) else (a, b)) = (a, v) from if_pos rfl]
      simp [List.lookup_cons]
    · rw [show (if (a, b).1 = k then (k, v) else (a, b)) = (a, b) from if_neg h]
      rw [List.lookup_cons, List.lookup_cons]
      rw [beq_false_of_ne (fun hk => h hk.symm)]
      simpa using ih

theorem lookup_mapReplace_ne {α : Type} (d : List (Nat × α)) (k k' : Nat)
    (v : α) (h : k' ≠ k) :
    (d.map fun p => if p.1 = k then (k, v) else p).lookup k' = d.lookup k' := by
  induction d with
  | nil => rfl
  | cons p d ih =>
    obtain ⟨a, b⟩ := p
    simp only [List.map_cons]
    by_cases ha : a = k
    · subst ha
      rw [show (if (a, b).1 = a then (a, v) else (a, b)) = (a, v) from if_pos rfl]
      rw [List.lookup_cons, List.lookup_cons]
      rw [beq_false_of_ne h]
      exact ih
    · rw [show (if (a, b).1 = k then (k, v) else (a, b)) = (a, b) from if_neg ha]
      rw [List.lookup_cons, List.lookup_cons]
      cases hba : k' == a
      · exact ih
      · rfl

theorem lookup_append_single_ne {α : Type} (d : List (Nat × α)) (k k' : Nat)
    (v : α) (h : k' ≠ k) : (d ++ [(k, v)]).lookup k' = d.lookup k' := by
  induction d with
  | nil =>
    simp only [List.nil_append, List.lookup_cons, beq_false_of_ne h]
  | cons p d ih =>
    obtain ⟨a, b⟩ := p
    rw [List.cons_append, List.lookup_cons, List.lookup_cons]
    cases hba : k' == a
    · exact ih
    · rfl

theorem lookup_append_single_self {α : Type} (d : List (Nat × α)) (k : Nat)
    (v : α) (h : d.lookup k = Option.none) :
    (d ++ [(k, v)]).lookup k = some v := by
  induction d with
  | nil => simp
  | cons p d ih =>
    obtain ⟨a, b⟩ := p
    rw [List.cons_append, List.lookup_cons]
    rw [List.lookup_cons] at h
    cases hba : k == a
    · rw [hba] at h
      exact ih h
    · rw [hba] at h
      simp at h

theorem lookup_dset_self {α : Type} (d : List (Nat × α)) (k : Nat) (v : α) :
    (dset d k v).lookup k = some v := by
  unfold dset
  by_cases h : (d.lookup k).isSome
  · rw [if_pos h, lookup_mapReplace_self]
    obtain ⟨b, hb⟩ := Option.isSome_iff_exists.mp h
    simp [hb]
  · rw [if_neg h]
    exact lookup_append_single_self d k v (Option.not_isSome_iff_eq_none.mp h)

theorem lookup_dset_ne {α : Type} (d : List (Nat × α)) (k k' : Nat) (v : α)
    (h : k' ≠ k) : (dset d k v).lookup k' = d.lookup k' := by
  unfold dset
  by_cases hs : (d.lookup k).isSome
  · rw [if_pos hs, lookup_mapReplace_ne d k k' v h]
  · rw [if_neg hs, lookup_append_single_ne d k k' v h]

theorem dget_dset_self {α : Type} (d : List (Nat × α)) (k : Nat) (v : α) :
    dget (dset d k v) k = .ok v := by
  simp [dget, lookup_dset_self]

theorem dget_dset_ne {α : Type} (d : List (Nat × α)) (k k' : Nat) (v : α)
    (h : k' ≠ k) : dget (dset d k v) k' = dget d k' := by
  simp [dget, lookup_dset_ne d k k' v h]

theorem dget_eq_ok_iff {α : Type} (d : List (Nat × α)) (k : Nat) (v : α) :
    dget d k = .ok v ↔ d.lookup k = some v := by
  unfold dget
  cases d.lookup k <;> simp

/-! ## Counting lemmas -/

theorem count_set_true (l : List Bool) (i : Nat) (hi : i < l.length)
    (h : l.getD i false = false) :
    (l.set i true).count true = l.count true + 1 := by
  induction l generalizing i with
  | nil => simp at hi
  | cons x l ih =>
    cases i with
    | zero =>
      simp only [List.getD_cons_zero] at h
      subst h
      simp [List.count_cons]
    | succ n =>
      simp only [List.getD_cons_succ] at h
      simp only [List.length_cons, Nat.succ_lt_succ_iff] at hi
      simp only [List.set_cons_succ, List.count_cons, ih n hi h]
      omega

theorem countTrueD_le (d : List (Nat × Bool)) : countTrueD d ≤ d.length :=
  List.length_filter_le _ _

theorem countTrueD_dset_true_ge (d : List (Nat × Bool)) (k : Nat) :
    countTrueD d ≤ countTrueD (dset d k true) := by
  unfold dset
  by_cases hs : (d.lookup k).isSome
  · rw [if_pos hs]
    clear hs
    induction d with
    | nil => simp [countTrueD]
    | cons p d ih =>
      by_cases hk : p.1 = k
      · simp only [countTrueD, List.map_cons, List.filter, if_pos hk]
        cases hb : p.2 <;> simp_all [countTrueD]
        omega
      · simp only [countTrueD, List.map_cons, List.filter, if_neg hk]
        cases hb : p.2 <;> simp_all [countTrueD]
  · rw [if_neg hs]
    simp [countTrueD, List.filter_append]

theorem keys_mapReplace (d : List (Nat × Bool)) (k : Nat) (v : Bool) :
    (d.map fun p => if p.1 = k then (k, v) else p).map Prod.fst =
      d.map Prod.fst := by
  induction d with
  | nil => rfl
  | cons p d ih =>
    by_cases hk : p.1 = k
    · simp [if_pos hk, ih, hk]
    · simp [if_neg hk, ih]

theorem keys_dset (d : List (Nat × Bool)) (k : Nat) (v : Bool) :
    (dset d k v).map Prod.fst = d.map Prod.fst ∨
      (dset d k v).map Prod.fst = d.map Prod.fst ++ [k] := by
  unfold dset
  by_cases hs : (d.lookup k).isSome
  · rw [if_pos hs]
    exact Or.inl (keys_mapReplace d k v)
  · rw [if_neg hs]
    simp

theorem lookup_none_of_not_mem_keys {α : Type} (d : List (Nat × α)) (k : Nat)
    (h : k ∉ d.map Prod.fst) : d.lookup k = Option.none := by
  induction d with
  | nil => rfl
  | cons p d ih =>
    simp only [List.map_cons, List.mem_cons, not_or] at h
    rw [List.lookup_cons, beq_false_of_ne h.1]
    exact ih h.2

theorem mem_keys_of_lookup_isSome {α : Type} (d : List (Nat × α)) (k : Nat)
    (h : (d.lookup k).isSome) : k ∈ d.map Prod.fst := by
  by_contra hk
  rw [lookup_none_of_not_mem_keys d k hk] at h
  simp at h

theorem lookup_isSome_of_mem_keys {α : Type} (d : List (Nat × α)) (k : Nat)
    (h : k ∈ d.map Prod.fst) : (d.lookup k).isSome := by
  rw [Option.isSome_iff_ne_none]
  intro hn
  rw [List.lookup_eq_none_iff] at hn
  obtain ⟨p, hp, hpk⟩ := List.mem_map.mp h
  have := hn p hp
  simp [hpk] at this

theorem nodup_keys_dset (d : List (Nat × Bool)) (k : Nat) (v : Bool)
    (h : (d.map Prod.fst).Nodup) : ((dset d k v).map Prod.fst).Nodup := by
  unfold dset
  by_cases hs : (d.lookup k).isSome
  · rw [if_pos hs, keys_mapReplace]
    exact h
  · rw [if_neg hs]
    simp only [List.map_append, List.map_cons, List.map_nil]
    rw [List.nodup_append]
    refine ⟨h, List.nodup_singleton k, ?_⟩
    intro x hx hx'
    simp only [List.mem_singleton] at hx'
    subst hx'
    exact hs (lookup_isSome_of_mem_keys d x hx)

theorem nodup_subset_length_le {l l' : List Nat} (h : l.Nodup)
    (hs : l ⊆ l') : l.length ≤ l'.length := by
  calc l.length = l.toFinset.card := (List.toFinset_card_of_nodup h).symm
    _ ≤ l'.toFinset.card := Finset.card_le_card fun x hx => by
        simp only [List.mem_toFinset] at hx ⊢
        exact hs hx
    _ ≤ l'.length := l'.toFinset_card_le

/-! ## Activation monotonicity lemmas -/

theorem allActivated_cons_iff (d : List (Nat × Bool)) (v : Variable)
    (ins : List Variable) :
    allActivated d (v :: ins) = .ok true ↔
      dget d v.id = .ok true ∧ allActivated d ins = .ok true := by
  constructor
  · intro h
    unfold allActivated at h
    cases hg : dget d v.id with
    | error e => rw [hg] at h; exact absurd h (by simp)
    | ok a =>
      cases a
      · rw [hg] at h
        exact absurd h (by simp)
      · rw [hg] at h
        exact ⟨rfl, h⟩
  · intro ⟨h1, h2⟩
    unfold allActivated
    rw [h1]
    exact h2

theorem allActivated_dset_true (d : List (Nat × Bool)) (k : Nat)
    (ins : List Variable) (h : allActivated d ins = .ok true) :
    allActivated (dset d k true) ins = .ok true := by
  induction ins with
  | nil => rfl
  | cons v ins ih =>
    rw [allActivated_cons_iff] at h ⊢
    refine ⟨?_, ih h.2⟩
    by_cases hk : v.id = k
    · subst hk
      exact dget_dset_self d v.id true
    · rw [dget_dset_ne d k v.id true hk]
      exact h.1

theorem bindOutputs_spec (st : RunState) (pairs : List (Variable × Value)) :
    (bindOutputs st pairs).pact = st.pact ∧
    (bindOutputs st pairs).bact = st.bact ∧
    (bindOutputs st pairs).trace = st.trace ∧
    (bindOutputs st pairs).heap = st.heap ∧
    countTrueD st.vact ≤ countTrueD (bindOutputs st pairs).vact ∧
    ((st.vact.map Prod.fst).Nodup →
      ((bindOutputs st pairs).vact.map Prod.fst).Nodup) ∧
    (∀ x ∈ (bindOutputs st pairs).vact.map Prod.fst,
       x ∈ st.vact.map Prod.fst ∨ ∃ pv ∈ pairs, x = (pv : Variable × Value).1.id) ∧
    (∀ ins, allActivated st.vact ins = .ok true →
       allActivated (bindOutputs st pairs).vact ins = .ok true) := by
  induction pairs generalizing st with
  | nil =>
    refine ⟨rfl, rfl, rfl, rfl, le_refl _, fun h => h, fun x hx => Or.inl hx, fun ins h => h⟩
  | cons pv rest ih =>
    have hstep : bindOutputs st (pv :: rest) =
        bindOutputs { st with values := dset st.values pv.1.id pv.2,
                              vact := dset st.vact pv.1.id true } rest := rfl
    set st1 : RunState := { st with values := dset st.values pv.1.id pv.2,
                                    vact := dset st.vact pv.1.id true } with hst1
    obtain ⟨h1, h2, h3, h4, h5, h6, h7, h8⟩ := ih st1
    rw [hstep]
    refine ⟨h1, h2, h3, h4, ?_, ?_, ?_, ?_⟩
    · exact le_trans (countTrueD_dset_true_ge st.vact pv.1.id) h5
    · intro hn
      exact h6 (nodup_keys_dset st.vact pv.1.id true hn)
    · intro x hx
      rcases h7 x hx with hx1 | hx1
      · rcases keys_dset st.vact pv.1.id true with hk | hk
        · rw [hk] at hx1
          exact Or.inl hx1
        · rw [hk] at hx1
          rcases List.mem_append.mp hx1 with hx2 | hx2
          · exact Or.inl hx2
          · simp only [List.mem_singleton] at hx2
            exact Or.inr ⟨pv, List.mem_cons_self pv rest, hx2⟩
      · obtain ⟨q, hq, hqx⟩ := hx1
        exact Or.inr ⟨q, List.mem_cons_of_mem pv hq, hqx⟩
    · intro ins h
      exact h8 ins (allActivated_dset_true st.vact pv.1.id ins h)

/-! ## Step dichotomy lemmas -/

theorem pipeStep_cases (wf : WorkFlow) (st : RunState) (i : Nat) (p : Pipe)
    (hinv : StInv wf st) (hi : i < wf.pipes.length)
    (hp : p.output_variable.id ∈ varUniverse wf) :
    (∃ e, pipeStep st i p = .error e) ∨
    pipeStep st i p = .ok (st, false) ∨
    (∃ st', pipeStep st i p = .ok (st', true) ∧ StInv wf st' ∧
      score st < score st' ∧ st'.bact = st.bact ∧ st'.trace = st.trace ∧
      (∀ ins, allActivated st.vact ins = .ok true →
        allActivated st'.vact ins = .ok true)) := by
  unfold pipeStep
  split
  · exact Or.inr (Or.inl rfl)
  next hact =>
    cases hg : dget st.vact p.input_variable.id with
    | error e => exact Or.inl ⟨e, rfl⟩
    | ok a =>
      cases a
      · exact Or.inr (Or.inl rfl)
      · cases hv : dget st.values p.input_variable.id with
        | error e => exact Or.inl ⟨e, rfl⟩
        | ok v =>
          refine Or.inr (Or.inr ⟨_, rfl, ?_, ?_, rfl, rfl, ?_⟩)
          · obtain ⟨l1, l2, l3, l4⟩ := hinv
            refine ⟨?_, l2, ?_, ?_⟩
            · simpa [List.length_set] using l1
            · exact nodup_keys_dset _ _ _ l3
            · intro k hk
              rcases keys_dset st.vact p.output_variable.id true with he | he
              · rw [he] at hk
                exact l4 k hk
              · rw [he] at hk
                rcases List.mem_append.mp hk with h1 | h1
                · exact l4 k h1
                · simp only [List.mem_singleton] at h1
                  subst h1
                  exact hp
          · unfold score
            have hil : i < st.pact.length := by
              rw [hinv.1]
              exact hi
            have hpf : st.pact.getD i false = false := by
              simpa using hact
            have hpc : (st.pact.set i true).count true = st.pact.count true + 1 :=
              count_set_true st.pact i hil hpf
            have hvd := countTrueD_dset_true_ge st.vact p.output_variable.id
            simp only [hpc]
            omega
          · intro ins h
            exact allActivated_dset_true _ _ _ h

theorem blockStep_cases (wf : WorkFlow) (st : RunState) (j : Nat) (b : Block)
    (hinv : StInv wf st) (hj : j < wf.blocks.length)
    (hb : ∀ v ∈ b.outputs, v.id ∈ varUniverse wf) :
    (∃ e, blockStep st j b = .error e) ∨
    blockStep st j b = .ok (st, false) ∨
    (∃ st', blockStep st j b = .ok (st', true) ∧ StInv wf st' ∧
      score st < score st' ∧ st'.pact = st.pact ∧
      st'.bact = st.bact.set j true ∧ st'.trace = st.trace ++ [j] ∧
      (∀ ins, allActivated st.vact ins = .ok true →
        allActivated st'.vact ins = .ok true)) := by
  unfold blockStep
  split
  · exact Or.inr (Or.inl rfl)
  next hact =>
    split
    next e ha => exact Or.inl ⟨e, rfl⟩
    next ha => exact Or.inr (Or.inl rfl)
    next ha =>
      split
      next e hgv => exact Or.inl ⟨e, rfl⟩
      next ins hgv =>
        split
        next e hev => exact Or.inl ⟨e, rfl⟩
        next r hev =>
          split
          next e hit => exact Or.inl ⟨e, rfl⟩
          next outs hit =>
            obtain ⟨b1, b2, b3, b4, b5, b6, b7, b8⟩ :=
              bindOutputs_spec { st with heap := r.1 } (b.outputs.zip outs)
            set st1 : RunState :=
              bindOutputs { st with heap := r.1 } (b.outputs.zip outs) with hst1
            refine Or.inr (Or.inr ⟨_, rfl, ?_, ?_, ?_, ?_, ?_, ?_⟩)
            · obtain ⟨l1, l2, l3, l4⟩ := hinv
              refine ⟨?_, ?_, ?_, ?_⟩
              · show st1.pact.length = wf.pipes.length
                rw [b1]
                exact l1
              · show (st1.bact.set j true).length = wf.blocks.length
                rw [List.length_set, b2]
                exact l2
              · exact b6 l3
              · intro k hk
                rcases b7 k hk with h1 | h1
                · exact l4 k h1
                · obtain ⟨pv, hpv, hpk⟩ := h1
                  subst hpk
                  exact hb pv.1 (List.of_mem_zip hpv).1
            · unfold score
              have hjl : j < st.bact.length := by
                rw [hinv.2.1]
                exact hj
              have hbf : st.bact.getD j false = false := by
                simpa using hact
              have hb2 : (st1.bact.set j true).count true = st.bact.count true + 1 := by
                rw [b2]
                exact count_set_true st.bact j hjl hbf
              have b5x : countTrueD st.vact ≤ countTrueD st1.vact := b5
              simp only [b1, hb2]
              omega
            · exact b1
            · rw [b2]
            · rw [b3]
            · intro ins' h
              exact b8 ins' h

/-! ## Phase and pass lemmas -/

theorem pipePhase_cases (wf : WorkFlow) (pipes : List (Nat × Pipe))
    (st : RunState) (flag : Bool) (hinv : StInv wf st)
    (hmem : ∀ ip ∈ pipes, (ip : Nat × Pipe).1 < wf.pipes.length ∧
      ip.2.output_variable.id ∈ varUniverse wf) :
    (∃ e, pipePhase pipes st flag = .error e) ∨
    (∃ st' flag', pipePhase pipes st flag = .ok (st', flag') ∧ StInv wf st' ∧
      score st ≤ score st' ∧ st'.bact = st.bact ∧ st'.trace = st.trace ∧
      (∀ ins, allActivated st.vact ins = .ok true →
        allActivated st'.vact ins = .ok true) ∧
      ((st' = st ∧ flag' = flag) ∨ (score st < score st' ∧ flag' = true))) := by
  induction pipes generalizing st flag with
  | nil =>
    exact Or.inr ⟨st, flag, rfl, hinv, le_refl _, rfl, rfl, fun _ h => h,
      Or.inl ⟨rfl, rfl⟩⟩
  | cons ip rest ih =>
    have hip := hmem ip (List.mem_cons_self ip rest)
    have hrest : ∀ x ∈ rest, (x : Nat × Pipe).1 < wf.pipes.length ∧
        x.2.output_variable.id ∈ varUniverse wf :=
      fun x hx => hmem x (List.mem_cons_of_mem ip hx)
    rcases pipeStep_cases wf st ip.1 ip.2 hinv hip.1 hip.2 with
      ⟨e, he⟩ | hid | ⟨st1, hfire, hinv1, hsc, hbact, htr, hpres⟩
    · refine Or.inl ⟨e, ?_⟩
      unfold pipePhase
      rw [he]
    · unfold pipePhase
      rw [hid]
      simpa using ih st flag hinv hrest
    · unfold pipePhase
      rw [hfire]
      rcases ih st1 (flag || true) hinv1 hrest with
        ⟨e, he⟩ | ⟨st', flag', hres, hinv', hsc', hbact', htr', hpres', hcase⟩
      · exact Or.inl ⟨e, he⟩
      · refine Or.inr ⟨st', flag', hres, hinv', le_trans (le_of_lt hsc) hsc',
          hbact' ▸ hbact, htr' ▸ htr, fun ins h => hpres' ins (hpres ins h), ?_⟩
        rcases hcase with ⟨heq, hfl⟩ | ⟨hlt, hfl⟩
        · subst heq
          exact Or.inr ⟨hsc, by simpa using hfl⟩
        · exact Or.inr ⟨lt_of_lt_of_le hsc hsc', hfl⟩

theorem blockPhase_cases (wf : WorkFlow) (blocks : List (Nat × Block))
    (st : RunState) (flag : Bool) (hinv : StInv wf st)
    (hmem : ∀ jb ∈ blocks, (jb : Nat × Block).1 < wf.blocks.length ∧
      ∀ v ∈ jb.2.outputs, v.id ∈ varUniverse wf) :
    (∃ e, blockPhase blocks st flag = .error e) ∨
    (∃ st' flag', blockPhase blocks st flag = .ok (st', flag') ∧ StInv wf st' ∧
      score st ≤ score st' ∧ st'.pact = st.pact ∧
      (∀ ins, allActivated st.vact ins = .ok true →
        allActivated st'.vact ins = .ok true) ∧
      ((st' = st ∧ flag' = flag) ∨ (score st < score st' ∧ flag' = true))) := by
  induction blocks generalizing st flag with
  | nil =>
    exact Or.inr ⟨st, flag, rfl, hinv, le_refl _, rfl, fun _ h => h,
      Or.inl ⟨rfl, rfl⟩⟩
  | cons jb rest ih =>
    have hjb := hmem jb (List.mem_cons_self jb rest)
    have hrest : ∀ x ∈ rest, (x : Nat × Block).1 < wf.blocks.length ∧
        ∀ v ∈ x.2.outputs, v.id ∈ varUniverse wf :=
      fun x hx => hmem x (List.mem_cons_of_mem jb hx)
    rcases blockStep_cases wf st jb.1 jb.2 hinv hjb.1 hjb.2 with
      ⟨e, he⟩ | hid | ⟨st1, hfire, hinv1, hsc, hpact, hbact, htr, hpres⟩
    · refine Or.inl ⟨e, ?_⟩
      unfold blockPhase
      rw [he]
    · unfold blockPhase
      rw [hid]
      simpa using ih st flag hinv hrest
    · unfold blockPhase
      rw [hfire]
      rcases ih st1 (flag || true) hinv1 hrest with
        ⟨e, he⟩ | ⟨st', flag', hres, hinv', hsc', hpact', hpres', hcase⟩
      · exact Or.inl ⟨e, he⟩
      · refine Or.inr ⟨st', flag', hres, hinv', le_trans (le_of_lt hsc) hsc',
          hpact' ▸ hpact, fun ins h => hpres' ins (hpres ins h), ?_⟩
        rcases hcase with ⟨heq, hfl⟩ | ⟨hlt, hfl⟩
        · subst heq
          exact Or.inr ⟨hsc, by simpa using hfl⟩
        · exact Or.inr ⟨lt_of_lt_of_le hsc hsc', hfl⟩

theorem enum_pipes_mem (wf : WorkFlow) :
    ∀ ip ∈ wf.pipes.enum, (ip : Nat × Pipe).1 < wf.pipes.length ∧
      ip.2.output_variable.id ∈ varUniverse wf := by
  intro ip hip
  rw [List.mem_enum_iff_get?] at hip
  constructor
  · obtain ⟨h, _⟩ := List.get?_eq_some.mp hip
    exact h
  · have hp : ip.2 ∈ wf.pipes := List.get?_mem hip
    unfold varUniverse
    rw [List.mem_dedup]
    exact List.mem_append.mpr (Or.inr (List.mem_map_of_mem _ hp))

theorem enum_blocks_mem (wf : WorkFlow) :
    ∀ jb ∈ wf.blocks.enum, (jb : Nat × Block).1 < wf.blocks.length ∧
      ∀ v ∈ jb.2.outputs, v.id ∈ varUniverse wf := by
  intro jb hjb
  rw [List.mem_enum_iff_get?] at hjb
  constructor
  · obtain ⟨h, _⟩ := List.get?_eq_some.mp hjb
    exact h
  · intro v hv
    have hbm : jb.2 ∈ wf.blocks := List.get?_mem hjb
    have hvv : v ∈ wf.variables := by
      unfold WorkFlow.variables
      exact List.mem_flatMap.mpr ⟨jb.2, hbm, List.mem_append.mpr (Or.inr hv)⟩
    unfold varUniverse
    rw [List.mem_dedup]
    exact List.mem_append.mpr (Or.inl (List.mem_map_of_mem _ hvv))

theorem runPass_cases (wf : WorkFlow) (st : RunState) (hinv : StInv wf st) :
    (∃ e, runPass wf st = .error e) ∨
    (∃ st' flag, runPass wf st = .ok (st', flag) ∧ StInv wf st' ∧
      score st ≤ score st' ∧
      ((st' = st ∧ flag = false) ∨ (score st < score st' ∧ flag = true))) := by
  unfold runPass
  rcases pipePhase_cases wf wf.pipes.enum st false hinv (enum_pipes_mem wf) with
    ⟨e, he⟩ | ⟨st1, f1, hres1, hinv1, hsc1, _, _, _, hcase1⟩
  · rw [he]
    exact Or.inl ⟨e, rfl⟩
  · rw [hres1]
    rcases blockPhase_cases wf wf.blocks.enum st1 f1 hinv1 (enum_blocks_mem wf) with
      ⟨e, he⟩ | ⟨st', f2, hres2, hinv', hsc2, _, _, hcase2⟩
    · exact Or.inl ⟨e, he⟩
    · refine Or.inr ⟨st', f2, hres2, hinv', le_trans hsc1 hsc2, ?_⟩
      rcases hcase1 with ⟨heq1, hf1⟩ | ⟨hlt1, hf1⟩
      · subst heq1
        subst hf1
        rcases hcase2 with ⟨heq2, hf2⟩ | ⟨hlt2, hf2⟩
        · exact Or.inl ⟨heq2, hf2⟩
        · exact Or.inr ⟨hlt2, hf2⟩
      · rcases hcase2 with ⟨heq2, hf2⟩ | ⟨hlt2, hf2⟩
        · subst heq2
          exact Or.inr ⟨hlt1, hf1 ▸ hf2⟩
        · exact Or.inr ⟨lt_of_lt_of_le hlt1 hsc2, hf2⟩

/-! ## Termination of the activation fixpoint -/

theorem score_le_bound (wf : WorkFlow) (st : RunState) (hinv : StInv wf st) :
    score st ≤ wf.pipes.length + wf.blocks.length + (varUniverse wf).length := by
  obtain ⟨l1, l2, l3, l4⟩ := hinv
  unfold score
  have h1 : st.pact.count true ≤ wf.pipes.length := by
    rw [← l1]
    exact List.count_le_length _ _
  have h2 : st.bact.count true ≤ wf.blocks.length := by
    rw [← l2]
    exact List.count_le_length _ _
  have h3 : countTrueD st.vact ≤ (varUniverse wf).length := by
    calc countTrueD st.vact ≤ st.vact.length := countTrueD_le st.vact
      _ = (st.vact.map Prod.fst).length := (List.length_map _ _).symm
      _ ≤ (varUniverse wf).length := nodup_subset_length_le l3 l4
  omega

theorem initState_fold_inv (wf : WorkFlow) (pairs : List (Value × Variable))
    (st0 : RunState) (hinv : StInv wf st0)
    (hmem : ∀ av ∈ pairs, (av : Value × Variable).2.id ∈ varUniverse wf) :
    StInv wf (pairs.foldl (fun st av =>
      { st with values := dset st.values av.2.id av.1,
                vact := dset st.vact av.2.id true }) st0) := by
  induction pairs generalizing st0 with
  | nil => exact hinv
  | cons av rest ih =>
    apply ih
    · obtain ⟨l1, l2, l3, l4⟩ := hinv
      refine ⟨l1, l2, nodup_keys_dset _ _ _ l3, ?_⟩
      intro k hk
      rcases keys_dset st0.vact av.2.id true with he | he
      · rw [he] at hk
        exact l4 k hk
      · rw [he] at hk
        rcases List.mem_append.mp hk with h1 | h1
        · exact l4 k h1
        · simp only [List.mem_singleton] at h1
          subst h1
          exact hmem av (List.mem_cons_self av rest)
    · exact fun x hx => hmem x (List.mem_cons_of_mem av hx)

theorem initState_inv (wf : WorkFlow) (heap : Heap) (args : List Value) :
    StInv wf (initState wf heap args) := by
  unfold initState
  apply initState_fold_inv
  · refine ⟨List.length_replicate _ _, List.length_replicate _ _, ?_, ?_⟩
    · show (((wf.variables.map Variable.id).dedup.map fun i => (i, false)).map
        Prod.fst).Nodup
      rw [List.map_map]
      have hcomp : (Prod.fst ∘ fun i : Nat => (i, false)) = id := rfl
      rw [hcomp, List.map_id]
      exact List.nodup_dedup (wf.variables.map Variable.id)
    · intro k hk
      simp only [List.map_map] at hk
      have hk2 : k ∈ (wf.variables.map Variable.id).dedup := by
        simpa using hk
      unfold varUniverse
      rw [List.mem_dedup]
      exact List.mem_append.mpr (Or.inl (List.mem_dedup.mp hk2))
  · intro av hav
    have h2 : av.2 ∈ wf.inputs := (List.of_mem_zip hav).2
    have h3 : av.2 ∈ wf.variables := by
      unfold WorkFlow.inputs at h2
      exact List.mem_of_mem_filter h2
    unfold varUniverse
    rw [List.mem_dedup]
    exact List.mem_append.mpr (Or.inl (List.mem_map_of_mem _ h3))

theorem runLoop_add_fuel (wf : WorkFlow) (n k : Nat) (st : RunState)
    (hinv : StInv wf st)
    (hn : wf.pipes.length + wf.blocks.length + (varUniverse wf).length + 1 ≤
      score st + n) :
    runLoop wf (n + k) st = runLoop wf n st := by
  induction n generalizing st with
  | zero =>
    exfalso
    have := score_le_bound wf st hinv
    omega
  | succ n ih =>
    have hshape : n + 1 + k = (n + k) + 1 := by omega
    rw [hshape]
    rcases runPass_cases wf st hinv with
      ⟨e, he⟩ | ⟨st', flag, hres, hinv', hsc, hcase⟩
    · unfold runLoop
      rw [he]
    · unfold runLoop
      rw [hres]
      rcases hcase with ⟨heq, hf⟩ | ⟨hlt, hf⟩
      · subst heq
        subst hf
        rfl
      · subst hf
        simp only [if_pos]
        exact ih st' hinv' (by omega)

/-! ## Claim C7: termination of the fixpoint loop -/

/-- C7: for every workflow (acyclic or not) and every input binding, the
`while something_activated` loop of `run` terminates: each pass either
activates at least one new pipe, variable or block out of a finite set
(`score` strictly increases, see `runPass_cases`) or is the final pass, so
`fuelOf wf` passes already reach the fixpoint — handing the loop any amount
of extra fuel cannot change the result of `run`'s loop. -/
theorem run_loop_reaches_fixpoint (wf : WorkFlow) (heap : Heap)
    (args : List Value) (k : Nat) :
    runLoop wf (fuelOf wf + k) (initState wf heap args) =
      runLoop wf (fuelOf wf) (initState wf heap args) := by
  apply runLoop_add_fuel wf (fuelOf wf) k _ (initState_inv wf heap args)
  unfold fuelOf
  omega

/-! ## Claim C1: the Function block violates the one-value-per-output
invariant -/

/-- C1 (refuting the claim as stated — a bug in the code): a `Function`
block built from the callable `intSucc` (`lambda x: x + 1`) does NOT bind
its single declared output to the call's return value: `Function.evaluate`
returns the bare return value instead of a one-element list (contrast
`InstanciateModel.evaluate`), so `run`'s `zip(block.outputs, output_values)`
iterates over the integer `4` and raises `TypeError`; the output variable is
never bound. -/
theorem function_block_bare_return_typeerror :
    runW wfFn [] [.int 3] = .error .typeError := rfl

/-! ## Claim C3 counterexample: run can raise without an arity mismatch -/

/-- C3 counterexample: for the workflow `wfEmptyOut` (no blocks, no pipes,
dangling designated output) the number of provided values (zero) equals the
number of workflow inputs (zero), yet `run` raises — `WorkflowRun.__init__`
looks up `values[output]` and hits a `KeyError` — refuting "run raises an
error if and only if the provided-value count differs from the input
count". -/
theorem run_error_without_arity_mismatch :
    ([] : List Value).length = wfEmptyOut.inputs.length ∧
    runW wfEmptyOut [] [] = .error .keyError ∧
    PyErr.keyError ≠ PyErr.valueError := ⟨rfl, rfl, by decide⟩

/-! ## Claim C4 counterexample: a self-pipe target can be an input -/

/-- C4 counterexample: in `wfSelf` the variable `x` is the target of a
(self-)pipe, yet `WorkFlow.__init__` computes it as a workflow input,
because `nx.ancestors` excludes the node itself, refuting "the inputs are
never targeted by a Pipe". -/
theorem selfpipe_input_is_pipe_target :
    wfSelf.inputs = [⟨0, "x"⟩] ∧
    (⟨0, "x"⟩ : Variable) ∈ wfSelf.pipes.map Pipe.output_variable :=
  ⟨rfl, by decide⟩

/-! ## Claim C8 counterexample: no construction-time validation -/

/-- C8 counterexample: `wfDangle` contains a pipe whose source variable
(identity 99) is dangling — it belongs to no block, hence is absent from
`activated_items` — and the workflow is constructed without any error; the
fault surfaces only inside `run`, whose first pipe pass looks up
`activated_items[pipe.input_variable]` and raises `KeyError`, refuting
"graph-definition errors are raised at construction and never during a
run". -/
theorem dangling_pipe_source_run_keyerror :
    wfDangle.pipes = [⟨⟨99, "z"⟩, ⟨0, "x"⟩⟩] ∧
    (∀ v ∈ wfDangle.variables, v.id ≠ 99) ∧
    runW wfDangle [] [] = .error .keyError := ⟨rfl, by decide, rfl⟩

/-! ## Graph ancestors characterization (claim C4) -/


theorem mem_inNeighbors (es : List (GNode × GNode)) (n u : GNode) :
    u ∈ inNeighbors es n ↔ (u, n) ∈ es := by
  unfold inNeighbors
  rw [List.mem_map]
  constructor
  · rintro ⟨e, he, rfl⟩
    rw [List.mem_filter] at he
    obtain ⟨e1, e2⟩ := e
    have h2 : e2 = n := by simpa using he.2
    subst h2
    exact he.1
  · intro h
    exact ⟨(u, n), List.mem_filter.mpr ⟨h, by simp⟩, rfl⟩

theorem subset_iterAncestors (es : List (GNode × GNode)) (n : Nat)
    (found : List GNode) : found ⊆ iterAncestors es n found := by
  induction n generalizing found with
  | zero => exact fun x hx => hx
  | succ m ih =>
    intro x hx
    exact ih (expandAncestors es found) (List.mem_append.mpr (Or.inl hx))

theorem iterAncestors_stable (es : List (GNode × GNode)) (found : List GNode)
    (hstable : expandAncestors es found = found) :
    ∀ n, iterAncestors es n found = found := by
  intro n
  induction n with
  | zero => rfl
  | succ m ih =>
    show iterAncestors es m (expandAncestors es found) = found
    rw [hstable]
    exact ih

theorem expandAncestors_singleton_stable (es : List (GNode × GNode))
    (n0 : GNode) (h : ∀ u ∈ inNeighbors es n0, u = n0) :
    expandAncestors es [n0] = [n0] := by
  unfold expandAncestors
  have hflat : [n0].flatMap (inNeighbors es) = inNeighbors es n0 := by
    simp
  rw [hflat]
  have hnil : (inNeighbors es n0).filter (fun n => !([n0].contains n)) = [] := by
    rw [List.filter_eq_nil_iff]
    intro a ha
    rw [h a ha]
    simp
  rw [hnil]
  simp

theorem ancestors_isEmpty_iff_inNeighbors (wf : WorkFlow) (v : Variable)
    (hv : v ∈ wf.variables) :
    (wf.ancestors v).isEmpty = true ↔
      ∀ u ∈ inNeighbors wf.gedges (GNode.var v.id), u = GNode.var v.id := by
  have hlen : 0 < wf.gnodes.length := by
    rw [List.length_pos]
    intro hnil
    have hmm : GNode.var v.id ∈ wf.gnodes := by
      unfold WorkFlow.gnodes
      exact List.mem_append.mpr (Or.inl (List.mem_append.mpr (Or.inl
        (List.mem_map_of_mem _ hv))))
    rw [hnil] at hmm
    exact List.not_mem_nil _ hmm
  constructor
  · intro hemp
    by_contra hne
    push_neg at hne
    obtain ⟨u, hu, hune⟩ := hne
    obtain ⟨m, hm⟩ := Nat.exists_eq_add_of_lt hlen
    have hmem1 : u ∈ expandAncestors wf.gedges [GNode.var v.id] := by
      unfold expandAncestors
      refine List.mem_append.mpr (Or.inr ?_)
      rw [List.mem_filter]
      constructor
      · simpa using hu
      · simp only [List.contains_cons, List.contains_nil, Bool.or_false]
        rw [beq_false_of_ne hune]
        rfl
    have hmem2 : u ∈ iterAncestors wf.gedges wf.gnodes.length [GNode.var v.id] := by
      rw [hm]
      have hm1 : 0 + m + 1 = m + 1 := by omega
      rw [hm1]
      show u ∈ iterAncestors wf.gedges m (expandAncestors wf.gedges [GNode.var v.id])
      exact subset_iterAncestors _ _ _ hmem1
    unfold WorkFlow.ancestors at hemp
    rw [List.isEmpty_iff] at hemp
    have hfin : u ∈ (iterAncestors wf.gedges wf.gnodes.length
        [GNode.var v.id]).filter (fun n => !(n == GNode.var v.id)) := by
      rw [List.mem_filter]
      refine ⟨hmem2, ?_⟩
      rw [beq_false_of_ne hune]
      rfl
    rw [hemp] at hfin
    exact List.not_mem_nil _ hfin
  · intro h
    unfold WorkFlow.ancestors
    rw [iterAncestors_stable wf.gedges [GNode.var v.id]
      (expandAncestors_singleton_stable wf.gedges (GNode.var v.id) h)]
    simp



theorem mem_gedges_var_target (wf : WorkFlow) (u : GNode) (vid : Nat) :
    (u, GNode.var vid) ∈ wf.gedges ↔
      (∃ i b, (i, b) ∈ wf.blocks.enum ∧ u = GNode.blk i ∧
         ∃ o ∈ b.outputs, o.id = vid) ∨
      (∃ p ∈ wf.pipes, p.output_variable.id = vid ∧
         u = GNode.var p.input_variable.id) := by
  unfold WorkFlow.gedges
  rw [List.mem_append]
  constructor
  · rintro (h | h)
    · rw [List.mem_flatMap] at h
      obtain ⟨ib, hib, hmem⟩ := h
      rw [List.mem_append] at hmem
      rcases hmem with hmem | hmem
      · rw [List.mem_map] at hmem
        obtain ⟨w, _, heq⟩ := hmem
        exact absurd (congrArg Prod.snd heq) (by simp)
      · rw [List.mem_map] at hmem
        obtain ⟨o, ho, heq⟩ := hmem
        rw [Prod.mk.injEq] at heq
        obtain ⟨hequ, heqv⟩ := heq
        left
        refine ⟨ib.1, ib.2, hib, hequ.symm, o, ho, ?_⟩
        injection heqv
    · rw [List.mem_map] at h
      obtain ⟨p, hp, heq⟩ := h
      rw [Prod.mk.injEq] at heq
      right
      refine ⟨p, hp, ?_, heq.1.symm⟩
      injection heq.2
  · rintro (⟨i, b, hib, hu, o, ho, hoid⟩ | ⟨p, hp, htgt, hu⟩)
    · left
      rw [List.mem_flatMap]
      refine ⟨(i, b), hib, List.mem_append.mpr (Or.inr ?_)⟩
      rw [List.mem_map]
      exact ⟨o, ho, by rw [hu, hoid]⟩
    · right
      rw [List.mem_map]
      exact ⟨p, hp, by rw [htgt, hu]⟩

theorem inNeighbors_all_self_iff_specInput (wf : WorkFlow) (v : Variable) :
    (∀ u ∈ inNeighbors wf.gedges (GNode.var v.id), u = GNode.var v.id) ↔
      isSpecInput wf v = true := by
  unfold isSpecInput
  rw [Bool.and_eq_true, List.all_eq_true, List.all_eq_true]
  constructor
  · intro h
    constructor
    · intro b hb
      rw [List.all_eq_true]
      intro o ho
      by_contra hoe
      have hoid : o.id = v.id := by
        simpa using hoe
      obtain ⟨i, hi⟩ := List.mem_iff_getElem?.mp hb
      have hedge : (GNode.blk i, GNode.var v.id) ∈ wf.gedges := by
        rw [mem_gedges_var_target]
        left
        exact ⟨i, b, List.mem_enum_iff_getElem?.mpr hi, rfl, o, ho, hoid⟩
      have hcon := h (GNode.blk i) ((mem_inNeighbors _ _ _).mpr hedge)
      exact absurd hcon (by simp)
    · intro p hp
      by_cases ht : p.output_variable.id = v.id
      · have hedge : (GNode.var p.input_variable.id, GNode.var v.id) ∈ wf.gedges := by
          rw [mem_gedges_var_target]
          right
          exact ⟨p, hp, ht, rfl⟩
        have hcon := h _ ((mem_inNeighbors _ _ _).mpr hedge)
        have hsrc : p.input_variable.id = v.id := by
          injection hcon
        simp [hsrc]
      · simp [beq_false_of_ne ht]
  · rintro ⟨h1, h2⟩ u hu
    rw [mem_inNeighbors, mem_gedges_var_target] at hu
    rcases hu with ⟨i, b, hib, hu, o, ho, hoid⟩ | ⟨p, hp, htgt, hu⟩
    · have hbm : b ∈ wf.blocks := by
        have := List.mem_enum_iff_getElem?.mp hib
        exact List.mem_iff_getElem?.mpr ⟨i, this⟩
      have hall := h1 b hbm
      rw [List.all_eq_true] at hall
      have := hall o ho
      simp [hoid] at this
    · have hpp := h2 p hp
      rw [htgt] at hpp
      simp only [beq_self_eq_true, Bool.not_true, Bool.false_or] at hpp
      have hsrc : p.input_variable.id = v.id := by
        simpa using hpp
      rw [hu, hsrc]

/-- C4 (amended): for every workflow, the inputs computed at construction
are exactly the variables that are neither produced as any block's output
nor targeted by a pipe with a distinct source (a self-pipe does not
disqualify its variable, because `nx.ancestors` excludes the node itself),
listed in `self.variables` order — each block's inputs then outputs, blocks
in declaration order; pipes contribute no input variables. -/
theorem workflow_inputs_characterization (wf : WorkFlow) :
    wf.inputs = wf.variables.filter (fun v => isSpecInput wf v) := by
  unfold WorkFlow.inputs
  apply List.filter_congr
  intro v hv
  have hiff := (ancestors_isEmpty_iff_inNeighbors wf v hv).trans
    (inNeighbors_all_self_iff_specInput wf v)
  cases h1 : (wf.ancestors v).isEmpty <;> cases h2 : isSpecInput wf v <;>
    simp_all


/-! ## Claim C2: ForEach semantics -/

theorem forEachLoop_map (wf : WorkFlow) (f : Value → Value)
    (hf : ∀ h v, ∃ wr, runW wf h [v] = .ok (h, wr) ∧ wr.output_value = f v) :
    ∀ (xs : List Value) (heap : Heap) (acc : List Value),
      forEachLoop wf heap acc xs = .ok (heap, acc ++ xs.map f) := by
  intro xs
  induction xs with
  | nil =>
    intro heap acc
    simp [forEachLoop]
  | cons x rest ih =>
    intro heap acc
    obtain ⟨wr, hrun, hout⟩ := hf heap x
    unfold forEachLoop
    rw [hrun]
    show forEachLoop wf heap (acc ++ [wr.output_value]) rest =
      .ok (heap, acc ++ (x :: rest).map f)
    rw [ih heap (acc ++ [wr.output_value]), hout]
    simp

/-- C2: a `ForEach` block over a sub-workflow evaluates to exactly one
output value, the list of the sub-workflow's `output_value` per input
element in input order with no deduplication.  First conjunct: on the empty
collection the result is the empty list, the heap is untouched, and the
wrapped sub-workflow is never invoked — the result is the same constant for
every sub-workflow.  Second conjunct: whenever each one-element run of the
sub-workflow succeeds, computing `f` on its input, the block returns
`[xs.map f]`. -/
theorem foreach_maps_subworkflow_outputs :
    (∀ (fresh : Nat) (wf1 wf2 : WorkFlow) (heap : Heap) (rest : List Value),
       (ForEach fresh wf1).eval heap (.list [] :: rest) =
         .ok (heap, .list [.list []]) ∧
       (ForEach fresh wf1).eval heap (.list [] :: rest) =
         (ForEach fresh wf2).eval heap (.list [] :: rest)) ∧
    (∀ (fresh : Nat) (wf : WorkFlow) (f : Value → Value) (heap : Heap)
       (rest : List Value) (xs : List Value),
       (∀ h v, ∃ wr, runW wf h [v] = .ok (h, wr) ∧ wr.output_value = f v) →
       (ForEach fresh wf).eval heap (.list xs :: rest) =
         .ok (heap, .list [.list (xs.map f)])) := by
  constructor
  · intro fresh wf1 wf2 heap rest
    exact ⟨rfl, rfl⟩
  · intro fresh wf f heap rest xs hf
    show (match forEachLoop wf heap [] xs with
      | Except.error e => Except.error e
      | Except.ok r => Except.ok (r.1, Value.list [Value.list r.2])) =
      .ok (heap, .list [.list (xs.map f)])
    rw [forEachLoop_map wf f hf xs heap []]
    simp

/-- Witness for C2: the `ForEach` over the identity-like sub-workflow
`wfId`, applied to `[1, 2, 2]`, returns `[[1, 2, 2]]` — order preserved,
duplicate kept. -/
theorem foreach_maps_subworkflow_outputs_witness :
    (ForEach 100 wfId).eval [] [.list [.int 1, .int 2, .int 2]] =
      .ok ([], .list [.list [.int 1, .int 2, .int 2]]) := by
  have h := foreach_maps_subworkflow_outputs.2 100 wfId (fun v => v) [] []
    [.int 1, .int 2, .int 2] (fun _ v => ⟨_, rfl, rfl⟩)
  simpa using h

/-! ## Step equations and claim C10 -/


theorem getD_set_self (l : List Bool) (j : Nat) (v : Bool) (hj : j < l.length) :
    (l.set j v).getD j false = v := by
  induction l generalizing j with
  | nil => simp at hj
  | cons x l ih =>
    cases j with
    | zero => rfl
    | succ n =>
      simp only [List.length_cons, Nat.succ_lt_succ_iff] at hj
      simpa using ih n hj

theorem getD_set_ne (l : List Bool) (i j : Nat) (v : Bool) (h : i ≠ j) :
    (l.set j v).getD i false = l.getD i false := by
  induction l generalizing i j with
  | nil => rfl
  | cons x l ih =>
    cases j with
    | zero =>
      cases i with
      | zero => exact absurd rfl h
      | succ m => rfl
    | succ n =>
      cases i with
      | zero => rfl
      | succ m =>
        simpa using ih m n (fun he => h (by rw [he]))

theorem pipeStep_fire (st : RunState) (i : Nat) (p : Pipe) (v : Value)
    (hact : st.pact.getD i false = false)
    (hsrc : dget st.vact p.input_variable.id = .ok true)
    (hval : dget st.values p.input_variable.id = .ok v) :
    pipeStep st i p =
      .ok (({ st with
                pact := st.pact.set i true,
                values := dset st.values p.output_variable.id v,
                vact := dset st.vact p.output_variable.id true } : RunState),
           true) := by
  unfold pipeStep
  rw [if_neg (by rw [hact]; decide), hsrc]
  dsimp only
  rw [hval]

theorem blockStep_fire (st : RunState) (j : Nat) (b : Block)
    (ins : List Value) (r : Heap × Value) (outs : List Value)
    (hact : st.bact.getD j false = false)
    (hready : allActivated st.vact b.inputs = .ok true)
    (hg : gatherValues st.values b.inputs = .ok ins)
    (hev : b.eval st.heap ins = .ok r)
    (hit : pyIterate r.2 = .ok outs) :
    blockStep st j b =
      .ok ({ bindOutputs { st with heap := r.1 } (b.outputs.zip outs) with
              bact := (bindOutputs { st with heap := r.1 }
                (b.outputs.zip outs)).bact.set j true,
              trace := (bindOutputs { st with heap := r.1 }
                (b.outputs.zip outs)).trace ++ [j] }, true) := by
  unfold blockStep
  rw [if_neg (by rw [hact]; decide), hready]
  dsimp only
  rw [hg]
  dsimp only
  rw [hev]
  dsimp only
  rw [hit]

theorem blockStep_skip_activated (st : RunState) (j : Nat) (b : Block)
    (hact : st.bact.getD j false = true) :
    blockStep st j b = .ok (st, false) := by
  unfold blockStep
  rw [if_pos hact]

theorem blockStep_skip_notReady (st : RunState) (j : Nat) (b : Block)
    (hact : st.bact.getD j false = false)
    (hready : allActivated st.vact b.inputs = .ok false) :
    blockStep st j b = .ok (st, false) := by
  unfold blockStep
  rw [if_neg (by rw [hact]; decide), hready]

theorem zip_fst_mem_take {α β : Type} (l1 : List α) (l2 : List β)
    (p : α × β) (hp : p ∈ l1.zip l2) : p.1 ∈ l1.take l2.length := by
  induction l1 generalizing l2 with
  | nil => simp at hp
  | cons a l1 ih =>
    cases l2 with
    | nil => simp at hp
    | cons b l2 =>
      rw [List.zip_cons_cons, List.mem_cons] at hp
      rcases hp with hp | hp
      · rw [hp]
        simp
      · simp only [List.length_cons, List.take_succ_cons, List.mem_cons]
        exact Or.inr (ih l2 hp)

theorem bindOutputs_untouched (st : RunState) (pairs : List (Variable × Value))
    (x : Nat) (hx : x ∉ pairs.map fun pv => (pv : Variable × Value).1.id) :
    dget (bindOutputs st pairs).vact x = dget st.vact x ∧
    dget (bindOutputs st pairs).values x = dget st.values x := by
  induction pairs generalizing st with
  | nil => exact ⟨rfl, rfl⟩
  | cons pv rest ih =>
    simp only [List.map_cons, List.mem_cons, not_or] at hx
    have hstep : bindOutputs st (pv :: rest) =
        bindOutputs { st with values := dset st.values pv.1.id pv.2,
                              vact := dset st.vact pv.1.id true } rest := rfl
    have hih := ih { st with values := dset st.values pv.1.id pv.2,
                             vact := dset st.vact pv.1.id true } hx.2
    rw [hstep]
    refine ⟨?_, ?_⟩
    · rw [hih.1]
      exact dget_dset_ne st.vact pv.1.id x true hx.1
    · rw [hih.2]
      exact dget_dset_ne st.values pv.1.id x pv.2 hx.1


/-- C10: run's output binding performs no arity check — the claim's implicit
behaviour holds: if a ready, unactivated block's `evaluate` returns a list
of values (here fewer than the declared outputs), `blockStep` raises no
error, the zip binding silently touches only the first `vs.length` declared
outputs, every declared output whose identity is not among those bound keeps
its previous (unbound, unactivated) state, and the block itself is still
marked activated. -/
theorem short_evaluate_silently_skips_outputs (st : RunState) (j : Nat)
    (b : Block) (ins : List Value) (h' : Heap) (vs : List Value)
    (hj : j < st.bact.length)
    (hact : st.bact.getD j false = false)
    (hready : allActivated st.vact b.inputs = .ok true)
    (hg : gatherValues st.values b.inputs = .ok ins)
    (hev : b.eval st.heap ins = .ok (h', .list vs)) :
    ∃ st', blockStep st j b = .ok (st', true) ∧
      st'.bact.getD j false = true ∧
      ∀ o ∈ b.outputs, o.id ∉ (b.outputs.take vs.length).map Variable.id →
        dget st'.vact o.id = dget st.vact o.id ∧
        dget st'.values o.id = dget st.values o.id := by
  refine ⟨_, blockStep_fire st j b ins (h', .list vs) vs hact hready hg hev rfl,
    ?_, ?_⟩
  · obtain ⟨b1, b2, b3, b4, b5, b6, b7, b8⟩ :=
      bindOutputs_spec { st with heap := h' } (b.outputs.zip vs)
    show ((bindOutputs { st with heap := h' }
        (b.outputs.zip vs)).bact.set j true).getD j false = true
    rw [b2]
    exact getD_set_self st.bact j true hj
  · intro o ho hnot
    have hx : o.id ∉ (b.outputs.zip vs).map fun pv => pv.1.id := by
      intro hmem
      rw [List.mem_map] at hmem
      obtain ⟨pv, hpv, hid⟩ := hmem
      have hmem2 := zip_fst_mem_take b.outputs vs pv hpv
      exact hnot (hid ▸ List.mem_map_of_mem Variable.id hmem2)
    have hun := bindOutputs_untouched { st with heap := h' }
      (b.outputs.zip vs) o.id hx
    exact ⟨hun.1, hun.2⟩

/-- Witness for C10: the block `bShort` declares outputs `o1, o2` but its
`evaluate` returns a one-element list; after the step, `o2` (identity 2) is
still unactivated and unbound while the block is activated. -/
theorem short_evaluate_silently_skips_outputs_witness :
    ∃ st', blockStep (initState wfShort [] [.int 9]) 0 bShort = .ok (st', true) ∧
      st'.bact.getD 0 false = true ∧
      dget st'.vact 2 = dget (initState wfShort [] [.int 9]).vact 2 ∧
      dget st'.values 2 = dget (initState wfShort [] [.int 9]).values 2 := by
  obtain ⟨st', h1, h2, h3⟩ := short_evaluate_silently_skips_outputs
    (initState wfShort [] [.int 9]) 0 bShort [.int 9] [] [.int 9]
    (by decide) rfl rfl rfl rfl
  exact ⟨st', h1, h2, (h3 ⟨2, "o2"⟩ (by decide) (by decide)).1,
    (h3 ⟨2, "o2"⟩ (by decide) (by decide)).2⟩


/-! ## Claim C6: pipes relay identical values; ModelMethod re-emits its
receiver -/

/-- C6: pipe propagation is a pure identity relay and mutation is observed
downstream.  First conjunct: firing a pipe binds the target variable to the
very same value the source holds (the identical `Value`, hence the identical
heap address when the value is a reference) and marks it activated.  Second
conjunct: `ModelMethod.evaluate` returns as second output literally its
first input `values[0]` — the receiver's own reference — while mutating the
receiver in place on the heap.  Third conjunct: in the concrete workflow
`wfC6`, the `bump` mutation (5 → 6) is observed by both downstream
`ModelAttribute` consumers fed from the same source variable 12. -/
theorem pipe_identity_relay_and_aliasing :
    (∀ (st : RunState) (i : Nat) (p : Pipe) (v : Value),
       st.pact.getD i false = false →
       dget st.vact p.input_variable.id = .ok true →
       dget st.values p.input_variable.id = .ok v →
       ∃ st', pipeStep st i p = .ok (st', true) ∧
         dget st'.values p.output_variable.id = .ok v ∧
         dget st'.vact p.output_variable.id = .ok true) ∧
    (∀ (fresh : Nat) (mname : String) (m : PyMethod) (heap : Heap) (obj : Obj)
       (a : Nat) (rest : List Value), heap.get? a = some obj →
       (ModelMethod fresh mname m).eval heap (.addr a :: rest) =
         .ok (heap.set a (m.call obj rest).1,
              .list [(m.call obj rest).2, .addr a])) ∧
    (∃ hp wr, runW wfC6 [[("n", .int 5)]] [.addr 0] = .ok (hp, wr) ∧
       hp = [[("n", .int 6)]] ∧
       dget wr.values 21 = .ok (.int 6) ∧
       dget wr.values 31 = .ok (.int 6) ∧
       wr.output_value = .int 6) := by
  refine ⟨?_, ?_, ?_⟩
  · intro st i p v hact hsrc hval
    refine ⟨_, pipeStep_fire st i p v hact hsrc hval, ?_, ?_⟩
    · exact dget_dset_self st.values p.output_variable.id v
    · exact dget_dset_self st.vact p.output_variable.id true
  · intro fresh mname m heap obj a rest hobj
    show (match heap.get? a with
      | some obj =>
        Except.ok (heap.set a (m.call obj rest).1,
          Value.list [(m.call obj rest).2, Value.addr a])
      | Option.none => Except.error PyErr.attributeError) =
      Except.ok (heap.set a (m.call obj rest).1,
        Value.list [(m.call obj rest).2, Value.addr a])
    rw [hobj]
  · exact ⟨_, _, rfl, rfl, rfl, rfl, rfl⟩

/-- Witness for C6: firing the pipe `pRelay` from the state `stRelay`
relays the value `7` unchanged to variable 6 and activates it. -/
theorem pipe_identity_relay_and_aliasing_witness :
    ∃ st', pipeStep stRelay 0 pRelay = .ok (st', true) ∧
      dget st'.values 6 = .ok (.int 7) ∧
      dget st'.vact 6 = .ok true := by
  obtain ⟨st', h1, h2, h3⟩ :=
    pipe_identity_relay_and_aliasing.1 stRelay 0 pRelay (.int 7) rfl rfl rfl
  exact ⟨st', h1, h2, h3⟩

/-! ## Claim C9: stepwise execution versus run -/

/-- C9 is refuted as stated: on `wfOrder` (whose blocks mutate a shared
heap object), `run` fires the pipe first and so evaluates the blocks in
declaration order (`bDouble` then `bInc`, yielding `n = 1 → 2 → 3`), while
the spec's §4.5 stepwise mode evaluates the ready block `bInc` before the
pipe enables `bDouble` (`n = 1 → 2 → 4`), so the two entry points bind the
output variable `o2` to different values (`2` versus `3`). -/
theorem stepwise_differs_from_run_under_mutation :
    (advanceToEnd (fuelOf wfOrder)
        (startRun wfOrder heapOrder [.int 0])).bind
      WorkflowState.output_value = .ok (.int 2) ∧
    ((runW wfOrder heapOrder [.int 0]).map
      fun r => r.2.output_value) = .ok (.int 3) ∧
    Value.int 2 ≠ Value.int 3 := by
  refine ⟨rfl, rfl, ?_⟩
  intro h
  simp at h

/-! ## Claim C3: which errors run can raise -/

theorem dget_error {α : Type} (d : List (Nat × α)) (k : Nat) (e : PyErr)
    (h : dget d k = .error e) : e = .keyError := by
  unfold dget at h
  cases hl : d.lookup k with
  | none =>
    rw [hl] at h
    injection h with he
    exact he.symm
  | some v =>
    rw [hl] at h
    exact absurd h (by simp)

theorem allActivated_error (vact : List (Nat × Bool)) (ins : List Variable)
    (e : PyErr) (h : allActivated vact ins = .error e) : e = .keyError := by
  induction ins with
  | nil => exact absurd h (by simp [allActivated])
  | cons v vs ih =>
    unfold allActivated at h
    cases hg : dget vact v.id with
    | error e' =>
      rw [hg] at h
      injection h with he
      subst he
      exact dget_error _ _ _ hg
    | ok a =>
      rw [hg] at h
      cases a
      · exact absurd h (by simp)
      · exact ih h

theorem gatherValues_error (values : List (Nat × Value)) (ins : List Variable)
    (e : PyErr) (h : gatherValues values ins = .error e) : e = .keyError := by
  induction ins with
  | nil => exact absurd h (by simp [gatherValues])
  | cons v vs ih =>
    unfold gatherValues at h
    cases hg : dget values v.id with
    | error e' =>
      rw [hg] at h
      injection h with he
      subst he
      exact dget_error _ _ _ hg
    | ok x =>
      rw [hg] at h
      cases hr : gatherValues values vs with
      | error e' =>
        rw [hr] at h
        injection h with he
        subst he
        exact ih hr
      | ok xs =>
        rw [hr] at h
        exact absurd h (by simp)

theorem pyIterate_error (v : Value) (e : PyErr) (h : pyIterate v = .error e) :
    e = .typeError := by
  cases v <;> simp [pyIterate] at h <;> exact h.symm

theorem pipeStep_error (st : RunState) (i : Nat) (p : Pipe) (e : PyErr)
    (h : pipeStep st i p = .error e) : e = .keyError := by
  unfold pipeStep at h
  split at h
  · exact absurd h (by simp)
  · split at h
    next e' heq =>
      injection h with he
      subst he
      exact dget_error _ _ _ heq
    next heq => exact absurd h (by simp)
    next heq =>
      split at h
      next e' heq2 =>
        injection h with he
        subst he
        exact dget_error _ _ _ heq2
      next heq2 => exact absurd h (by simp)

theorem blockStep_error (st : RunState) (j : Nat) (b : Block) (e : PyErr)
    (h : blockStep st j b = .error e) :
    e = .keyError ∨ e = .typeError ∨ ∃ hp ins, b.eval hp ins = .error e := by
  unfold blockStep at h
  split at h
  · exact absurd h (by simp)
  · split at h
    next e' heq =>
      injection h with he
      subst he
      exact Or.inl (allActivated_error _ _ _ heq)
    next heq => exact absurd h (by simp)
    next heq =>
      split at h
      next e' heq2 =>
        injection h with he
        subst he
        exact Or.inl (gatherValues_error _ _ _ heq2)
      next ins heq2 =>
        split at h
        next e' heq3 =>
          injection h with he
          subst he
          exact Or.inr (Or.inr ⟨st.heap, ins, heq3⟩)
        next r heq3 =>
          split at h
          next e' heq4 =>
            injection h with he
            subst he
            exact Or.inr (Or.inl (pyIterate_error _ _ heq4))
          next outs heq4 => exact absurd h (by simp)

theorem pipePhase_error (pipes : List (Nat × Pipe)) (st : RunState)
    (flag : Bool) (e : PyErr) (h : pipePhase pipes st flag = .error e) :
    e = .keyError := by
  induction pipes generalizing st flag with
  | nil => exact absurd h (by simp [pipePhase])
  | cons ip rest ih =>
    unfold pipePhase at h
    cases hs : pipeStep st ip.1 ip.2 with
    | error e' =>
      rw [hs] at h
      injection h with he
      subst he
      exact pipeStep_error _ _ _ _ hs
    | ok r =>
      rw [hs] at h
      exact ih r.1 (flag || r.2) h

theorem blockPhase_error (blocks : List (Nat × Block)) (st : RunState)
    (flag : Bool) (e : PyErr) (h : blockPhase blocks st flag = .error e) :
    e = .keyError ∨ e = .typeError ∨
      ∃ jb ∈ blocks, ∃ hp ins, (jb : Nat × Block).2.eval hp ins = .error e := by
  induction blocks generalizing st flag with
  | nil => exact absurd h (by simp [blockPhase])
  | cons jb rest ih =>
    unfold blockPhase at h
    cases hs : blockStep st jb.1 jb.2 with
    | error e' =>
      rw [hs] at h
      injection h with he
      subst he
      rcases blockStep_error _ _ _ _ hs with h1 | h1 | ⟨hp, ins, h1⟩
      · exact Or.inl h1
      · exact Or.inr (Or.inl h1)
      · exact Or.inr (Or.inr ⟨jb, List.mem_cons_self jb rest, hp, ins, h1⟩)
    | ok r =>
      rw [hs] at h
      rcases ih r.1 (flag || r.2) h with h1 | h1 | ⟨x, hx, hp, ins, h1⟩
      · exact Or.inl h1
      · exact Or.inr (Or.inl h1)
      · exact Or.inr (Or.inr ⟨x, List.mem_cons_of_mem jb hx, hp, ins, h1⟩)

theorem runPass_error (wf : WorkFlow) (st : RunState) (e : PyErr)
    (h : runPass wf st = .error e) :
    e = .keyError ∨ e = .typeError ∨
      ∃ b ∈ wf.blocks, ∃ hp ins, b.eval hp ins = .error e := by
  unfold runPass at h
  cases hp : pipePhase wf.pipes.enum st false with
  | error e' =>
    rw [hp] at h
    injection h with he
    subst he
    exact Or.inl (pipePhase_error _ _ _ _ hp)
  | ok r =>
    rw [hp] at h
    rcases blockPhase_error _ _ _ _ h with h1 | h1 | ⟨jb, hjb, heap, ins, h1⟩
    · exact Or.inl h1
    · exact Or.inr (Or.inl h1)
    · refine Or.inr (Or.inr ⟨jb.2, ?_, heap, ins, h1⟩)
      rw [List.mem_enum_iff_getElem?] at hjb
      exact List.mem_iff_getElem?.mpr ⟨jb.1, hjb⟩

theorem runLoop_error (wf : WorkFlow) (n : Nat) (st : RunState) (e : PyErr)
    (h : runLoop wf n st = .error e) :
    e = .keyError ∨ e = .typeError ∨
      ∃ b ∈ wf.blocks, ∃ hp ins, b.eval hp ins = .error e := by
  induction n generalizing st with
  | zero => exact absurd h (by simp [runLoop])
  | succ m ih =>
    unfold runLoop at h
    cases hp : runPass wf st with
    | error e' =>
      rw [hp] at h
      injection h with he
      subst he
      exact runPass_error _ _ _ hp
    | ok r =>
      rw [hp] at h
      have h2 : (if r.2 = true then runLoop wf m r.1 else Except.ok r.1) =
          Except.error e := h
      by_cases hr : r.2 = true
      · rw [if_pos hr] at h2
        exact ih r.1 h2
      · rw [if_neg hr] at h2
        exact absurd h2 (by simp)

/-- C3 (amended): `run` raises the arity `ValueError` if and only if the
number of provided values differs from the number of workflow-level inputs,
provided no block's own `evaluate` raises `ValueError`; with matching
counts no arity error occurs, although `run` may still raise other errors
(`KeyError`, `TypeError`) as `run_error_without_arity_mismatch` shows. -/
theorem arity_valueerror_iff_length_mismatch (wf : WorkFlow) (heap : Heap)
    (args : List Value)
    (hev : ∀ b ∈ wf.blocks, ∀ hp ins, b.eval hp ins ≠ .error .valueError) :
    runW wf heap args = .error .valueError ↔
      args.length ≠ wf.inputs.length := by
  constructor
  · intro h
    intro hc
    unfold runW at h
    rw [if_neg (fun x => x hc)] at h
    cases hl : runLoop wf (fuelOf wf) (initState wf heap args) with
    | error e =>
      rw [hl] at h
      injection h with he
      subst he
      rcases runLoop_error _ _ _ _ hl with h1 | h1 | ⟨b, hb, hp, ins, h1⟩
      · exact absurd h1 (by decide)
      · exact absurd h1 (by decide)
      · exact hev b hb hp ins h1
    | ok st =>
      rw [hl] at h
      have h2 : (match dget st.values wf.output.id with
        | Except.error e => (Except.error e : Except PyErr (Heap × WorkflowRun))
        | Except.ok out => Except.ok (st.heap, ⟨wf, st.values, out⟩)) =
          .error .valueError := h
      cases ho : dget st.values wf.output.id with
      | error e =>
        rw [ho] at h2
        injection h2 with he
        have := dget_error _ _ _ ho
        rw [he] at this
        exact absurd this (by decide)
      | ok out =>
        rw [ho] at h2
        exact absurd h2 (by simp)
  · intro h
    unfold runW
    rw [if_pos h]

/-- Witness for C3's amended theorem: for `wfId` (whose only block never
raises `ValueError`) and an empty argument list, both sides of the
equivalence hold — the count 0 differs from the single input. -/
theorem arity_valueerror_iff_length_mismatch_witness :
    (runW wfId [] [] = .error .valueError ↔
      ([] : List Value).length ≠ wfId.inputs.length) := by
  apply arity_valueerror_iff_length_mismatch
  intro b hb hp ins
  have hb2 : b = FunctionBlock 0 ["x"] listId := by
    simpa [wfId] using hb
  subst hb2
  cases ins with
  | nil => simp [FunctionBlock, listId]
  | cons v rest => simp [FunctionBlock, listId]

/-! ## Claim C5: declaration-order evaluation -/


theorem blockStep_err_ready (st : RunState) (j : Nat) (b : Block) (e : PyErr)
    (hact : st.bact.getD j false = false)
    (hready : allActivated st.vact b.inputs = .error e) :
    blockStep st j b = .error e := by
  unfold blockStep
  rw [if_neg (by rw [hact]; decide), hready]

theorem blockStep_err_gather (st : RunState) (j : Nat) (b : Block) (e : PyErr)
    (hact : st.bact.getD j false = false)
    (hready : allActivated st.vact b.inputs = .ok true)
    (hg : gatherValues st.values b.inputs = .error e) :
    blockStep st j b = .error e := by
  unfold blockStep
  rw [if_neg (by rw [hact]; decide), hready]
  dsimp only
  rw [hg]

theorem blockStep_err_eval (st : RunState) (j : Nat) (b : Block)
    (ins : List Value) (e : PyErr)
    (hact : st.bact.getD j false = false)
    (hready : allActivated st.vact b.inputs = .ok true)
    (hg : gatherValues st.values b.inputs = .ok ins)
    (hev : b.eval st.heap ins = .error e) :
    blockStep st j b = .error e := by
  unfold blockStep
  rw [if_neg (by rw [hact]; decide), hready]
  dsimp only
  rw [hg]
  dsimp only
  rw [hev]

theorem blockStep_err_iter (st : RunState) (j : Nat) (b : Block)
    (ins : List Value) (r : Heap × Value) (e : PyErr)
    (hact : st.bact.getD j false = false)
    (hready : allActivated st.vact b.inputs = .ok true)
    (hg : gatherValues st.values b.inputs = .ok ins)
    (hev : b.eval st.heap ins = .ok r)
    (hit : pyIterate r.2 = .error e) :
    blockStep st j b = .error e := by
  unfold blockStep
  rw [if_neg (by rw [hact]; decide), hready]
  dsimp only
  rw [hg]
  dsimp only
  rw [hev]
  dsimp only
  rw [hit]

theorem blockStep_ok_cases (st : RunState) (j : Nat) (b : Block)
    (r : RunState × Bool) (hs : blockStep st j b = .ok r) :
    r = (st, false) ∨
    (readyB st j b ∧ r.2 = true ∧ r.1.trace = st.trace ++ [j] ∧
      r.1.bact = st.bact.set j true ∧
      ∀ ins, allActivated st.vact ins = .ok true →
        allActivated r.1.vact ins = .ok true) := by
  cases hact : st.bact.getD j false with
  | true =>
    rw [blockStep_skip_activated st j b hact] at hs
    injection hs with hr
    exact Or.inl hr.symm
  | false =>
    cases hready : allActivated st.vact b.inputs with
    | error e => rw [blockStep_err_ready st j b e hact hready] at hs; nomatch hs
    | ok a =>
      cases a with
      | false =>
        rw [blockStep_skip_notReady st j b hact hready] at hs
        injection hs with hr
        exact Or.inl hr.symm
      | true =>
        cases hg : gatherValues st.values b.inputs with
        | error e =>
          rw [blockStep_err_gather st j b e hact hready hg] at hs
          nomatch hs
        | ok ins =>
          cases hev : b.eval st.heap ins with
          | error e =>
            rw [blockStep_err_eval st j b ins e hact hready hg hev] at hs
            nomatch hs
          | ok r0 =>
            cases hit : pyIterate r0.2 with
            | error e =>
              rw [blockStep_err_iter st j b ins r0 e hact hready hg hev hit] at hs
              nomatch hs
            | ok outs =>
              rw [blockStep_fire st j b ins r0 outs hact hready hg hev hit] at hs
              injection hs with hr
              subst hr
              obtain ⟨b1, b2, b3, b4, b5, b6, b7, b8⟩ :=
                bindOutputs_spec { st with heap := r0.1 } (b.outputs.zip outs)
              refine Or.inr ⟨⟨hact, hready⟩, rfl, ?_, ?_, ?_⟩
              · show (bindOutputs { st with heap := r0.1 }
                  (b.outputs.zip outs)).trace ++ [j] = st.trace ++ [j]
                rw [b3]
              · show (bindOutputs { st with heap := r0.1 }
                  (b.outputs.zip outs)).bact.set j true = st.bact.set j true
                rw [b2]
              · intro ins' h
                exact b8 ins' h

theorem blockStep_preserves_ready (st : RunState) (m j : Nat) (bm bj : Block)
    (r : RunState × Bool) (hne : j ≠ m) (hs : blockStep st m bm = .ok r)
    (hr : readyB st j bj) : readyB r.1 j bj := by
  rcases blockStep_ok_cases st m bm r hs with hid | ⟨_, _, _, hbact, hpres⟩
  · rw [hid]
    exact hr
  · refine ⟨?_, hpres bj.inputs hr.2⟩
    rw [hbact, getD_set_ne st.bact j m true hne]
    exact hr.1

theorem blockStep_ready_fire (st : RunState) (j : Nat) (b : Block)
    (r : RunState × Bool) (hr : readyB st j b)
    (hs : blockStep st j b = .ok r) :
    r.2 = true ∧ r.1.trace = st.trace ++ [j] := by
  obtain ⟨hract, hrready⟩ := hr
  cases hg : gatherValues st.values b.inputs with
  | error e =>
    rw [blockStep_err_gather st j b e hract hrready hg] at hs
    nomatch hs
  | ok ins =>
    cases hev : b.eval st.heap ins with
    | error e =>
      rw [blockStep_err_eval st j b ins e hract hrready hg hev] at hs
      nomatch hs
    | ok r0 =>
      cases hit : pyIterate r0.2 with
      | error e =>
        rw [blockStep_err_iter st j b ins r0 e hract hrready hg hev hit] at hs
        nomatch hs
      | ok outs =>
        rw [blockStep_fire st j b ins r0 outs hract hrready hg hev hit] at hs
        injection hs with hr2
        subst hr2
        obtain ⟨b1, b2, b3, b4, b5, b6, b7, b8⟩ :=
          bindOutputs_spec { st with heap := r0.1 } (b.outputs.zip outs)
        refine ⟨rfl, ?_⟩
        show (bindOutputs { st with heap := r0.1 }
          (b.outputs.zip outs)).trace ++ [j] = st.trace ++ [j]
        rw [b3]



theorem blockPhase_trace_extend (blocks : List (Nat × Block)) (st : RunState)
    (flag : Bool) (st' : RunState) (f : Bool)
    (hs : blockPhase blocks st flag = .ok (st', f)) :
    ∃ t, st'.trace = st.trace ++ t := by
  induction blocks generalizing st flag with
  | nil =>
    unfold blockPhase at hs
    injection hs with h1
    refine ⟨[], ?_⟩
    rw [show st' = st from (congrArg Prod.fst h1).symm]
    simp
  | cons jb rest ih =>
    unfold blockPhase at hs
    cases hb : blockStep st jb.1 jb.2 with
    | error e => rw [hb] at hs; nomatch hs
    | ok r =>
      rw [hb] at hs
      obtain ⟨t, ht⟩ := ih r.1 (flag || r.2) hs
      rcases blockStep_ok_cases st jb.1 jb.2 r hb with hid | ⟨_, _, h3, _, _⟩
      · rw [hid] at ht
        exact ⟨t, ht⟩
      · refine ⟨[jb.1] ++ t, ?_⟩
        rw [ht, h3]
        simp

theorem blockPhase_fire_single (b : Block) (bs : List Block) :
    ∀ (pre : List Block) (k : Nat) (st : RunState) (flag : Bool)
      (st' : RunState) (f : Bool),
      blockPhase (List.enumFrom k (pre ++ b :: bs)) st flag = .ok (st', f) →
      readyB st (k + pre.length) b →
      ∃ t1 t2, st'.trace = st.trace ++ t1 ++ (k + pre.length) :: t2 := by
  intro pre
  induction pre with
  | nil =>
    intro k st flag st' f hs hr
    simp only [List.nil_append, List.enumFrom_cons] at hs
    unfold blockPhase at hs
    cases hb : blockStep st k b with
    | error e => rw [hb] at hs; nomatch hs
    | ok r =>
      rw [hb] at hs
      have hr0 : readyB st k b := by simpa using hr
      obtain ⟨hf, htr⟩ := blockStep_ready_fire st k b r hr0 hb
      obtain ⟨t, ht⟩ := blockPhase_trace_extend _ _ _ _ _ hs
      refine ⟨[], t, ?_⟩
      rw [ht, htr]
      simp
  | cons p pre' ih =>
    intro k st flag st' f hs hr
    simp only [List.cons_append, List.enumFrom_cons] at hs
    unfold blockPhase at hs
    cases hb : blockStep st k p with
    | error e => rw [hb] at hs; nomatch hs
    | ok r =>
      rw [hb] at hs
      have hj : k + (p :: pre').length = (k + 1) + pre'.length := by
        simp only [List.length_cons]
        omega
      have hne : k + (p :: pre').length ≠ k := by
        simp only [List.length_cons]
        omega
      have hr1 : readyB r.1 ((k + 1) + pre'.length) b := by
        rw [← hj]
        exact blockStep_preserves_ready st k (k + (p :: pre').length) p b r hne hb hr
      obtain ⟨t1, t2, ht⟩ := ih (k + 1) r.1 (flag || r.2) st' f hs hr1
      rcases blockStep_ok_cases st k p r hb with hid | ⟨_, _, h3, _, _⟩
      · rw [hid] at ht
        refine ⟨t1, t2, ?_⟩
        rw [ht, ← hj]
      · refine ⟨[k] ++ t1, t2, ?_⟩
        rw [ht, h3, ← hj]
        simp

theorem blockPhase_fire_pair (b1 b2 : Block) (v w : List Block) :
    ∀ (u : List Block) (k : Nat) (st : RunState) (flag : Bool)
      (st' : RunState) (f : Bool),
      blockPhase (List.enumFrom k (u ++ b1 :: v ++ b2 :: w)) st flag =
        .ok (st', f) →
      readyB st (k + u.length) b1 →
      readyB st (k + u.length + 1 + v.length) b2 →
      ∃ t1 t2 t3, st'.trace = st.trace ++ t1 ++ (k + u.length) :: t2 ++
        (k + u.length + 1 + v.length) :: t3 := by
  intro u
  induction u with
  | nil =>
    intro k st flag st' f hs hr1 hr2
    have hs2 : (match blockStep st k b1 with
      | Except.error e => (Except.error e : Except PyErr (RunState × Bool))
      | Except.ok r =>
        blockPhase (List.enumFrom (k + 1) (v ++ b2 :: w)) r.1 (flag || r.2)) =
      .ok (st', f) := hs
    cases hb : blockStep st k b1 with
    | error e => rw [hb] at hs2; nomatch hs2
    | ok r =>
      rw [hb] at hs2
      have hr10 : readyB st k b1 := by simpa using hr1
      obtain ⟨hf, htr⟩ := blockStep_ready_fire st k b1 r hr10 hb
      have hne : k + List.length ([] : List Block) + 1 + v.length ≠ k := by
        simp only [List.length_nil]
        omega
      have hr2a := blockStep_preserves_ready st k
        (k + List.length ([] : List Block) + 1 + v.length) b1 b2 r hne hb hr2
      have hidx : k + List.length ([] : List Block) + 1 + v.length =
          (k + 1) + v.length := by
        simp only [List.length_nil]
      rw [hidx] at hr2a
      obtain ⟨t1, t2, ht⟩ := blockPhase_fire_single b2 w v (k + 1) r.1
        (flag || r.2) st' f hs2 hr2a
      refine ⟨[], t1, t2, ?_⟩
      rw [ht, htr]
      simp
  | cons p u' ih =>
    intro k st flag st' f hs hr1 hr2
    have hs2 : (match blockStep st k p with
      | Except.error e => (Except.error e : Except PyErr (RunState × Bool))
      | Except.ok r =>
        blockPhase (List.enumFrom (k + 1) (u' ++ b1 :: v ++ b2 :: w)) r.1
          (flag || r.2)) = .ok (st', f) := hs
    cases hb : blockStep st k p with
    | error e => rw [hb] at hs2; nomatch hs2
    | ok r =>
      rw [hb] at hs2
      have hj1 : k + (p :: u').length = (k + 1) + u'.length := by
        simp only [List.length_cons]
        omega
      have hj2 : k + (p :: u').length + 1 + v.length =
          (k + 1) + u'.length + 1 + v.length := by
        rw [hj1]
      have hne1 : k + (p :: u').length ≠ k := by
        simp only [List.length_cons]
        omega
      have hne2 : k + (p :: u').length + 1 + v.length ≠ k := by
        simp only [List.length_cons]
        omega
      have hr1a : readyB r.1 ((k + 1) + u'.length) b1 := by
        rw [← hj1]
        exact blockStep_preserves_ready st k (k + (p :: u').length) p b1 r
          hne1 hb hr1
      have hr2a : readyB r.1 ((k + 1) + u'.length + 1 + v.length) b2 := by
        rw [← hj2]
        exact blockStep_preserves_ready st k
          (k + (p :: u').length + 1 + v.length) p b2 r hne2 hb hr2
      obtain ⟨t1, t2, t3, ht⟩ := ih (k + 1) r.1 (flag || r.2) st' f hs2 hr1a hr2a
      rcases blockStep_ok_cases st k p r hb with hid | ⟨_, _, h3, _, _⟩
      · rw [hid] at ht
        refine ⟨t1, t2, t3, ?_⟩
        rw [ht, ← hj2, ← hj1]
      · refine ⟨[k] ++ t1, t2, t3, ?_⟩
        rw [ht, h3, ← hj2, ← hj1]
        simp



theorem pipeStep_ok_preserves (st : RunState) (i : Nat) (p : Pipe)
    (r : RunState × Bool) (hs : pipeStep st i p = .ok r) :
    r.1.bact = st.bact ∧ r.1.trace = st.trace ∧
    ∀ j bj, readyB st j bj → readyB r.1 j bj := by
  unfold pipeStep at hs
  split at hs
  · injection hs with h
    rw [← h]
    exact ⟨rfl, rfl, fun j bj hr => hr⟩
  · split at hs
    next e heq => nomatch hs
    next heq =>
      injection hs with h
      rw [← h]
      exact ⟨rfl, rfl, fun j bj hr => hr⟩
    next heq =>
      split at hs
      next e heq2 => nomatch hs
      next v heq2 =>
        injection hs with h
        rw [← h]
        refine ⟨rfl, rfl, fun j bj hr => ⟨hr.1, ?_⟩⟩
        exact allActivated_dset_true st.vact p.output_variable.id bj.inputs hr.2

theorem pipePhase_ok_preserves (pipes : List (Nat × Pipe)) (st : RunState)
    (flag : Bool) (st' : RunState) (flag' : Bool)
    (hs : pipePhase pipes st flag = .ok (st', flag')) :
    st'.bact = st.bact ∧ st'.trace = st.trace ∧
    ∀ j bj, readyB st j bj → readyB st' j bj := by
  induction pipes generalizing st flag with
  | nil =>
    unfold pipePhase at hs
    injection hs with h
    rw [show st' = st from (congrArg Prod.fst h).symm]
    exact ⟨rfl, rfl, fun j bj hr => hr⟩
  | cons ip rest ih =>
    unfold pipePhase at hs
    cases hp : pipeStep st ip.1 ip.2 with
    | error e => rw [hp] at hs; nomatch hs
    | ok r =>
      rw [hp] at hs
      obtain ⟨h1, h2, h3⟩ := pipeStep_ok_preserves st ip.1 ip.2 r hp
      obtain ⟨g1, g2, g3⟩ := ih r.1 (flag || r.2) hs
      exact ⟨g1.trans h1, g2.trans h2, fun j bj hr => g3 j bj (h3 j bj hr)⟩

/-- C5: whenever two unactivated blocks both have all inputs activated at
the start of a pass of `run`'s fixpoint loop, the block that occurs earlier
in the workflow's block declaration sequence is evaluated first: the pass
appends to the evaluation trace the earlier block's index strictly before
the later block's index (declaration order, not graph order). -/
theorem ready_blocks_evaluate_in_declaration_order (wf : WorkFlow)
    (u v w : List Block) (b1 b2 : Block) (st st' : RunState) (f : Bool)
    (hsplit : wf.blocks = u ++ b1 :: v ++ b2 :: w)
    (hr1 : readyB st u.length b1)
    (hr2 : readyB st (u.length + 1 + v.length) b2)
    (hs : runPass wf st = .ok (st', f)) :
    ∃ t1 t2 t3, st'.trace = st.trace ++ t1 ++ u.length :: t2 ++
      (u.length + 1 + v.length) :: t3 := by
  unfold runPass at hs
  cases hp : pipePhase wf.pipes.enum st false with
  | error e => rw [hp] at hs; nomatch hs
  | ok r =>
    rw [hp] at hs
    obtain ⟨hbact, htrace, hpres⟩ := pipePhase_ok_preserves _ _ _ _ _ hp
    have hr1a : readyB r.1 u.length b1 := hpres _ _ hr1
    have hr2a : readyB r.1 (u.length + 1 + v.length) b2 := hpres _ _ hr2
    have henum : wf.blocks.enum = List.enumFrom 0 (u ++ b1 :: v ++ b2 :: w) := by
      rw [hsplit]
      rfl
    rw [henum] at hs
    have hr1z : readyB r.1 (0 + u.length) b1 := by
      rw [Nat.zero_add]
      exact hr1a
    have hr2z : readyB r.1 (0 + u.length + 1 + v.length) b2 := by
      rw [Nat.zero_add]
      exact hr2a
    obtain ⟨t1, t2, t3, ht⟩ := blockPhase_fire_pair b1 b2 v w u 0 r.1 r.2 st' f
      hs hr1z hr2z
    refine ⟨t1, t2, t3, ?_⟩
    rw [ht, htrace]
    simp

/-- Witness for C5: in `wfTwo` both function blocks are ready at the start
of the first pass; the trace records block 0 before block 1. -/
theorem ready_blocks_evaluate_in_declaration_order_witness :
    ∃ st' f, runPass wfTwo (initState wfTwo [] [.int 1, .int 2]) =
        .ok (st', f) ∧
      ∃ t1 t2 t3, st'.trace =
        (initState wfTwo [] [.int 1, .int 2]).trace ++ t1 ++
          List.length ([] : List Block) :: t2 ++
          (List.length ([] : List Block) + 1 +
            List.length ([] : List Block)) :: t3 := by
  refine ⟨_, _, rfl, ?_⟩
  exact ready_blocks_evaluate_in_declaration_order wfTwo [] [] []
    (FunctionBlock 0 ["a"] listId) (FunctionBlock 10 ["b"] listId)
    (initState wfTwo [] [.int 1, .int 2]) _ _ rfl ⟨rfl, rfl⟩ ⟨rfl, rfl⟩ rfl


/-! ## Claim C8: the dangling-source fault surfaces at run time -/

theorem getD_replicate_false (n i : Nat) :
    (List.replicate n false).getD i false = false := by
  induction n generalizing i with
  | zero => rfl
  | succ m ih =>
    cases i with
    | zero => rfl
    | succ j => simpa using ih j

theorem fold_vact_lookup_none (pairs : List (Value × Variable))
    (st0 : RunState) (k : Nat) (h0 : st0.vact.lookup k = Option.none)
    (hids : ∀ av ∈ pairs, (av : Value × Variable).2.id ≠ k) :
    ((pairs.foldl (fun st av =>
      { st with values := dset st.values av.2.id av.1,
                vact := dset st.vact av.2.id true }) st0).vact.lookup k) =
      Option.none := by
  induction pairs generalizing st0 with
  | nil => exact h0
  | cons av rest ih =>
    apply ih
    · show (dset st0.vact av.2.id true).lookup k = Option.none
      rw [lookup_dset_ne st0.vact av.2.id k true
        (fun he => hids av (List.mem_cons_self av rest) he.symm)]
      exact h0
    · exact fun x hx => hids x (List.mem_cons_of_mem av hx)

theorem initState_vact_lookup_none (wf : WorkFlow) (heap : Heap)
    (args : List Value) (k : Nat)
    (hk : k ∉ wf.variables.map Variable.id) :
    (initState wf heap args).vact.lookup k = Option.none := by
  unfold initState
  apply fold_vact_lookup_none
  · apply lookup_none_of_not_mem_keys
    intro hmem
    apply hk
    have : ((wf.variables.map Variable.id).dedup.map
        (fun i => (i, false))).map Prod.fst =
        (wf.variables.map Variable.id).dedup := by
      rw [List.map_map]
      have hcomp : (Prod.fst ∘ fun i : Nat => (i, false)) = id := rfl
      rw [hcomp, List.map_id]
    rw [this] at hmem
    exact List.mem_dedup.mp hmem
  · intro av hav he
    apply hk
    rw [← he]
    have h2 : av.2 ∈ wf.inputs := (List.of_mem_zip hav).2
    have h3 : av.2 ∈ wf.variables := by
      unfold WorkFlow.inputs at h2
      exact List.mem_of_mem_filter h2
    exact List.mem_map_of_mem Variable.id h3

theorem initState_pact (wf : WorkFlow) (heap : Heap) (args : List Value) :
    (initState wf heap args).pact = List.replicate wf.pipes.length false := by
  unfold initState
  have hgen : ∀ (pairs : List (Value × Variable)) (st0 : RunState),
      (pairs.foldl (fun st av =>
        { st with values := dset st.values av.2.id av.1,
                  vact := dset st.vact av.2.id true }) st0).pact = st0.pact := by
    intro pairs
    induction pairs with
    | nil => intro st0; rfl
    | cons av rest ih => intro st0; exact ih _
  rw [hgen]

theorem pipeStep_err_src (st : RunState) (i : Nat) (p : Pipe) (e : PyErr)
    (hact : st.pact.getD i false = false)
    (hsrc : dget st.vact p.input_variable.id = .error e) :
    pipeStep st i p = .error e := by
  unfold pipeStep
  rw [if_neg (by rw [hact]; decide), hsrc]

theorem pipeStep_ok_shape (st : RunState) (i : Nat) (p : Pipe)
    (r : RunState × Bool) (hs : pipeStep st i p = .ok r) :
    r = (st, false) ∨
    (st.pact.getD i false = false ∧
     st.vact.lookup p.input_variable.id = some true ∧
     ∃ v, st.values.lookup p.input_variable.id = some v ∧
       r = (({ st with
               pact := st.pact.set i true,
               values := dset st.values p.output_variable.id v,
               vact := dset st.vact p.output_variable.id true } : RunState),
            true)) := by
  unfold pipeStep at hs
  cases hact : st.pact.getD i false with
  | true =>
    rw [if_pos hact] at hs
    injection hs with h
    exact Or.inl h.symm
  | false =>
    rw [if_neg (by rw [hact]; decide)] at hs
    cases hg : dget st.vact p.input_variable.id with
    | error e => rw [hg] at hs; nomatch hs
    | ok a =>
      cases a with
      | false =>
        rw [hg] at hs
        injection hs with h
        exact Or.inl h.symm
      | true =>
        rw [hg] at hs
        cases hv : dget st.values p.input_variable.id with
        | error e => rw [hv] at hs; nomatch hs
        | ok v =>
          rw [hv] at hs
          injection hs with h
          exact Or.inr ⟨rfl, (dget_eq_ok_iff _ _ _).mp hg, v,
            (dget_eq_ok_iff _ _ _).mp hv, h.symm⟩

theorem pipePhase_dangling (L : List (Nat × Pipe)) (st : RunState)
    (flag : Bool) (k : Nat)
    (hk : st.vact.lookup k = Option.none)
    (htg : ∀ ip ∈ L, (ip : Nat × Pipe).2.output_variable.id ≠ k)
    (hnd : (L.map Prod.fst).Nodup)
    (hone : ∃ ip ∈ L, (ip : Nat × Pipe).2.input_variable.id = k ∧
      st.pact.getD ip.1 false = false) :
    pipePhase L st flag = .error .keyError := by
  induction L generalizing st flag with
  | nil =>
    obtain ⟨ip, hip, _⟩ := hone
    exact absurd hip (List.not_mem_nil ip)
  | cons jq rest ih =>
    show (match pipeStep st jq.1 jq.2 with
      | Except.error e => (Except.error e : Except PyErr (RunState × Bool))
      | Except.ok r => pipePhase rest r.1 (flag || r.2)) = .error .keyError
    by_cases hhead : jq.2.input_variable.id = k ∧ st.pact.getD jq.1 false = false
    · have hstep : pipeStep st jq.1 jq.2 = .error .keyError := by
        apply pipeStep_err_src st jq.1 jq.2 .keyError hhead.2
        unfold dget
        rw [hhead.1, hk]
      rw [hstep]
    · cases hs : pipeStep st jq.1 jq.2 with
      | error e =>
        have he := pipeStep_error st jq.1 jq.2 e hs
        subst he
        rfl
      | ok r =>
        obtain ⟨ip, hip, hipk, hippact⟩ := hone
        rcases List.mem_cons.mp hip with hip0 | hipr
        · subst hip0
          exact absurd ⟨hipk, hippact⟩ hhead
        · have hjq1 : jq.1 ∉ rest.map Prod.fst := (List.nodup_cons.mp hnd).1
          have hipne : ip.1 ≠ jq.1 := by
            intro hcon
            exact hjq1 (hcon ▸ List.mem_map_of_mem Prod.fst hipr)
          rcases pipeStep_ok_shape st jq.1 jq.2 r hs with
            hid | ⟨_, _, v, _, hfire⟩
          · rw [hid]
            exact ih st (flag || false) hk
              (fun x hx => htg x (List.mem_cons_of_mem jq hx))
              (List.nodup_cons.mp hnd).2 ⟨ip, hipr, hipk, hippact⟩
          · rw [hfire]
            apply ih
            · show (dset st.vact jq.2.output_variable.id true).lookup k =
                Option.none
              rw [lookup_dset_ne st.vact jq.2.output_variable.id k true
                (Ne.symm (htg jq (List.mem_cons_self jq rest)))]
              exact hk
            · exact fun x hx => htg x (List.mem_cons_of_mem jq hx)
            · exact (List.nodup_cons.mp hnd).2
            · refine ⟨ip, hipr, hipk, ?_⟩
              show (st.pact.set jq.1 true).getD ip.1 false = false
              rw [getD_set_ne st.pact ip.1 jq.1 true hipne]
              exact hippact

/-- C8 (amended): `WorkFlow.__init__` performs no graph validation and
raises nothing at construction; instead, a pipe whose source variable is
dangling (its identity belongs to no block variable and is the target of
no pipe) raises a `KeyError` during `run`, in the first pipe pass,
whenever the arity check passes. -/
theorem dangling_pipe_source_errors_at_run (wf : WorkFlow) (p : Pipe)
    (heap : Heap) (args : List Value)
    (hp : p ∈ wf.pipes)
    (hd : p.input_variable.id ∉ wf.variables.map Variable.id)
    (hd2 : ∀ q ∈ wf.pipes, q.output_variable.id ≠ p.input_variable.id)
    (ha : args.length = wf.inputs.length) :
    runW wf heap args = .error .keyError := by
  have hk : (initState wf heap args).vact.lookup p.input_variable.id =
      Option.none :=
    initState_vact_lookup_none wf heap args p.input_variable.id hd
  have htg : ∀ ip ∈ wf.pipes.enum,
      (ip : Nat × Pipe).2.output_variable.id ≠ p.input_variable.id := by
    intro ip hip
    exact hd2 ip.2 (List.getElem?_mem (List.mem_enum_iff_getElem?.mp hip))
  have hone : ∃ ip ∈ wf.pipes.enum,
      (ip : Nat × Pipe).2.input_variable.id = p.input_variable.id ∧
      (initState wf heap args).pact.getD ip.1 false = false := by
    obtain ⟨n, hn⟩ := List.mem_iff_getElem?.mp hp
    refine ⟨(n, p), List.mem_enum_iff_getElem?.mpr hn, rfl, ?_⟩
    rw [initState_pact]
    exact getD_replicate_false wf.pipes.length n
  have hphase : pipePhase wf.pipes.enum (initState wf heap args) false =
      .error .keyError :=
    pipePhase_dangling wf.pipes.enum (initState wf heap args) false
      p.input_variable.id hk htg (List.nodup_enum_map_fst wf.pipes) hone
  have hpass : runPass wf (initState wf heap args) = .error .keyError := by
    unfold runPass
    rw [hphase]
  have hloop : runLoop wf (fuelOf wf) (initState wf heap args) =
      .error .keyError := by
    show runLoop wf
      (wf.pipes.length + wf.blocks.length + (varUniverse wf).length + 1)
      (initState wf heap args) = .error .keyError
    unfold runLoop
    rw [hpass]
  unfold runW
  rw [if_neg (fun x => x ha), hloop]

/-- Witness for C8's amended theorem: `wfDangle`'s pipe `99 → 0` has a
dangling source that no pipe feeds; its zero-argument run raises
`KeyError`. -/
theorem dangling_pipe_source_errors_at_run_witness :
    (⟨⟨99, "z"⟩, ⟨0, "x"⟩⟩ : Pipe) ∈ wfDangle.pipes ∧
    runW wfDangle [] [] = .error .keyError :=
  ⟨List.mem_singleton.mpr rfl,
   dangling_pipe_source_errors_at_run wfDangle ⟨⟨99, "z"⟩, ⟨0, "x"⟩⟩ [] []
     (List.mem_singleton.mpr rfl) (by decide) (by decide) rfl⟩

/-! ## Claim C9: stepwise execution versus run — the equivalence machinery

The spec's claim fails for heap-mutating blocks, whose evaluation order
differs between the two entry points (see the counterexample on
`wfOrder`).  The rest of this development proves the amended claim: for
workflows whose blocks are pure, whose writers are pairwise distinct and
whose pipe sources are genuine variables, driving `start_run`'s state to
completion through the §4.5 stepwise `advance` produces exactly `run`'s
`output_value`. -/

theorem Agrees_refl (A : RunState) : Agrees A A :=
  ⟨rfl, fun _ h => h, fun _ h => h, fun _ hk => ⟨hk, rfl⟩⟩

theorem Agrees_trans (A B C : RunState) (h1 : Agrees A B) (h2 : Agrees B C) :
    Agrees A C :=
  ⟨h1.1.trans h2.1, fun i h => h1.2.1 i (h2.2.1 i h),
   fun j h => h1.2.2.1 j (h2.2.2.1 j h),
   fun k hk => ⟨(h1.2.2.2 k (h2.2.2.2 k hk).1).1,
     ((h1.2.2.2 k (h2.2.2.2 k hk).1).2).trans (h2.2.2.2 k hk).2⟩⟩

theorem allActivated_ok_true_iff (d : List (Nat × Bool))
    (ins : List Variable) :
    allActivated d ins = .ok true ↔ ∀ v ∈ ins, d.lookup v.id = some true := by
  induction ins with
  | nil => simp [allActivated]
  | cons v ins ih =>
    rw [allActivated_cons_iff, ih]
    constructor
    · rintro ⟨h1, h2⟩ w hw
      rcases List.mem_cons.mp hw with h | h
      · subst h
        exact (dget_eq_ok_iff _ _ _).mp h1
      · exact h2 w h
    · intro h
      exact ⟨(dget_eq_ok_iff _ _ _).mpr (h v (List.mem_cons_self v ins)),
        fun w hw => h w (List.mem_cons_of_mem v hw)⟩

theorem allActivated_no_error (d : List (Nat × Bool)) (ins : List Variable)
    (h : ∀ v ∈ ins, (d.lookup v.id).isSome) :
    ∃ bb, allActivated d ins = .ok bb := by
  induction ins with
  | nil => exact ⟨true, rfl⟩
  | cons v ins ih =>
    obtain ⟨x, hx⟩ :=
      Option.isSome_iff_exists.mp (h v (List.mem_cons_self v ins))
    have hd : dget d v.id = .ok x := by
      unfold dget
      rw [hx]
    unfold allActivated
    rw [hd]
    cases x with
    | false => exact ⟨false, rfl⟩
    | true => exact ih fun w hw => h w (List.mem_cons_of_mem v hw)

theorem gatherValues_no_error (vals : List (Nat × Value))
    (ins : List Variable) (h : ∀ v ∈ ins, (vals.lookup v.id).isSome) :
    ∃ xs, gatherValues vals ins = .ok xs := by
  induction ins with
  | nil => exact ⟨[], rfl⟩
  | cons v ins ih =>
    obtain ⟨x, hx⟩ :=
      Option.isSome_iff_exists.mp (h v (List.mem_cons_self v ins))
    have hd : dget vals v.id = .ok x := by
      unfold dget
      rw [hx]
    obtain ⟨xs, hxs⟩ := ih fun w hw => h w (List.mem_cons_of_mem v hw)
    refine ⟨x :: xs, ?_⟩
    unfold gatherValues
    rw [hd]
    dsimp only
    rw [hxs]

theorem gatherValues_congr (vals vals' : List (Nat × Value))
    (ins : List Variable)
    (h : ∀ v ∈ ins, vals'.lookup v.id = vals.lookup v.id) :
    gatherValues vals' ins = gatherValues vals ins := by
  induction ins with
  | nil => rfl
  | cons v ins ih =>
    have hd : dget vals' v.id = dget vals v.id := by
      unfold dget
      rw [h v (List.mem_cons_self v ins)]
    unfold gatherValues
    rw [hd, ih fun w hw => h w (List.mem_cons_of_mem v hw)]

theorem bindOutputs_lookup_not_mem (st : RunState)
    (pairs : List (Variable × Value)) (x : Nat)
    (hx : x ∉ pairs.map fun pv => (pv : Variable × Value).1.id) :
    (bindOutputs st pairs).vact.lookup x = st.vact.lookup x ∧
    (bindOutputs st pairs).values.lookup x = st.values.lookup x := by
  induction pairs generalizing st with
  | nil => exact ⟨rfl, rfl⟩
  | cons pv rest ih =>
    simp only [List.map_cons, List.mem_cons, not_or] at hx
    have hstep : bindOutputs st (pv :: rest) =
        bindOutputs { st with values := dset st.values pv.1.id pv.2,
                              vact := dset st.vact pv.1.id true } rest := rfl
    rw [hstep]
    have hih := ih { st with values := dset st.values pv.1.id pv.2,
                             vact := dset st.vact pv.1.id true } hx.2
    refine ⟨?_, ?_⟩
    · rw [hih.1]
      exact lookup_dset_ne st.vact pv.1.id x true hx.1
    · rw [hih.2]
      exact lookup_dset_ne st.values pv.1.id x pv.2 hx.1

theorem bindOutputs_lookup_mem (st : RunState)
    (pairs : List (Variable × Value)) (pr : Variable × Value)
    (hnd : (pairs.map fun pv => (pv : Variable × Value).1.id).Nodup)
    (hpr : pr ∈ pairs) :
    (bindOutputs st pairs).vact.lookup pr.1.id = some true ∧
    (bindOutputs st pairs).values.lookup pr.1.id = some pr.2 := by
  induction pairs generalizing st with
  | nil => exact absurd hpr (List.not_mem_nil pr)
  | cons pv rest ih =>
    have hstep : bindOutputs st (pv :: rest) =
        bindOutputs { st with values := dset st.values pv.1.id pv.2,
                              vact := dset st.vact pv.1.id true } rest := rfl
    rw [hstep]
    rcases List.mem_cons.mp hpr with h0 | hmem
    · subst h0
      have hni : pr.1.id ∉ rest.map fun pv => (pv : Variable × Value).1.id :=
        (List.nodup_cons.mp hnd).1
      have h2 := bindOutputs_lookup_not_mem
        { st with values := dset st.values pr.1.id pr.2,
                  vact := dset st.vact pr.1.id true } rest pr.1.id hni
      rw [h2.1, h2.2]
      exact ⟨lookup_dset_self st.vact pr.1.id true,
        lookup_dset_self st.values pr.1.id pr.2⟩
    · exact ih _ (List.nodup_cons.mp hnd).2 hmem

theorem zip_map_fst_id_sublist (l1 : List Variable) (l2 : List Value) :
    ((l1.zip l2).map fun pr => (pr : Variable × Value).1.id).Sublist
      (l1.map Variable.id) := by
  induction l1 generalizing l2 with
  | nil => simp
  | cons a l1 ih =>
    cases l2 with
    | nil => simp
    | cons b l2 =>
      rw [List.zip_cons_cons, List.map_cons, List.map_cons]
      exact List.Sublist.cons₂ a.id (ih l2)

theorem lookup_const_false (l : List Nat) (k : Nat) :
    ((l.map fun i => (i, false)).lookup k) ≠ some true := by
  induction l with
  | nil =>
    intro h
    nomatch h
  | cons i l ih =>
    rw [List.map_cons, List.lookup_cons]
    cases hki : (k == i) with
    | false => exact ih
    | true =>
      intro h
      simp at h

theorem lookup_map_mem (l : List Nat) (k : Nat) (hk : k ∈ l) :
    (((l.map fun i => (i, false)).lookup k)).isSome := by
  induction l with
  | nil => exact absurd hk (List.not_mem_nil k)
  | cons i l ih =>
    rw [List.map_cons, List.lookup_cons]
    by_cases hki : k = i
    · subst hki
      rw [beq_self_eq_true]
      rfl
    · rw [beq_false_of_ne hki]
      exact ih (List.mem_of_ne_of_mem hki hk)

theorem sw_parts (wf : WorkFlow) (hsw : SingleWriter wf) :
    (wf.pipes.map fun p => p.output_variable.id).Nodup ∧
    (wf.blocks.flatMap fun b => b.outputs.map Variable.id).Nodup ∧
    (∀ x ∈ wf.pipes.map fun p => p.output_variable.id,
      x ∉ wf.inputs.map Variable.id) ∧
    (∀ x ∈ wf.blocks.flatMap fun b => b.outputs.map Variable.id,
      x ∉ wf.inputs.map Variable.id ∧
      x ∉ wf.pipes.map fun p => p.output_variable.id) := by
  unfold SingleWriter writerIds at hsw
  rw [List.nodup_append] at hsw
  obtain ⟨hAB, hC, hdisj⟩ := hsw
  rw [List.nodup_append] at hAB
  obtain ⟨hA, hB, hAB2⟩ := hAB
  refine ⟨hB, hC, ?_, ?_⟩
  · intro x hx hxin
    exact hAB2 hxin hx
  · intro x hx
    constructor
    · intro hxin
      exact hdisj (List.mem_append.mpr (Or.inl hxin)) hx
    · intro hxB
      exact hdisj (List.mem_append.mpr (Or.inr hxB)) hx

theorem sw_pipe_targets_ne (wf : WorkFlow) (hsw : SingleWriter wf)
    (i i' : Nat) (p p' : Pipe)
    (hip : wf.pipes[i]? = some p) (hip' : wf.pipes[i']? = some p')
    (hne : i ≠ i') : p.output_variable.id ≠ p'.output_variable.id := by
  have hB := (sw_parts wf hsw).1
  intro hcon
  have hgl : (wf.pipes.map fun q => q.output_variable.id)[i]? =
      some p.output_variable.id := by
    rw [List.getElem?_map, hip]
    rfl
  have hgl' : (wf.pipes.map fun q => q.output_variable.id)[i']? =
      some p'.output_variable.id := by
    rw [List.getElem?_map, hip']
    rfl
  obtain ⟨hl1, hg1⟩ := List.getElem?_eq_some_iff.mp hgl
  obtain ⟨hl2, hg2⟩ := List.getElem?_eq_some_iff.mp hgl'
  exact hne ((@List.Nodup.getElem_inj_iff _ _ hB i hl1 i' hl2).mp
    (hg1.trans (hcon.trans hg2.symm)))

theorem sw_block_outs_nodup (wf : WorkFlow) (hsw : SingleWriter wf)
    (b : Block) (hb : b ∈ wf.blocks) : (b.outputs.map Variable.id).Nodup :=
  (List.nodup_flatMap.mp (sw_parts wf hsw).2.1).1 b hb

theorem sw_block_outs_disjoint (wf : WorkFlow) (hsw : SingleWriter wf)
    (j j' : Nat) (b b' : Block)
    (hjb : wf.blocks[j]? = some b) (hjb' : wf.blocks[j']? = some b')
    (hne : j ≠ j') (x : Nat) (hx : x ∈ b.outputs.map Variable.id) :
    x ∉ b'.outputs.map Variable.id := by
  have hP := (List.nodup_flatMap.mp (sw_parts wf hsw).2.1).2
  rw [List.pairwise_iff_getElem] at hP
  obtain ⟨hl1, hg1⟩ := List.getElem?_eq_some_iff.mp hjb
  obtain ⟨hl2, hg2⟩ := List.getElem?_eq_some_iff.mp hjb'
  intro hx'
  rcases Nat.lt_or_ge j j' with hlt | hge
  · exact hP j j' hl1 hl2 hlt (by rw [hg1]; exact hx) (by rw [hg2]; exact hx')
  · have hlt' : j' < j := by omega
    exact hP j' j hl2 hl1 hlt' (by rw [hg2]; exact hx') (by rw [hg1]; exact hx)

theorem fresh_pipe_target (wf : WorkFlow) (h0 : Heap) (st : RunState)
    (hsw : SingleWriter wf) (hG : GInv wf h0 st) (i : Nat) (p : Pipe)
    (hip : wf.pipes[i]? = some p) (hact : st.pact.getD i false = false) :
    ¬ st.vact.lookup p.output_variable.id = some true := by
  intro hcon
  have htgtB : p.output_variable.id ∈
      wf.pipes.map fun q => q.output_variable.id :=
    List.mem_map.mpr ⟨p, List.getElem?_mem hip, rfl⟩
  rcases hG.2.2.2.2.2.2.1 _ hcon with
    hin | ⟨i', p', hip', hact', htgt⟩ | ⟨j, b, hjb, hbact, hout⟩
  · exact (sw_parts wf hsw).2.2.1 _ htgtB hin
  · by_cases hii : i' = i
    · subst hii
      rw [hact] at hact'
      nomatch hact'
    · exact sw_pipe_targets_ne wf hsw i' i p' p hip' hip hii htgt
  · have hmemC : p.output_variable.id ∈
        wf.blocks.flatMap fun c => c.outputs.map Variable.id :=
      List.mem_flatMap.mpr ⟨b, List.getElem?_mem hjb, hout⟩
    exact ((sw_parts wf hsw).2.2.2 _ hmemC).2 htgtB

theorem fresh_block_outputs (wf : WorkFlow) (h0 : Heap) (st : RunState)
    (hsw : SingleWriter wf) (hG : GInv wf h0 st) (j : Nat) (b : Block)
    (hjb : wf.blocks[j]? = some b) (hact : st.bact.getD j false = false)
    (x : Nat) (hx : x ∈ b.outputs.map Variable.id) :
    ¬ st.vact.lookup x = some true := by
  intro hcon
  have hmemC : x ∈ wf.blocks.flatMap fun c => c.outputs.map Variable.id :=
    List.mem_flatMap.mpr ⟨b, List.getElem?_mem hjb, hx⟩
  rcases hG.2.2.2.2.2.2.1 _ hcon with
    hin | ⟨i', p', hip', hact', htgt⟩ | ⟨j', b', hjb', hbact', hout'⟩
  · exact ((sw_parts wf hsw).2.2.2 _ hmemC).1 hin
  · exact ((sw_parts wf hsw).2.2.2 _ hmemC).2
      (htgt ▸ List.mem_map.mpr ⟨p', List.getElem?_mem hip', rfl⟩)
  · by_cases hjj : j' = j
    · subst hjj
      rw [hact] at hbact'
      nomatch hbact'
    · exact sw_block_outs_disjoint wf hsw j' j b' b hjb' hjb hjj x hout' hx

theorem bindOutputs_vact_memid (st : RunState)
    (pairs : List (Variable × Value)) (x : Nat)
    (hnd : (pairs.map fun pv => (pv : Variable × Value).1.id).Nodup)
    (hx : x ∈ pairs.map fun pv => (pv : Variable × Value).1.id) :
    (bindOutputs st pairs).vact.lookup x = some true := by
  obtain ⟨pr, hpr, hprx⟩ := List.mem_map.mp hx
  have h := (bindOutputs_lookup_mem st pairs pr hnd hpr).1
  rw [show pr.1.id = x from hprx] at h
  exact h

theorem bindOutputs_values_memid (st : RunState)
    (pairs : List (Variable × Value)) (x : Nat)
    (hnd : (pairs.map fun pv => (pv : Variable × Value).1.id).Nodup)
    (hx : x ∈ pairs.map fun pv => (pv : Variable × Value).1.id) :
    ((bindOutputs st pairs).values.lookup x).isSome := by
  obtain ⟨pr, hpr, hprx⟩ := List.mem_map.mp hx
  have h := (bindOutputs_lookup_mem st pairs pr hnd hpr).2
  rw [show pr.1.id = x from hprx] at h
  rw [h]
  rfl

theorem pipeStep_pres (wf : WorkFlow) (h0 : Heap) (st : RunState)
    (hsw : SingleWriter wf) (hpsrc : PipeSourcesValid wf)
    (hG : GInv wf h0 st) (i : Nat) (p : Pipe)
    (hip : wf.pipes[i]? = some p) :
    ∃ st' f, pipeStep st i p = .ok (st', f) ∧ GInv wf h0 st' ∧
      Agrees st' st ∧
      (f = false → st' = st ∧
        (st.pact.getD i false = true ∨
         st.vact.lookup p.input_variable.id ≠ some true)) := by
  have hG2 := hG
  obtain ⟨hheap, hlp, hlb, hkeys, hva, hvb, hprov, hcoh⟩ := hG2
  cases hact : st.pact.getD i false with
  | true =>
    refine ⟨st, false, ?_, hG, Agrees_refl st, fun _ => ⟨rfl, Or.inl rfl⟩⟩
    unfold pipeStep
    rw [if_pos hact]
  | false =>
    have hsm : p.input_variable.id ∈ wf.variables.map Variable.id :=
      hpsrc p (List.getElem?_mem hip)
    obtain ⟨v0, hv0, hv0id⟩ := List.mem_map.mp hsm
    have hsome : (st.vact.lookup p.input_variable.id).isSome := by
      rw [← hv0id]
      exact hkeys v0 hv0
    obtain ⟨tv, htv⟩ := Option.isSome_iff_exists.mp hsome
    have hdg : dget st.vact p.input_variable.id = .ok tv := by
      unfold dget
      rw [htv]
    cases tv with
    | false =>
      refine ⟨st, false, ?_, hG, Agrees_refl st, fun _ => ⟨rfl, Or.inr ?_⟩⟩
      · unfold pipeStep
        rw [if_neg (by rw [hact]; decide), hdg]
      · rw [htv]
        simp
    | true =>
      have hvalsome : (st.values.lookup p.input_variable.id).isSome :=
        hva _ htv
      obtain ⟨v, hv⟩ := Option.isSome_iff_exists.mp hvalsome
      have hdv : dget st.values p.input_variable.id = .ok v := by
        unfold dget
        rw [hv]
      have hfire := pipeStep_fire st i p v hact hdg hdv
      have hfresh : ¬ st.vact.lookup p.output_variable.id = some true :=
        fresh_pipe_target wf h0 st hsw hG i p hip hact
      have hlt2 : i < st.pact.length := by
        rw [hlp]
        exact (List.getElem?_eq_some_iff.mp hip).1
      refine ⟨_, true, hfire, ⟨hheap, ?_, hlb, ?_, ?_, ?_, ?_, ?_, ?_⟩,
        ⟨rfl, ?_, fun j h => h, ?_⟩, fun hf => nomatch hf⟩
      · show (st.pact.set i true).length = wf.pipes.length
        rw [List.length_set]
        exact hlp
      · intro w hw
        by_cases hwt : w.id = p.output_variable.id
        · show ((dset st.vact p.output_variable.id true).lookup w.id).isSome
          rw [hwt, lookup_dset_self]
          rfl
        · show ((dset st.vact p.output_variable.id true).lookup w.id).isSome
          rw [lookup_dset_ne st.vact p.output_variable.id w.id true hwt]
          exact hkeys w hw
      · intro k hk
        by_cases hkt : k = p.output_variable.id
        · subst hkt
          show ((dset st.values p.output_variable.id v).lookup
            p.output_variable.id).isSome
          rw [lookup_dset_self]
          rfl
        · have hk' : st.vact.lookup k = some true := by
            rw [← lookup_dset_ne st.vact p.output_variable.id k true hkt]
            exact hk
          show ((dset st.values p.output_variable.id v).lookup k).isSome
          rw [lookup_dset_ne st.values p.output_variable.id k v hkt]
          exact hva k hk'
      · intro k x hkx
        by_cases hkt : k = p.output_variable.id
        · subst hkt
          show (dset st.vact p.output_variable.id true).lookup
            p.output_variable.id = some true
          rw [lookup_dset_self]
        · have hkx' : st.values.lookup k = some x := by
            rw [← lookup_dset_ne st.values p.output_variable.id k v hkt]
            exact hkx
          show (dset st.vact p.output_variable.id true).lookup k = some true
          rw [lookup_dset_ne st.vact p.output_variable.id k true hkt]
          exact hvb k x hkx'
      · intro k hk
        by_cases hkt : k = p.output_variable.id
        · subst hkt
          refine Or.inr (Or.inl ⟨i, p, hip, ?_, rfl⟩)
          show (st.pact.set i true).getD i false = true
          rw [getD_set_self st.pact i true hlt2]
        · have hk' : st.vact.lookup k = some true := by
            rw [← lookup_dset_ne st.vact p.output_variable.id k true hkt]
            exact hk
          rcases hprov k hk' with
            h1 | ⟨i', p', hi', ha', ht'⟩ | ⟨j', b', hj', hb', ho'⟩
          · exact Or.inl h1
          · refine Or.inr (Or.inl ⟨i', p', hi', ?_, ht'⟩)
            by_cases hii : i' = i
            · subst hii
              show (st.pact.set i' true).getD i' false = true
              rw [getD_set_self st.pact i' true hlt2]
            · show (st.pact.set i true).getD i' false = true
              rw [getD_set_ne st.pact i' i true hii]
              exact ha'
          · exact Or.inr (Or.inr ⟨j', b', hj', hb', ho'⟩)
      · intro i' p' hip' hact'
        by_cases hii : i' = i
        · subst hii
          have hpp : p' = p := by
            rw [hip] at hip'
            injection hip' with h
            exact h.symm
          subst hpp
          refine ⟨?_, ?_, ?_⟩
          · by_cases hst : p'.input_variable.id = p'.output_variable.id
            · show (dset st.vact p'.output_variable.id true).lookup
                p'.input_variable.id = some true
              rw [hst, lookup_dset_self]
            · show (dset st.vact p'.output_variable.id true).lookup
                p'.input_variable.id = some true
              rw [lookup_dset_ne st.vact p'.output_variable.id
                p'.input_variable.id true hst]
              exact htv
          · show (dset st.vact p'.output_variable.id true).lookup
              p'.output_variable.id = some true
            rw [lookup_dset_self]
          · by_cases hst : p'.input_variable.id = p'.output_variable.id
            · rw [← hst]
            · show (dset st.values p'.output_variable.id v).lookup
                p'.output_variable.id =
                (dset st.values p'.output_variable.id v).lookup
                  p'.input_variable.id
              rw [lookup_dset_self, lookup_dset_ne st.values
                p'.output_variable.id p'.input_variable.id v hst, hv]
        · have hact'' : st.pact.getD i' false = true := by
            have h2 : (st.pact.set i true).getD i' false = true := hact'
            rw [getD_set_ne st.pact i' i true hii] at h2
            exact h2
          obtain ⟨hsv, htv', hveq⟩ := hcoh.1 i' p' hip' hact''
          have hsrcne : p'.input_variable.id ≠ p.output_variable.id := by
            intro hcon
            exact hfresh (hcon ▸ hsv)
          have htgtne : p'.output_variable.id ≠ p.output_variable.id :=
            sw_pipe_targets_ne wf hsw i' i p' p hip' hip hii
          refine ⟨?_, ?_, ?_⟩
          · show (dset st.vact p.output_variable.id true).lookup
              p'.input_variable.id = some true
            rw [lookup_dset_ne st.vact p.output_variable.id
              p'.input_variable.id true hsrcne]
            exact hsv
          · show (dset st.vact p.output_variable.id true).lookup
              p'.output_variable.id = some true
            rw [lookup_dset_ne st.vact p.output_variable.id
              p'.output_variable.id true htgtne]
            exact htv'
          · show (dset st.values p.output_variable.id v).lookup
              p'.output_variable.id =
              (dset st.values p.output_variable.id v).lookup
                p'.input_variable.id
            rw [lookup_dset_ne st.values p.output_variable.id
              p'.output_variable.id v htgtne,
              lookup_dset_ne st.values p.output_variable.id
                p'.input_variable.id v hsrcne]
            exact hveq
      · intro j' b' hjb' hbact'
        obtain ⟨hall, ins, r, outs, hgat, hev, hit, hprs⟩ :=
          hcoh.2 j' b' hjb' hbact'
        have hcg : gatherValues (dset st.values p.output_variable.id v)
            b'.inputs = gatherValues st.values b'.inputs := by
          apply gatherValues_congr
          intro w hw
          have hwact : st.vact.lookup w.id = some true :=
            (allActivated_ok_true_iff _ _).mp hall w hw
          have hwne : w.id ≠ p.output_variable.id := by
            intro hcon
            exact hfresh (hcon ▸ hwact)
          exact lookup_dset_ne st.values p.output_variable.id w.id v hwne
        refine ⟨?_, ins, r, outs, ?_, hev, hit, ?_⟩
        · show allActivated (dset st.vact p.output_variable.id true)
            b'.inputs = .ok true
          exact allActivated_dset_true st.vact p.output_variable.id
            b'.inputs hall
        · show gatherValues (dset st.values p.output_variable.id v)
            b'.inputs = .ok ins
          rw [hcg]
          exact hgat
        · intro pr hpr
          obtain ⟨hprv, hprval⟩ := hprs pr hpr
          have hprne : pr.1.id ≠ p.output_variable.id := by
            intro hcon
            exact hfresh (hcon ▸ hprv)
          constructor
          · show (dset st.vact p.output_variable.id true).lookup
              pr.1.id = some true
            rw [lookup_dset_ne st.vact p.output_variable.id pr.1.id
              true hprne]
            exact hprv
          · show (dset st.values p.output_variable.id v).lookup
              pr.1.id = some pr.2
            rw [lookup_dset_ne st.values p.output_variable.id pr.1.id
              v hprne]
            exact hprval
      · intro i2 h2
        by_cases hii : i2 = i
        · subst hii
          show (st.pact.set i2 true).getD i2 false = true
          rw [getD_set_self st.pact i2 true hlt2]
        · show (st.pact.set i true).getD i2 false = true
          rw [getD_set_ne st.pact i2 i true hii]
          exact h2
      · intro k hk
        have hkne : k ≠ p.output_variable.id := by
          intro hcon
          exact hfresh (hcon ▸ hk)
        constructor
        · show (dset st.vact p.output_variable.id true).lookup k = some true
          rw [lookup_dset_ne st.vact p.output_variable.id k true hkne]
          exact hk
        · show (dset st.values p.output_variable.id v).lookup k =
            st.values.lookup k
          rw [lookup_dset_ne st.values p.output_variable.id k v hkne]

theorem blockStep_ok_shape (st : RunState) (j : Nat) (b : Block)
    (r : RunState × Bool) (hs : blockStep st j b = .ok r) :
    r = (st, false) ∨
    (st.bact.getD j false = false ∧
     allActivated st.vact b.inputs = .ok true ∧
     ∃ ins r0 outs, gatherValues st.values b.inputs = .ok ins ∧
       b.eval st.heap ins = .ok r0 ∧ pyIterate r0.2 = .ok outs ∧
       r = (({ bindOutputs { st with heap := r0.1 } (b.outputs.zip outs) with
               bact := (bindOutputs { st with heap := r0.1 }
                 (b.outputs.zip outs)).bact.set j true,
               trace := (bindOutputs { st with heap := r0.1 }
                 (b.outputs.zip outs)).trace ++ [j] } : RunState), true)) := by
  cases hact : st.bact.getD j false with
  | true =>
    rw [blockStep_skip_activated st j b hact] at hs
    injection hs with h
    exact Or.inl h.symm
  | false =>
    cases hready : allActivated st.vact b.inputs with
    | error e =>
      rw [blockStep_err_ready st j b e hact hready] at hs
      nomatch hs
    | ok a =>
      cases a with
      | false =>
        rw [blockStep_skip_notReady st j b hact hready] at hs
        injection hs with h
        exact Or.inl h.symm
      | true =>
        cases hg : gatherValues st.values b.inputs with
        | error e =>
          rw [blockStep_err_gather st j b e hact hready hg] at hs
          nomatch hs
        | ok ins =>
          cases hev : b.eval st.heap ins with
          | error e =>
            rw [blockStep_err_eval st j b ins e hact hready hg hev] at hs
            nomatch hs
          | ok r0 =>
            cases hit : pyIterate r0.2 with
            | error e =>
              rw [blockStep_err_iter st j b ins r0 e hact hready hg hev hit]
                at hs
              nomatch hs
            | ok outs =>
              rw [blockStep_fire st j b ins r0 outs hact hready hg hev hit]
                at hs
              injection hs with h
              exact Or.inr ⟨rfl, rfl, ins, r0, outs, rfl, hev, hit, h.symm⟩

theorem blockStep_pres (wf : WorkFlow) (h0 : Heap) (st : RunState)
    (hpure : PureBlocks wf) (hsw : SingleWriter wf)
    (hG : GInv wf h0 st) (j : Nat) (b : Block)
    (hjb : wf.blocks[j]? = some b) :
    ∃ st' f, blockStep st j b = .ok (st', f) ∧ GInv wf h0 st' ∧
      Agrees st' st ∧
      (f = false → st' = st ∧
        (st.bact.getD j false = true ∨
         allActivated st.vact b.inputs ≠ .ok true)) := by
  have hG2 := hG
  obtain ⟨hheap, hlp, hlb, hkeys, hva, hvb, hprov, hcoh⟩ := hG2
  have hbmem : b ∈ wf.blocks := List.getElem?_mem hjb
  obtain ⟨fb, hfb⟩ := hpure b hbmem
  cases hbact : st.bact.getD j false with
  | true =>
    exact ⟨st, false, blockStep_skip_activated st j b hbact, hG,
      Agrees_refl st, fun _ => ⟨rfl, Or.inl rfl⟩⟩
  | false =>
    have hins : ∀ v ∈ b.inputs, v ∈ wf.variables := by
      intro v hv
      unfold WorkFlow.variables
      exact List.mem_flatMap.mpr ⟨b, hbmem, List.mem_append.mpr (Or.inl hv)⟩
    obtain ⟨bb, hbb⟩ := allActivated_no_error st.vact b.inputs
      (fun v hv => hkeys v (hins v hv))
    cases bb with
    | false =>
      refine ⟨st, false, blockStep_skip_notReady st j b hbact hbb, hG,
        Agrees_refl st, fun _ => ⟨rfl, Or.inr ?_⟩⟩
      rw [hbb]
      simp
    | true =>
      have hinact : ∀ v ∈ b.inputs, st.vact.lookup v.id = some true :=
        (allActivated_ok_true_iff _ _).mp hbb
      obtain ⟨ins, hgat⟩ := gatherValues_no_error st.values b.inputs
        (fun v hv => hva _ (hinact v hv))
      have hev : b.eval st.heap ins = .ok (st.heap, .list (fb ins)) :=
        hfb st.heap ins
      have hfire := blockStep_fire st j b ins (st.heap, .list (fb ins))
        (fb ins) hbact hbb hgat hev rfl
      have hfire2 : blockStep st j b =
          .ok (({ bindOutputs st (b.outputs.zip (fb ins)) with
                  bact := (bindOutputs st
                    (b.outputs.zip (fb ins))).bact.set j true,
                  trace := (bindOutputs st
                    (b.outputs.zip (fb ins))).trace ++ [j] } : RunState),
               true) := hfire
      have hnd : ((b.outputs.zip (fb ins)).map
          fun pv => (pv : Variable × Value).1.id).Nodup :=
        List.Nodup.sublist (zip_map_fst_id_sublist b.outputs (fb ins))
          (sw_block_outs_nodup wf hsw b hbmem)
      have hsubset : ∀ x ∈ (b.outputs.zip (fb ins)).map
          (fun pv => (pv : Variable × Value).1.id),
          x ∈ b.outputs.map Variable.id :=
        fun x hx => (zip_map_fst_id_sublist b.outputs (fb ins)).subset hx
      have hfreshx : ∀ x ∈ (b.outputs.zip (fb ins)).map
          (fun pv => (pv : Variable × Value).1.id),
          ¬ st.vact.lookup x = some true :=
        fun x hx =>
          fresh_block_outputs wf h0 st hsw hG j b hjb hbact x (hsubset x hx)
      have hjlt : j < st.bact.length := by
        rw [hlb]
        exact (List.getElem?_eq_some_iff.mp hjb).1
      obtain ⟨b1, b2, b3, b4, b5, b6, b7, b8⟩ :=
        bindOutputs_spec st (b.outputs.zip (fb ins))
      have hlk_mem : ∀ pr ∈ b.outputs.zip (fb ins),
          (bindOutputs st (b.outputs.zip (fb ins))).vact.lookup pr.1.id =
            some true ∧
          (bindOutputs st (b.outputs.zip (fb ins))).values.lookup pr.1.id =
            some pr.2 :=
        fun pr hpr => bindOutputs_lookup_mem st _ pr hnd hpr
      have hlk_not : ∀ x,
          x ∉ (b.outputs.zip (fb ins)).map
            (fun pv => (pv : Variable × Value).1.id) →
          (bindOutputs st (b.outputs.zip (fb ins))).vact.lookup x =
            st.vact.lookup x ∧
          (bindOutputs st (b.outputs.zip (fb ins))).values.lookup x =
            st.values.lookup x :=
        fun x hx => bindOutputs_lookup_not_mem st _ x hx
      refine ⟨_, true, hfire2, ⟨?_, ?_, ?_, ?_, ?_, ?_, ?_, ?_, ?_⟩,
        ⟨?_, ?_, ?_, ?_⟩, fun hf => nomatch hf⟩
      · show (bindOutputs st (b.outputs.zip (fb ins))).heap = h0
        rw [b4]
        exact hheap
      · show (bindOutputs st (b.outputs.zip (fb ins))).pact.length =
          wf.pipes.length
        rw [b1]
        exact hlp
      · show ((bindOutputs st
          (b.outputs.zip (fb ins))).bact.set j true).length =
          wf.blocks.length
        rw [List.length_set, b2]
        exact hlb
      · intro w hw
        by_cases hwid : w.id ∈ (b.outputs.zip (fb ins)).map
            fun pv => (pv : Variable × Value).1.id
        · show ((bindOutputs st
            (b.outputs.zip (fb ins))).vact.lookup w.id).isSome
          rw [bindOutputs_vact_memid st _ w.id hnd hwid]
          rfl
        · show ((bindOutputs st
            (b.outputs.zip (fb ins))).vact.lookup w.id).isSome
          rw [(hlk_not w.id hwid).1]
          exact hkeys w hw
      · intro k hk
        by_cases hkid : k ∈ (b.outputs.zip (fb ins)).map
            fun pv => (pv : Variable × Value).1.id
        · exact bindOutputs_values_memid st _ k hnd hkid
        · have hk' : st.vact.lookup k = some true := by
            rw [← (hlk_not k hkid).1]
            exact hk
          show ((bindOutputs st
            (b.outputs.zip (fb ins))).values.lookup k).isSome
          rw [(hlk_not k hkid).2]
          exact hva k hk'
      · intro k x hkx
        by_cases hkid : k ∈ (b.outputs.zip (fb ins)).map
            fun pv => (pv : Variable × Value).1.id
        · exact bindOutputs_vact_memid st _ k hnd hkid
        · have hkx' : st.values.lookup k = some x := by
            rw [← (hlk_not k hkid).2]
            exact hkx
          show (bindOutputs st
            (b.outputs.zip (fb ins))).vact.lookup k = some true
          rw [(hlk_not k hkid).1]
          exact hvb k x hkx'
      · intro k hk
        by_cases hkid : k ∈ (b.outputs.zip (fb ins)).map
            fun pv => (pv : Variable × Value).1.id
        · refine Or.inr (Or.inr ⟨j, b, hjb, ?_, hsubset k hkid⟩)
          show ((bindOutputs st
            (b.outputs.zip (fb ins))).bact.set j true).getD j false = true
          have hjlt2 : j < (bindOutputs st
              (b.outputs.zip (fb ins))).bact.length := by
            rw [b2]
            exact hjlt
          rw [getD_set_self _ j true hjlt2]
        · have hk' : st.vact.lookup k = some true := by
            rw [← (hlk_not k hkid).1]
            exact hk
          rcases hprov k hk' with
            h1 | ⟨i', p', hi', ha', ht'⟩ | ⟨j', b', hj', hb', ho'⟩
          · exact Or.inl h1
          · refine Or.inr (Or.inl ⟨i', p', hi', ?_, ht'⟩)
            show (bindOutputs st
              (b.outputs.zip (fb ins))).pact.getD i' false = true
            rw [b1]
            exact ha'
          · refine Or.inr (Or.inr ⟨j', b', hj', ?_, ho'⟩)
            by_cases hjj : j' = j
            · subst hjj
              show ((bindOutputs st
                (b.outputs.zip (fb ins))).bact.set j' true).getD j' false =
                true
              have hjlt2 : j' < (bindOutputs st
                  (b.outputs.zip (fb ins))).bact.length := by
                rw [b2]
                exact hjlt
              rw [getD_set_self _ j' true hjlt2]
            · show ((bindOutputs st
                (b.outputs.zip (fb ins))).bact.set j true).getD j' false =
                true
              rw [getD_set_ne _ j' j true hjj, b2]
              exact hb'
      · intro i' p' hip' hact'
        have hact'' : st.pact.getD i' false = true := by
          have h2 : (bindOutputs st
              (b.outputs.zip (fb ins))).pact.getD i' false = true := hact'
          rw [b1] at h2
          exact h2
        obtain ⟨hsv, htv', hveq⟩ := hcoh.1 i' p' hip' hact''
        have hsrcne : p'.input_variable.id ∉ (b.outputs.zip (fb ins)).map
            fun pv => (pv : Variable × Value).1.id := by
          intro hcon
          exact hfreshx _ hcon hsv
        have htgtne : p'.output_variable.id ∉ (b.outputs.zip (fb ins)).map
            fun pv => (pv : Variable × Value).1.id := by
          intro hcon
          exact hfreshx _ hcon htv'
        refine ⟨?_, ?_, ?_⟩
        · show (bindOutputs st
            (b.outputs.zip (fb ins))).vact.lookup p'.input_variable.id =
            some true
          rw [(hlk_not _ hsrcne).1]
          exact hsv
        · show (bindOutputs st
            (b.outputs.zip (fb ins))).vact.lookup p'.output_variable.id =
            some true
          rw [(hlk_not _ htgtne).1]
          exact htv'
        · show (bindOutputs st
            (b.outputs.zip (fb ins))).values.lookup p'.output_variable.id =
            (bindOutputs st
              (b.outputs.zip (fb ins))).values.lookup p'.input_variable.id
          rw [(hlk_not _ htgtne).2, (hlk_not _ hsrcne).2]
          exact hveq
      · intro j' b' hjb' hbact'
        by_cases hjj : j' = j
        · subst hjj
          have hbb' : b' = b := by
            rw [hjb] at hjb'
            injection hjb' with h
            exact h.symm
          subst hbb'
          refine ⟨b8 b'.inputs hbb, ins,
            ((bindOutputs st (b'.outputs.zip (fb ins))).heap,
              .list (fb ins)), fb ins, ?_, ?_, rfl, ?_⟩
          · show gatherValues (bindOutputs st
              (b'.outputs.zip (fb ins))).values b'.inputs = .ok ins
            have hcg : gatherValues (bindOutputs st
                (b'.outputs.zip (fb ins))).values b'.inputs =
                gatherValues st.values b'.inputs := by
              apply gatherValues_congr
              intro w hw
              have hwne : w.id ∉ (b'.outputs.zip (fb ins)).map
                  fun pv => (pv : Variable × Value).1.id := by
                intro hcon
                exact hfreshx _ hcon (hinact w hw)
              exact (hlk_not w.id hwne).2
            rw [hcg]
            exact hgat
          · exact hfb _ ins
          · intro pr hpr
            exact hlk_mem pr hpr
        · have hb2 : st.bact.getD j' false = true := by
            have h2 : ((bindOutputs st
                (b.outputs.zip (fb ins))).bact.set j true).getD j' false =
                true := hbact'
            rw [getD_set_ne _ j' j true hjj, b2] at h2
            exact h2
          obtain ⟨hall', ins', r', outs', hg', he', hi', hprs'⟩ :=
            hcoh.2 j' b' hjb' hb2
          have hinact' : ∀ v ∈ b'.inputs, st.vact.lookup v.id = some true :=
            (allActivated_ok_true_iff _ _).mp hall'
          refine ⟨b8 b'.inputs hall', ins', r', outs', ?_, ?_, hi', ?_⟩
          · show gatherValues (bindOutputs st
              (b.outputs.zip (fb ins))).values b'.inputs = .ok ins'
            have hcg : gatherValues (bindOutputs st
                (b.outputs.zip (fb ins))).values b'.inputs =
                gatherValues st.values b'.inputs := by
              apply gatherValues_congr
              intro w hw
              have hwne : w.id ∉ (b.outputs.zip (fb ins)).map
                  fun pv => (pv : Variable × Value).1.id := by
                intro hcon
                exact hfreshx _ hcon (hinact' w hw)
              exact (hlk_not w.id hwne).2
            rw [hcg]
            exact hg'
          · show b'.eval (bindOutputs st
              (b.outputs.zip (fb ins))).heap ins' = .ok r'
            rw [b4]
            exact he'
          · intro pr hpr
            obtain ⟨hprv, hprval⟩ := hprs' pr hpr
            have hprne : pr.1.id ∉ (b.outputs.zip (fb ins)).map
                fun pv => (pv : Variable × Value).1.id := by
              intro hcon
              exact hfreshx _ hcon hprv
            constructor
            · show (bindOutputs st
                (b.outputs.zip (fb ins))).vact.lookup pr.1.id = some true
              rw [(hlk_not _ hprne).1]
              exact hprv
            · show (bindOutputs st
                (b.outputs.zip (fb ins))).values.lookup pr.1.id = some pr.2
              rw [(hlk_not _ hprne).2]
              exact hprval
      · show (bindOutputs st (b.outputs.zip (fb ins))).heap = st.heap
        exact b4
      · intro i2 h2
        show (bindOutputs st
          (b.outputs.zip (fb ins))).pact.getD i2 false = true
        rw [b1]
        exact h2
      · intro j2 h2
        by_cases hjj : j2 = j
        · subst hjj
          show ((bindOutputs st
            (b.outputs.zip (fb ins))).bact.set j2 true).getD j2 false = true
          have hjlt2 : j2 < (bindOutputs st
              (b.outputs.zip (fb ins))).bact.length := by
            rw [b2]
            exact hjlt
          rw [getD_set_self _ j2 true hjlt2]
        · show ((bindOutputs st
            (b.outputs.zip (fb ins))).bact.set j true).getD j2 false = true
          rw [getD_set_ne _ j2 j true hjj, b2]
          exact h2
      · intro k hk
        have hkne : k ∉ (b.outputs.zip (fb ins)).map
            fun pv => (pv : Variable × Value).1.id := by
          intro hcon
          exact hfreshx _ hcon hk
        constructor
        · show (bindOutputs st
            (b.outputs.zip (fb ins))).vact.lookup k = some true
          rw [(hlk_not k hkne).1]
          exact hk
        · show (bindOutputs st
            (b.outputs.zip (fb ins))).values.lookup k = st.values.lookup k
          rw [(hlk_not k hkne).2]

theorem firstReady_none_spec (st : RunState) :
    ∀ (L : List (Nat × Block)),
    firstReady st L = .ok Option.none →
    ∀ jb ∈ L, st.bact.getD (jb : Nat × Block).1 false = true ∨
      allActivated st.vact jb.2.inputs ≠ .ok true := by
  intro L
  induction L with
  | nil =>
    intro _ jb hjb
    exact absurd hjb (List.not_mem_nil jb)
  | cons jb0 rest ih =>
    intro hfr jb hjb
    unfold firstReady at hfr
    cases hb : st.bact.getD jb0.1 false with
    | true =>
      rw [if_pos hb] at hfr
      rcases List.mem_cons.mp hjb with h0 | hr
      · subst h0
        exact Or.inl hb
      · exact ih hfr jb hr
    | false =>
      rw [if_neg (by rw [hb]; decide)] at hfr
      cases ha : allActivated st.vact jb0.2.inputs with
      | error e =>
        rw [ha] at hfr
        nomatch hfr
      | ok a =>
        cases a with
        | true =>
          rw [ha] at hfr
          injection hfr with h
          nomatch h
        | false =>
          rw [ha] at hfr
          rcases List.mem_cons.mp hjb with h0 | hr
          · subst h0
            refine Or.inr ?_
            intro hcon
            rw [ha] at hcon
            simp at hcon
          · exact ih hfr jb hr

theorem firstReady_some_spec (st : RunState) :
    ∀ (L : List (Nat × Block)) (jb : Nat × Block),
    firstReady st L = .ok (some jb) →
    jb ∈ L ∧ st.bact.getD jb.1 false = false ∧
      allActivated st.vact jb.2.inputs = .ok true := by
  intro L
  induction L with
  | nil =>
    intro jb hfr
    unfold firstReady at hfr
    injection hfr with h
    nomatch h
  | cons jb0 rest ih =>
    intro jb hfr
    unfold firstReady at hfr
    cases hb : st.bact.getD jb0.1 false with
    | true =>
      rw [if_pos hb] at hfr
      obtain ⟨hm, h2, h3⟩ := ih jb hfr
      exact ⟨List.mem_cons_of_mem jb0 hm, h2, h3⟩
    | false =>
      rw [if_neg (by rw [hb]; decide)] at hfr
      cases ha : allActivated st.vact jb0.2.inputs with
      | error e =>
        rw [ha] at hfr
        nomatch hfr
      | ok a =>
        cases a with
        | true =>
          rw [ha] at hfr
          injection hfr with h
          injection h with h2
          subst h2
          exact ⟨List.mem_cons_self jb0 rest, hb, ha⟩
        | false =>
          rw [ha] at hfr
          obtain ⟨hm, h2, h3⟩ := ih jb hfr
          exact ⟨List.mem_cons_of_mem jb0 hm, h2, h3⟩

theorem firstReady_no_error (wf : WorkFlow) (h0 : Heap) (st : RunState)
    (hG : GInv wf h0 st) :
    ∀ (L : List (Nat × Block)),
    (∀ jb ∈ L, wf.blocks[(jb : Nat × Block).1]? = some jb.2) →
    ∃ res, firstReady st L = .ok res := by
  intro L
  induction L with
  | nil =>
    intro _
    exact ⟨Option.none, rfl⟩
  | cons jb0 rest ih =>
    intro hmem
    have hb0 : wf.blocks[jb0.1]? = some jb0.2 :=
      hmem jb0 (List.mem_cons_self jb0 rest)
    have hbm : jb0.2 ∈ wf.blocks := List.getElem?_mem hb0
    have hins : ∀ v ∈ jb0.2.inputs, v ∈ wf.variables := by
      intro v hv
      unfold WorkFlow.variables
      exact List.mem_flatMap.mpr ⟨jb0.2, hbm, List.mem_append.mpr (Or.inl hv)⟩
    obtain ⟨bb, hbb⟩ := allActivated_no_error st.vact jb0.2.inputs
      (fun v hv => hG.2.2.2.1 v (hins v hv))
    unfold firstReady
    cases hb : st.bact.getD jb0.1 false with
    | true =>
      rw [if_pos rfl]
      exact ih fun x hx => hmem x (List.mem_cons_of_mem jb0 hx)
    | false =>
      rw [if_neg (by decide), hbb]
      cases bb with
      | true => exact ⟨some jb0, rfl⟩
      | false => exact ih fun x hx => hmem x (List.mem_cons_of_mem jb0 hx)

theorem pipePhase_pres (wf : WorkFlow) (h0 : Heap)
    (hsw : SingleWriter wf) (hpsrc : PipeSourcesValid wf) :
    ∀ (L : List (Nat × Pipe)) (st : RunState) (flag : Bool),
    GInv wf h0 st →
    (∀ ip ∈ L, wf.pipes[(ip : Nat × Pipe).1]? = some ip.2) →
    ∃ st' f, pipePhase L st flag = .ok (st', f) ∧ GInv wf h0 st' ∧
      Agrees st' st ∧
      (f = false → flag = false ∧ st' = st ∧
        ∀ ip ∈ L, st.pact.getD (ip : Nat × Pipe).1 false = true ∨
          st.vact.lookup ip.2.input_variable.id ≠ some true) := by
  intro L
  induction L with
  | nil =>
    intro st flag hG _
    exact ⟨st, flag, rfl, hG, Agrees_refl st,
      fun hf => ⟨hf, rfl, fun ip hip => absurd hip (List.not_mem_nil ip)⟩⟩
  | cons ip0 rest ih =>
    intro st flag hG hmem
    obtain ⟨st1, f1, hstep, hG1, hAg1, hflag1⟩ :=
      pipeStep_pres wf h0 st hsw hpsrc hG ip0.1 ip0.2
        (hmem ip0 (List.mem_cons_self ip0 rest))
    obtain ⟨st', f, hres, hG', hAg', hflag'⟩ :=
      ih st1 (flag || f1) hG1
        (fun x hx => hmem x (List.mem_cons_of_mem ip0 hx))
    refine ⟨st', f, ?_, hG', Agrees_trans st' st1 st hAg' hAg1, ?_⟩
    · show (match pipeStep st ip0.1 ip0.2 with
        | Except.error e => (Except.error e : Except PyErr (RunState × Bool))
        | Except.ok r => pipePhase rest r.1 (flag || r.2)) = .ok (st', f)
      rw [hstep]
      exact hres
    · intro hf
      obtain ⟨hor, hst', hrest⟩ := hflag' hf
      obtain ⟨hfl, hf1⟩ := Bool.or_eq_false_iff.mp hor
      obtain ⟨hst1, hhead⟩ := hflag1 hf1
      subst hst1
      subst hst'
      refine ⟨hfl, rfl, ?_⟩
      intro ip hip
      rcases List.mem_cons.mp hip with h0 | hr
      · subst h0
        exact hhead
      · exact hrest ip hr

theorem blockPhase_pres (wf : WorkFlow) (h0 : Heap)
    (hpure : PureBlocks wf) (hsw : SingleWriter wf) :
    ∀ (L : List (Nat × Block)) (st : RunState) (flag : Bool),
    GInv wf h0 st →
    (∀ jb ∈ L, wf.blocks[(jb : Nat × Block).1]? = some jb.2) →
    ∃ st' f, blockPhase L st flag = .ok (st', f) ∧ GInv wf h0 st' ∧
      Agrees st' st ∧
      (f = false → flag = false ∧ st' = st ∧
        ∀ jb ∈ L, st.bact.getD (jb : Nat × Block).1 false = true ∨
          allActivated st.vact jb.2.inputs ≠ .ok true) := by
  intro L
  induction L with
  | nil =>
    intro st flag hG _
    exact ⟨st, flag, rfl, hG, Agrees_refl st,
      fun hf => ⟨hf, rfl, fun jb hjb => absurd hjb (List.not_mem_nil jb)⟩⟩
  | cons jb0 rest ih =>
    intro st flag hG hmem
    obtain ⟨st1, f1, hstep, hG1, hAg1, hflag1⟩ :=
      blockStep_pres wf h0 st hpure hsw hG jb0.1 jb0.2
        (hmem jb0 (List.mem_cons_self jb0 rest))
    obtain ⟨st', f, hres, hG', hAg', hflag'⟩ :=
      ih st1 (flag || f1) hG1
        (fun x hx => hmem x (List.mem_cons_of_mem jb0 hx))
    refine ⟨st', f, ?_, hG', Agrees_trans st' st1 st hAg' hAg1, ?_⟩
    · show (match blockStep st jb0.1 jb0.2 with
        | Except.error e => (Except.error e : Except PyErr (RunState × Bool))
        | Except.ok r => blockPhase rest r.1 (flag || r.2)) = .ok (st', f)
      rw [hstep]
      exact hres
    · intro hf
      obtain ⟨hor, hst', hrest⟩ := hflag' hf
      obtain ⟨hfl, hf1⟩ := Bool.or_eq_false_iff.mp hor
      obtain ⟨hst1, hhead⟩ := hflag1 hf1
      subst hst1
      subst hst'
      refine ⟨hfl, rfl, ?_⟩
      intro jb hjb
      rcases List.mem_cons.mp hjb with h0 | hr
      · subst h0
        exact hhead
      · exact hrest jb hr

theorem runPass_pres (wf : WorkFlow) (h0 : Heap)
    (hpure : PureBlocks wf) (hsw : SingleWriter wf)
    (hpsrc : PipeSourcesValid wf) (st : RunState) (hG : GInv wf h0 st) :
    ∃ st' f, runPass wf st = .ok (st', f) ∧ GInv wf h0 st' ∧
      Agrees st' st ∧ (f = false → st' = st ∧ Terminal wf st) := by
  have hmemp : ∀ ip ∈ wf.pipes.enum,
      wf.pipes[(ip : Nat × Pipe).1]? = some ip.2 :=
    fun ip hip => List.mem_enum_iff_getElem?.mp hip
  have hmemb : ∀ jb ∈ wf.blocks.enum,
      wf.blocks[(jb : Nat × Block).1]? = some jb.2 :=
    fun jb hjb => List.mem_enum_iff_getElem?.mp hjb
  obtain ⟨st1, f1, hres1, hG1, hAg1, hflag1⟩ :=
    pipePhase_pres wf h0 hsw hpsrc wf.pipes.enum st false hG hmemp
  obtain ⟨st', f, hres2, hG', hAg', hflag'⟩ :=
    blockPhase_pres wf h0 hpure hsw wf.blocks.enum st1 f1 hG1 hmemb
  refine ⟨st', f, ?_, hG', Agrees_trans st' st1 st hAg' hAg1, ?_⟩
  · unfold runPass
    rw [hres1]
    exact hres2
  · intro hf
    obtain ⟨hf1eq, hst', hbfacts⟩ := hflag' hf
    obtain ⟨_, hst1, hpfacts⟩ := hflag1 hf1eq
    subst hst1
    subst hst'
    refine ⟨rfl, ?_, ?_⟩
    · intro i p hip
      exact hpfacts (i, p) (List.mem_enum_iff_getElem?.mpr hip)
    · intro j b hjb
      exact hbfacts (j, b) (List.mem_enum_iff_getElem?.mpr hjb)

theorem advance_eq_core (wf : WorkFlow) (st : RunState) :
    advance ⟨wf, st⟩ =
      match firstReady st wf.blocks.enum with
      | .error e => .error e
      | .ok (some jb) =>
        match blockStep st jb.1 jb.2 with
        | .error e => .error e
        | .ok r => .ok (⟨wf, r.1⟩, r.2)
      | .ok Option.none =>
        match pipePhase wf.pipes.enum st false with
        | .error e => .error e
        | .ok r => .ok (⟨wf, r.1⟩, r.2) := rfl

theorem advance_pres (wf : WorkFlow) (h0 : Heap)
    (hpure : PureBlocks wf) (hsw : SingleWriter wf)
    (hpsrc : PipeSourcesValid wf) (st : RunState) (hG : GInv wf h0 st) :
    ∃ st' f, advance ⟨wf, st⟩ = .ok (⟨wf, st'⟩, f) ∧ GInv wf h0 st' ∧
      Agrees st' st ∧ (f = false → st' = st ∧ Terminal wf st) := by
  have hmemb : ∀ jb ∈ wf.blocks.enum,
      wf.blocks[(jb : Nat × Block).1]? = some jb.2 :=
    fun jb hjb => List.mem_enum_iff_getElem?.mp hjb
  obtain ⟨res, hfr⟩ := firstReady_no_error wf h0 st hG wf.blocks.enum hmemb
  cases res with
  | some jb =>
    obtain ⟨hmem, hbact, hready⟩ :=
      firstReady_some_spec st wf.blocks.enum jb hfr
    obtain ⟨st', f, hbs, hG', hAg', hflag'⟩ :=
      blockStep_pres wf h0 st hpure hsw hG jb.1 jb.2 (hmemb jb hmem)
    refine ⟨st', f, ?_, hG', hAg', ?_⟩
    · rw [advance_eq_core, hfr]
      show (match blockStep st jb.1 jb.2 with
        | Except.error e =>
          (Except.error e : Except PyErr (WorkflowState × Bool))
        | Except.ok r => Except.ok ((⟨wf, r.1⟩ : WorkflowState), r.2)) =
        .ok (⟨wf, st'⟩, f)
      rw [hbs]
    · intro hf
      obtain ⟨hst, hor⟩ := hflag' hf
      rcases hor with h1 | h1
      · rw [hbact] at h1
        nomatch h1
      · exact absurd hready h1
  | none =>
    obtain ⟨st', f, hpp, hG', hAg', hflag'⟩ :=
      pipePhase_pres wf h0 hsw hpsrc wf.pipes.enum st false hG
        (fun ip hip => List.mem_enum_iff_getElem?.mp hip)
    refine ⟨st', f, ?_, hG', hAg', ?_⟩
    · rw [advance_eq_core, hfr]
      show (match pipePhase wf.pipes.enum st false with
        | Except.error e =>
          (Except.error e : Except PyErr (WorkflowState × Bool))
        | Except.ok r => Except.ok ((⟨wf, r.1⟩ : WorkflowState), r.2)) =
        .ok (⟨wf, st'⟩, f)
      rw [hpp]
    · intro hf
      obtain ⟨_, hst, hpfacts⟩ := hflag' hf
      subst hst
      refine ⟨rfl, ?_, ?_⟩
      · intro i p hip
        exact hpfacts (i, p) (List.mem_enum_iff_getElem?.mpr hip)
      · intro j b hjb
        exact firstReady_none_spec st' wf.blocks.enum hfr (j, b)
          (List.mem_enum_iff_getElem?.mpr hjb)

theorem advance_cases (wf : WorkFlow) (st : RunState) (hSt : StInv wf st) :
    (∃ e, advance ⟨wf, st⟩ = .error e) ∨
    ∃ st' f, advance ⟨wf, st⟩ = .ok (⟨wf, st'⟩, f) ∧ StInv wf st' ∧
      ((st' = st ∧ f = false) ∨ (score st < score st' ∧ f = true)) := by
  cases hfr : firstReady st wf.blocks.enum with
  | error e =>
    refine Or.inl ⟨e, ?_⟩
    rw [advance_eq_core, hfr]
  | ok res =>
    cases res with
    | none =>
      rcases pipePhase_cases wf wf.pipes.enum st false hSt
          (enum_pipes_mem wf) with
        ⟨e, he⟩ | ⟨st', f', hres, hSt', hsc, _, _, _, hcase⟩
      · refine Or.inl ⟨e, ?_⟩
        rw [advance_eq_core, hfr]
        show (match pipePhase wf.pipes.enum st false with
          | Except.error e =>
            (Except.error e : Except PyErr (WorkflowState × Bool))
          | Except.ok r => Except.ok ((⟨wf, r.1⟩ : WorkflowState), r.2)) =
          .error e
        rw [he]
      · refine Or.inr ⟨st', f', ?_, hSt', ?_⟩
        · rw [advance_eq_core, hfr]
          show (match pipePhase wf.pipes.enum st false with
            | Except.error e =>
              (Except.error e : Except PyErr (WorkflowState × Bool))
            | Except.ok r => Except.ok ((⟨wf, r.1⟩ : WorkflowState), r.2)) =
            .ok (⟨wf, st'⟩, f')
          rw [hres]
        · rcases hcase with ⟨he, hf⟩ | ⟨hlt, hf⟩
          · exact Or.inl ⟨he, hf⟩
          · exact Or.inr ⟨hlt, hf⟩
    | some jb =>
      obtain ⟨hmem, hbact, hready⟩ :=
        firstReady_some_spec st wf.blocks.enum jb hfr
      rcases blockStep_cases wf st jb.1 jb.2 hSt
          (enum_blocks_mem wf jb hmem).1 (enum_blocks_mem wf jb hmem).2 with
        ⟨e, he⟩ | hid | ⟨st1, hfire, hSt1, hsc, _, _, _, _⟩
      · refine Or.inl ⟨e, ?_⟩
        rw [advance_eq_core, hfr]
        show (match blockStep st jb.1 jb.2 with
          | Except.error e =>
            (Except.error e : Except PyErr (WorkflowState × Bool))
          | Except.ok r => Except.ok ((⟨wf, r.1⟩ : WorkflowState), r.2)) =
          .error e
        rw [he]
      · have hrf := blockStep_ready_fire st jb.1 jb.2 (st, false)
          ⟨hbact, hready⟩ hid
        nomatch hrf.1
      · refine Or.inr ⟨st1, true, ?_, hSt1, Or.inr ⟨hsc, rfl⟩⟩
        rw [advance_eq_core, hfr]
        show (match blockStep st jb.1 jb.2 with
          | Except.error e =>
            (Except.error e : Except PyErr (WorkflowState × Bool))
          | Except.ok r => Except.ok ((⟨wf, r.1⟩ : WorkflowState), r.2)) =
          .ok (⟨wf, st1⟩, true)
        rw [hfire]

theorem advanceToEnd_pres (wf : WorkFlow) (h0 : Heap)
    (hpure : PureBlocks wf) (hsw : SingleWriter wf)
    (hpsrc : PipeSourcesValid wf) :
    ∀ (n : Nat) (st : RunState), GInv wf h0 st → StInv wf st →
    wf.pipes.length + wf.blocks.length + (varUniverse wf).length <
      score st + n →
    ∃ S, advanceToEnd n ⟨wf, st⟩ = .ok ⟨wf, S⟩ ∧ GInv wf h0 S ∧
      StInv wf S ∧ Terminal wf S ∧ Agrees S st := by
  intro n
  induction n with
  | zero =>
    intro st hG hSt hbound
    exfalso
    have := score_le_bound wf st hSt
    omega
  | succ n ih =>
    intro st hG hSt hbound
    obtain ⟨st', f, heq, hG', hAg', hflag'⟩ :=
      advance_pres wf h0 hpure hsw hpsrc st hG
    rcases advance_cases wf st hSt with
      ⟨e, he⟩ | ⟨st2, f2, heq2, hSt2, hcase2⟩
    · rw [heq] at he
      nomatch he
    · rw [heq] at heq2
      injection heq2 with hpr
      have hst2 : st2 = st' := by
        have h1 := congrArg Prod.fst hpr
        injection h1 with _ h2
        exact h2.symm
      have hf2 : f2 = f := congrArg Prod.snd hpr |>.symm
      rw [hst2] at hSt2
      rw [hst2, hf2] at hcase2
      cases f with
      | false =>
        obtain ⟨hst, hTerm⟩ := hflag' rfl
        subst hst
        refine ⟨st', ?_, hG', hSt, hTerm, Agrees_refl st'⟩
        show (match advance ⟨wf, st'⟩ with
          | Except.error e => (Except.error e : Except PyErr WorkflowState)
          | Except.ok r => if r.2 then advanceToEnd n r.1 else Except.ok r.1) =
          Except.ok (⟨wf, st'⟩ : WorkflowState)
        rw [heq]
        rfl
      | true =>
        rcases hcase2 with ⟨_, hf⟩ | ⟨hsc, _⟩
        · nomatch hf
        · obtain ⟨S, hS, hGS, hStS, hTS, hAgS⟩ := ih st' hG' hSt2 (by omega)
          refine ⟨S, ?_, hGS, hStS, hTS, Agrees_trans S st' st hAgS hAg'⟩
          show (match advance ⟨wf, st⟩ with
            | Except.error e => (Except.error e : Except PyErr WorkflowState)
            | Except.ok r =>
              if r.2 then advanceToEnd n r.1 else Except.ok r.1) =
            Except.ok (⟨wf, S⟩ : WorkflowState)
          rw [heq]
          exact hS

theorem runLoop_pres (wf : WorkFlow) (h0 : Heap)
    (hpure : PureBlocks wf) (hsw : SingleWriter wf)
    (hpsrc : PipeSourcesValid wf) :
    ∀ (n : Nat) (st : RunState), GInv wf h0 st → StInv wf st →
    wf.pipes.length + wf.blocks.length + (varUniverse wf).length <
      score st + n →
    ∃ S, runLoop wf n st = .ok S ∧ GInv wf h0 S ∧
      StInv wf S ∧ Terminal wf S ∧ Agrees S st := by
  intro n
  induction n with
  | zero =>
    intro st hG hSt hbound
    exfalso
    have := score_le_bound wf st hSt
    omega
  | succ n ih =>
    intro st hG hSt hbound
    obtain ⟨st', f, heq, hG', hAg', hflag'⟩ :=
      runPass_pres wf h0 hpure hsw hpsrc st hG
    rcases runPass_cases wf st hSt with
      ⟨e, he⟩ | ⟨st2, f2, heq2, hSt2, hsc2, hcase2⟩
    · rw [heq] at he
      nomatch he
    · rw [heq] at heq2
      injection heq2 with hpr
      have hst2 : st2 = st' := (congrArg Prod.fst hpr).symm
      have hf2 : f2 = f := (congrArg Prod.snd hpr).symm
      rw [hst2] at hSt2
      rw [hst2, hf2] at hcase2
      cases f with
      | false =>
        obtain ⟨hst, hTerm⟩ := hflag' rfl
        subst hst
        refine ⟨st', ?_, hG', hSt, hTerm, Agrees_refl st'⟩
        show (match runPass wf st' with
          | Except.error e => (Except.error e : Except PyErr RunState)
          | Except.ok r => if r.2 then runLoop wf n r.1 else Except.ok r.1) =
          Except.ok st'
        rw [heq]
        rfl
      | true =>
        rcases hcase2 with ⟨_, hf⟩ | ⟨hsc, _⟩
        · nomatch hf
        · obtain ⟨S, hS, hGS, hStS, hTS, hAgS⟩ := ih st' hG' hSt2 (by omega)
          refine ⟨S, ?_, hGS, hStS, hTS, Agrees_trans S st' st hAgS hAg'⟩
          show (match runPass wf st with
            | Except.error e => (Except.error e : Except PyErr RunState)
            | Except.ok r =>
              if r.2 then runLoop wf n r.1 else Except.ok r.1) =
            Except.ok S
          rw [heq]
          exact hS

theorem pipeStep_abs (wf : WorkFlow) (h0 : Heap) (A B B' : RunState)
    (f : Bool) (hGA : GInv wf h0 A) (hTA : Terminal wf A)
    (hAB : Agrees A B) (i : Nat) (p : Pipe)
    (hip : wf.pipes[i]? = some p)
    (hs : pipeStep B i p = .ok (B', f)) : Agrees A B' := by
  rcases pipeStep_ok_shape B i p (B', f) hs with
    hid | ⟨hact, hsrcB, v, hvalB, hfire⟩
  · have hB : B' = B := congrArg Prod.fst hid
    rw [hB]
    exact hAB
  · have hB : B' =
        ({ B with
           pact := B.pact.set i true,
           values := dset B.values p.output_variable.id v,
           vact := dset B.vact p.output_variable.id true } : RunState) :=
      congrArg Prod.fst hfire
    subst hB
    obtain ⟨hsrcA_act, hsrcA_val⟩ := hAB.2.2.2 p.input_variable.id hsrcB
    have hpA : A.pact.getD i false = true := by
      rcases hTA.1 i p hip with h | h
      · exact h
      · exact absurd hsrcA_act h
    obtain ⟨hsA, htA, hvalA⟩ := hGA.2.2.2.2.2.2.2.1 i p hip hpA
    have hAtgt : A.values.lookup p.output_variable.id = some v := by
      rw [hvalA, hsrcA_val, hvalB]
    refine ⟨hAB.1, ?_, hAB.2.2.1, ?_⟩
    · intro i2 h2
      by_cases hii : i2 = i
      · subst hii
        exact hpA
      · have h4 : (B.pact.set i true).getD i2 false = true := h2
        rw [getD_set_ne B.pact i2 i true hii] at h4
        exact hAB.2.1 i2 h4
    · intro k hk
      by_cases hkt : k = p.output_variable.id
      · subst hkt
        refine ⟨htA, ?_⟩
        show A.values.lookup p.output_variable.id =
          (dset B.values p.output_variable.id v).lookup p.output_variable.id
        rw [lookup_dset_self, hAtgt]
      · have h4 : (dset B.vact p.output_variable.id true).lookup k =
            some true := hk
        rw [lookup_dset_ne B.vact p.output_variable.id k true hkt] at h4
        obtain ⟨ha1, ha2⟩ := hAB.2.2.2 k h4
        refine ⟨ha1, ?_⟩
        show A.values.lookup k =
          (dset B.values p.output_variable.id v).lookup k
        rw [lookup_dset_ne B.values p.output_variable.id k v hkt]
        exact ha2

theorem blockStep_abs (wf : WorkFlow) (h0 : Heap) (A B B' : RunState)
    (f : Bool) (hpure : PureBlocks wf) (hsw : SingleWriter wf)
    (hGA : GInv wf h0 A) (hTA : Terminal wf A)
    (hAB : Agrees A B) (j : Nat) (b : Block)
    (hjb : wf.blocks[j]? = some b)
    (hs : blockStep B j b = .ok (B', f)) : Agrees A B' := by
  rcases blockStep_ok_shape B j b (B', f) hs with
    hid | ⟨hact, hall, ins, r0, outs, hg, hev, hit, hfire⟩
  · have hB : B' = B := congrArg Prod.fst hid
    rw [hB]
    exact hAB
  · have hbmem : b ∈ wf.blocks := List.getElem?_mem hjb
    obtain ⟨fb, hfb⟩ := hpure b hbmem
    have hr0 : r0 = (B.heap, .list (fb ins)) := by
      rw [hfb B.heap ins] at hev
      injection hev with h
      exact h.symm
    subst hr0
    have houts : outs = fb ins := by
      injection hit with h
      exact h.symm
    subst houts
    have hB : B' =
        ({ bindOutputs B (b.outputs.zip (fb ins)) with
           bact := (bindOutputs B (b.outputs.zip (fb ins))).bact.set j true,
           trace := (bindOutputs B (b.outputs.zip (fb ins))).trace ++ [j] }
          : RunState) :=
      congrArg Prod.fst hfire
    subst hB
    have hinB : ∀ w ∈ b.inputs, B.vact.lookup w.id = some true :=
      (allActivated_ok_true_iff _ _).mp hall
    have hinA : ∀ w ∈ b.inputs, A.vact.lookup w.id = some true :=
      fun w hw => (hAB.2.2.2 w.id (hinB w hw)).1
    have hallA : allActivated A.vact b.inputs = .ok true :=
      (allActivated_ok_true_iff _ _).mpr hinA
    have hbA : A.bact.getD j false = true := by
      rcases hTA.2 j b hjb with h | h
      · exact h
      · exact absurd hallA h
    obtain ⟨hallA', insA, rA, outsA, hgA, hevA, hitA, hprA⟩ :=
      hGA.2.2.2.2.2.2.2.2 j b hjb hbA
    have hgeq : gatherValues A.values b.inputs =
        gatherValues B.values b.inputs :=
      gatherValues_congr B.values A.values b.inputs
        (fun w hw => (hAB.2.2.2 w.id (hinB w hw)).2)
    have hinsA : ins = insA := by
      rw [hgeq, hg] at hgA
      injection hgA
    subst hinsA
    have hrA : rA = (A.heap, .list (fb ins)) := by
      rw [hfb A.heap ins] at hevA
      injection hevA with h
      exact h.symm
    subst hrA
    have houtsA : fb ins = outsA := by
      injection hitA
    subst houtsA
    have hnd : ((b.outputs.zip (fb ins)).map
        fun pv => (pv : Variable × Value).1.id).Nodup :=
      List.Nodup.sublist (zip_map_fst_id_sublist b.outputs (fb ins))
        (sw_block_outs_nodup wf hsw b hbmem)
    obtain ⟨b1, b2, b3, b4, b5, b6, b7, b8⟩ :=
      bindOutputs_spec B (b.outputs.zip (fb ins))
    have hjlen : j < B.bact.length ∨ ¬ j < B.bact.length := em _
    refine ⟨?_, ?_, ?_, ?_⟩
    · show A.heap = (bindOutputs B (b.outputs.zip (fb ins))).heap
      rw [b4]
      exact hAB.1
    · intro i2 h2
      have h4 : (bindOutputs B (b.outputs.zip (fb ins))).pact.getD i2
          false = true := h2
      rw [b1] at h4
      exact hAB.2.1 i2 h4
    · intro j2 h2
      by_cases hjj : j2 = j
      · subst hjj
        exact hbA
      · have h4 : ((bindOutputs B
            (b.outputs.zip (fb ins))).bact.set j true).getD j2 false =
            true := h2
        rw [getD_set_ne _ j2 j true hjj, b2] at h4
        exact hAB.2.2.1 j2 h4
    · intro k hk
      by_cases hkid : k ∈ (b.outputs.zip (fb ins)).map
          fun pv => (pv : Variable × Value).1.id
      · obtain ⟨pr, hpr, hprx⟩ := List.mem_map.mp hkid
        obtain ⟨hprA1, hprA2⟩ := hprA pr hpr
        obtain ⟨hbm1, hbm2⟩ :=
          bindOutputs_lookup_mem B (b.outputs.zip (fb ins)) pr hnd hpr
        have hprx' : pr.1.id = k := hprx
        constructor
        · rw [← hprx']
          exact hprA1
        · show A.values.lookup k =
            (bindOutputs B (b.outputs.zip (fb ins))).values.lookup k
          rw [← hprx', hprA2, hbm2]
      · obtain ⟨hn1, hn2⟩ :=
          bindOutputs_lookup_not_mem B (b.outputs.zip (fb ins)) k hkid
        have hk' : B.vact.lookup k = some true := by
          rw [← hn1]
          exact hk
        obtain ⟨ha1, ha2⟩ := hAB.2.2.2 k hk'
        refine ⟨ha1, ?_⟩
        show A.values.lookup k =
          (bindOutputs B (b.outputs.zip (fb ins))).values.lookup k
        rw [hn2]
        exact ha2

theorem pipePhase_abs (wf : WorkFlow) (h0 : Heap)
    (hsw : SingleWriter wf) (hpsrc : PipeSourcesValid wf)
    (A : RunState) (hGA : GInv wf h0 A) (hTA : Terminal wf A) :
    ∀ (L : List (Nat × Pipe)) (B : RunState) (flag : Bool)
      (B' : RunState) (f : Bool),
    GInv wf h0 B → Agrees A B →
    (∀ ip ∈ L, wf.pipes[(ip : Nat × Pipe).1]? = some ip.2) →
    pipePhase L B flag = .ok (B', f) → Agrees A B' := by
  intro L
  induction L with
  | nil =>
    intro B flag B' f hGB hAB _ hp
    injection hp with h
    have hB : B' = B := (congrArg Prod.fst h).symm
    rw [hB]
    exact hAB
  | cons ip0 rest ih =>
    intro B flag B' f hGB hAB hmem hp
    obtain ⟨B1, f1, hstep, hGB1, hAgB1, _⟩ :=
      pipeStep_pres wf h0 B hsw hpsrc hGB ip0.1 ip0.2
        (hmem ip0 (List.mem_cons_self ip0 rest))
    have hp2 : pipePhase rest B1 (flag || f1) = .ok (B', f) := by
      have hshow : pipePhase (ip0 :: rest) B flag =
          match pipeStep B ip0.1 ip0.2 with
          | .error e => .error e
          | .ok r => pipePhase rest r.1 (flag || r.2) := rfl
      rw [hshow, hstep] at hp
      exact hp
    have hAB1 : Agrees A B1 :=
      pipeStep_abs wf h0 A B B1 f1 hGA hTA hAB ip0.1 ip0.2
        (hmem ip0 (List.mem_cons_self ip0 rest)) hstep
    exact ih B1 (flag || f1) B' f hGB1 hAB1
      (fun x hx => hmem x (List.mem_cons_of_mem ip0 hx)) hp2

theorem blockPhase_abs (wf : WorkFlow) (h0 : Heap)
    (hpure : PureBlocks wf) (hsw : SingleWriter wf)
    (A : RunState) (hGA : GInv wf h0 A) (hTA : Terminal wf A) :
    ∀ (L : List (Nat × Block)) (B : RunState) (flag : Bool)
      (B' : RunState) (f : Bool),
    GInv wf h0 B → Agrees A B →
    (∀ jb ∈ L, wf.blocks[(jb : Nat × Block).1]? = some jb.2) →
    blockPhase L B flag = .ok (B', f) → Agrees A B' := by
  intro L
  induction L with
  | nil =>
    intro B flag B' f hGB hAB _ hp
    injection hp with h
    have hB : B' = B := (congrArg Prod.fst h).symm
    rw [hB]
    exact hAB
  | cons jb0 rest ih =>
    intro B flag B' f hGB hAB hmem hp
    obtain ⟨B1, f1, hstep, hGB1, hAgB1, _⟩ :=
      blockStep_pres wf h0 B hpure hsw hGB jb0.1 jb0.2
        (hmem jb0 (List.mem_cons_self jb0 rest))
    have hp2 : blockPhase rest B1 (flag || f1) = .ok (B', f) := by
      have hshow : blockPhase (jb0 :: rest) B flag =
          match blockStep B jb0.1 jb0.2 with
          | .error e => .error e
          | .ok r => blockPhase rest r.1 (flag || r.2) := rfl
      rw [hshow, hstep] at hp
      exact hp
    have hAB1 : Agrees A B1 :=
      blockStep_abs wf h0 A B B1 f1 hpure hsw hGA hTA hAB jb0.1 jb0.2
        (hmem jb0 (List.mem_cons_self jb0 rest)) hstep
    exact ih B1 (flag || f1) B' f hGB1 hAB1
      (fun x hx => hmem x (List.mem_cons_of_mem jb0 hx)) hp2

theorem runPass_abs (wf : WorkFlow) (h0 : Heap)
    (hpure : PureBlocks wf) (hsw : SingleWriter wf)
    (hpsrc : PipeSourcesValid wf) (A : RunState)
    (hGA : GInv wf h0 A) (hTA : Terminal wf A)
    (B B' : RunState) (f : Bool) (hGB : GInv wf h0 B)
    (hAB : Agrees A B) (hp : runPass wf B = .ok (B', f)) : Agrees A B' := by
  have hmemp : ∀ ip ∈ wf.pipes.enum,
      wf.pipes[(ip : Nat × Pipe).1]? = some ip.2 :=
    fun ip hip => List.mem_enum_iff_getElem?.mp hip
  have hmemb : ∀ jb ∈ wf.blocks.enum,
      wf.blocks[(jb : Nat × Block).1]? = some jb.2 :=
    fun jb hjb => List.mem_enum_iff_getElem?.mp hjb
  unfold runPass at hp
  cases hpp : pipePhase wf.pipes.enum B false with
  | error e =>
    rw [hpp] at hp
    nomatch hp
  | ok r =>
    rw [hpp] at hp
    obtain ⟨B1, f1⟩ := r
    obtain ⟨B1', f1', hpp', hGB1, _, _⟩ :=
      pipePhase_pres wf h0 hsw hpsrc wf.pipes.enum B false hGB hmemp
    rw [hpp] at hpp'
    injection hpp' with hpr
    have hB1 : B1' = B1 := (congrArg Prod.fst hpr).symm
    rw [hB1] at hGB1
    have hAB1 : Agrees A B1 :=
      pipePhase_abs wf h0 hsw hpsrc A hGA hTA wf.pipes.enum B false B1 f1
        hGB hAB hmemp hpp
    exact blockPhase_abs wf h0 hpure hsw A hGA hTA wf.blocks.enum B1 f1
      B' f hGB1 hAB1 hmemb hp

theorem advance_abs (wf : WorkFlow) (h0 : Heap)
    (hpure : PureBlocks wf) (hsw : SingleWriter wf)
    (hpsrc : PipeSourcesValid wf) (A : RunState)
    (hGA : GInv wf h0 A) (hTA : Terminal wf A)
    (B B' : RunState) (f : Bool) (hGB : GInv wf h0 B)
    (hAB : Agrees A B)
    (hadv : advance ⟨wf, B⟩ = .ok (⟨wf, B'⟩, f)) : Agrees A B' := by
  rw [advance_eq_core] at hadv
  cases hfr : firstReady B wf.blocks.enum with
  | error e =>
    rw [hfr] at hadv
    nomatch hadv
  | ok res =>
    rw [hfr] at hadv
    cases res with
    | some jb =>
      obtain ⟨hmem, _, _⟩ := firstReady_some_spec B wf.blocks.enum jb hfr
      have hadv2 : (match blockStep B jb.1 jb.2 with
        | Except.error e =>
          (Except.error e : Except PyErr (WorkflowState × Bool))
        | Except.ok r => Except.ok ((⟨wf, r.1⟩ : WorkflowState), r.2)) =
          .ok (⟨wf, B'⟩, f) := hadv
      cases hbs : blockStep B jb.1 jb.2 with
      | error e =>
        rw [hbs] at hadv2
        nomatch hadv2
      | ok r =>
        rw [hbs] at hadv2
        injection hadv2 with h
        have h1 : (⟨wf, r.1⟩ : WorkflowState) = ⟨wf, B'⟩ :=
          congrArg Prod.fst h
        injection h1 with _ h2
        have hbs2 : blockStep B jb.1 jb.2 = .ok (r.1, r.2) := by
          rw [hbs]
        have := blockStep_abs wf h0 A B r.1 r.2 hpure hsw hGA hTA hAB
          jb.1 jb.2 (List.mem_enum_iff_getElem?.mp hmem) hbs2
        rw [← h2]
        exact this
    | none =>
      have hadv2 : (match pipePhase wf.pipes.enum B false with
        | Except.error e =>
          (Except.error e : Except PyErr (WorkflowState × Bool))
        | Except.ok r => Except.ok ((⟨wf, r.1⟩ : WorkflowState), r.2)) =
          .ok (⟨wf, B'⟩, f) := hadv
      cases hpp : pipePhase wf.pipes.enum B false with
      | error e =>
        rw [hpp] at hadv2
        nomatch hadv2
      | ok r =>
        rw [hpp] at hadv2
        injection hadv2 with h
        have h1 : (⟨wf, r.1⟩ : WorkflowState) = ⟨wf, B'⟩ :=
          congrArg Prod.fst h
        injection h1 with _ h2
        have hpp2 : pipePhase wf.pipes.enum B false = .ok (r.1, r.2) := by
          rw [hpp]
        have := pipePhase_abs wf h0 hsw hpsrc A hGA hTA wf.pipes.enum B
          false r.1 r.2 hGB hAB
          (fun ip hip => List.mem_enum_iff_getElem?.mp hip) hpp2
        rw [← h2]
        exact this

theorem advanceToEnd_abs (wf : WorkFlow) (h0 : Heap)
    (hpure : PureBlocks wf) (hsw : SingleWriter wf)
    (hpsrc : PipeSourcesValid wf) (A : RunState)
    (hGA : GInv wf h0 A) (hTA : Terminal wf A) :
    ∀ (n : Nat) (B S : RunState), GInv wf h0 B → Agrees A B →
    advanceToEnd n ⟨wf, B⟩ = .ok ⟨wf, S⟩ → Agrees A S := by
  intro n
  induction n with
  | zero =>
    intro B S hGB hAB hend
    injection hend with h
    injection h with _ h2
    rw [← h2]
    exact hAB
  | succ n ih =>
    intro B S hGB hAB hend
    obtain ⟨B', f, heq, hGB', _, _⟩ :=
      advance_pres wf h0 hpure hsw hpsrc B hGB
    have hAB' : Agrees A B' :=
      advance_abs wf h0 hpure hsw hpsrc A hGA hTA B B' f hGB hAB heq
    have hend2 : (match advance ⟨wf, B⟩ with
      | Except.error e => (Except.error e : Except PyErr WorkflowState)
      | Except.ok r => if r.2 then advanceToEnd n r.1 else Except.ok r.1) =
        .ok ⟨wf, S⟩ := hend
    rw [heq] at hend2
    cases f with
    | false =>
      have h3 : Except.ok (⟨wf, B'⟩ : WorkflowState) = .ok ⟨wf, S⟩ := hend2
      injection h3 with h4
      injection h4 with _ h5
      rw [← h5]
      exact hAB'
    | true =>
      have h3 : advanceToEnd n ⟨wf, B'⟩ = .ok ⟨wf, S⟩ := hend2
      exact ih B' S hGB' hAB' h3

theorem runLoop_abs (wf : WorkFlow) (h0 : Heap)
    (hpure : PureBlocks wf) (hsw : SingleWriter wf)
    (hpsrc : PipeSourcesValid wf) (A : RunState)
    (hGA : GInv wf h0 A) (hTA : Terminal wf A) :
    ∀ (n : Nat) (B S : RunState), GInv wf h0 B → Agrees A B →
    runLoop wf n B = .ok S → Agrees A S := by
  intro n
  induction n with
  | zero =>
    intro B S hGB hAB hend
    injection hend with h
    rw [← h]
    exact hAB
  | succ n ih =>
    intro B S hGB hAB hend
    obtain ⟨B', f, heq, hGB', _, _⟩ :=
      runPass_pres wf h0 hpure hsw hpsrc B hGB
    have hAB' : Agrees A B' :=
      runPass_abs wf h0 hpure hsw hpsrc A hGA hTA B B' f hGB hAB heq
    have hend2 : (match runPass wf B with
      | Except.error e => (Except.error e : Except PyErr RunState)
      | Except.ok r => if r.2 then runLoop wf n r.1 else Except.ok r.1) =
        .ok S := hend
    rw [heq] at hend2
    cases f with
    | false =>
      have h3 : Except.ok B' = .ok S := hend2
      injection h3 with h4
      rw [← h4]
      exact hAB'
    | true =>
      have h3 : runLoop wf n B' = .ok S := hend2
      exact ih B' S hGB' hAB' h3

theorem init_fold_frame (pairs : List (Value × Variable)) (st0 : RunState) :
    (pairs.foldl (fun st av =>
      { st with values := dset st.values av.2.id av.1,
                vact := dset st.vact av.2.id true }) st0).heap = st0.heap ∧
    (pairs.foldl (fun st av =>
      { st with values := dset st.values av.2.id av.1,
                vact := dset st.vact av.2.id true }) st0).pact = st0.pact ∧
    (pairs.foldl (fun st av =>
      { st with values := dset st.values av.2.id av.1,
                vact := dset st.vact av.2.id true }) st0).bact = st0.bact := by
  induction pairs generalizing st0 with
  | nil => exact ⟨rfl, rfl, rfl⟩
  | cons av rest ih => exact ih _

theorem init_fold_props (wf : WorkFlow) :
    ∀ (pairs : List (Value × Variable)) (st0 : RunState),
    (∀ k, st0.vact.lookup k = some true → (st0.values.lookup k).isSome) →
    (∀ k x, st0.values.lookup k = some x → st0.vact.lookup k = some true) →
    (∀ k, st0.vact.lookup k = some true → k ∈ wf.inputs.map Variable.id) →
    (∀ v ∈ wf.variables, (st0.vact.lookup v.id).isSome) →
    (∀ av ∈ pairs,
      (av : Value × Variable).2.id ∈ wf.inputs.map Variable.id) →
    (∀ k, ((pairs.foldl (fun st av =>
        { st with values := dset st.values av.2.id av.1,
                  vact := dset st.vact av.2.id true }) st0).vact.lookup k) =
        some true →
      (((pairs.foldl (fun st av =>
        { st with values := dset st.values av.2.id av.1,
                  vact := dset st.vact av.2.id true })
          st0).values.lookup k)).isSome) ∧
    (∀ k x, ((pairs.foldl (fun st av =>
        { st with values := dset st.values av.2.id av.1,
                  vact := dset st.vact av.2.id true })
          st0).values.lookup k) = some x →
      ((pairs.foldl (fun st av =>
        { st with values := dset st.values av.2.id av.1,
                  vact := dset st.vact av.2.id true }) st0).vact.lookup k) =
        some true) ∧
    (∀ k, ((pairs.foldl (fun st av =>
        { st with values := dset st.values av.2.id av.1,
                  vact := dset st.vact av.2.id true }) st0).vact.lookup k) =
        some true → k ∈ wf.inputs.map Variable.id) ∧
    (∀ v ∈ wf.variables, (((pairs.foldl (fun st av =>
        { st with values := dset st.values av.2.id av.1,
                  vact := dset st.vact av.2.id true })
          st0).vact.lookup v.id)).isSome) := by
  intro pairs
  induction pairs with
  | nil =>
    intro st0 h1 h2 h3 h4 _
    exact ⟨h1, h2, h3, h4⟩
  | cons av rest ih =>
    intro st0 h1 h2 h3 h4 hmem
    apply ih
    · intro k hk
      by_cases hki : k = av.2.id
      · subst hki
        show ((dset st0.values av.2.id av.1).lookup av.2.id).isSome
        rw [lookup_dset_self]
        rfl
      · have hk' : st0.vact.lookup k = some true := by
          rw [← lookup_dset_ne st0.vact av.2.id k true hki]
          exact hk
        show ((dset st0.values av.2.id av.1).lookup k).isSome
        rw [lookup_dset_ne st0.values av.2.id k av.1 hki]
        exact h1 k hk'
    · intro k x hkx
      by_cases hki : k = av.2.id
      · subst hki
        show (dset st0.vact av.2.id true).lookup av.2.id = some true
        rw [lookup_dset_self]
      · have hkx' : st0.values.lookup k = some x := by
          rw [← lookup_dset_ne st0.values av.2.id k av.1 hki]
          exact hkx
        show (dset st0.vact av.2.id true).lookup k = some true
        rw [lookup_dset_ne st0.vact av.2.id k true hki]
        exact h2 k x hkx'
    · intro k hk
      by_cases hki : k = av.2.id
      · subst hki
        exact hmem av (List.mem_cons_self av rest)
      · have hk' : st0.vact.lookup k = some true := by
          rw [← lookup_dset_ne st0.vact av.2.id k true hki]
          exact hk
        exact h3 k hk'
    · intro v hv
      by_cases hki : v.id = av.2.id
      · show ((dset st0.vact av.2.id true).lookup v.id).isSome
        rw [hki, lookup_dset_self]
        rfl
      · show ((dset st0.vact av.2.id true).lookup v.id).isSome
        rw [lookup_dset_ne st0.vact av.2.id v.id true hki]
        exact h4 v hv
    · exact fun x hx => hmem x (List.mem_cons_of_mem av hx)

theorem initState_GInv (wf : WorkFlow) (h0 : Heap) (args : List Value) :
    GInv wf h0 (initState wf h0 args) := by
  have hframe := init_fold_frame (args.zip wf.inputs)
    { heap := h0,
      pact := List.replicate wf.pipes.length false,
      bact := List.replicate wf.blocks.length false,
      vact := (wf.variables.map Variable.id).dedup.map fun i => (i, false),
      values := [],
      trace := [] }
  have hprops := init_fold_props wf (args.zip wf.inputs)
    { heap := h0,
      pact := List.replicate wf.pipes.length false,
      bact := List.replicate wf.blocks.length false,
      vact := (wf.variables.map Variable.id).dedup.map fun i => (i, false),
      values := [],
      trace := [] }
    (fun k hk => absurd hk (lookup_const_false _ k))
    (fun k x hkx => nomatch hkx)
    (fun k hk => absurd hk (lookup_const_false _ k))
    (fun v hv => lookup_map_mem _ v.id
      (List.mem_dedup.mpr (List.mem_map_of_mem Variable.id hv)))
    (fun av hav =>
      List.mem_map_of_mem Variable.id (List.of_mem_zip hav).2)
  unfold initState
  refine ⟨hframe.1, ?_, ?_, hprops.2.2.2, hprops.1, hprops.2.1, ?_, ?_, ?_⟩
  · rw [hframe.2.1]
    exact List.length_replicate _ _
  · rw [hframe.2.2]
    exact List.length_replicate _ _
  · intro k hk
    exact Or.inl (hprops.2.2.1 k hk)
  · intro i p hip hact
    exfalso
    rw [hframe.2.1] at hact
    have hact2 : (List.replicate wf.pipes.length false).getD i false =
        true := hact
    rw [getD_replicate_false] at hact2
    nomatch hact2
  · intro j b hjb hact
    exfalso
    rw [hframe.2.2] at hact
    have hact2 : (List.replicate wf.blocks.length false).getD j false =
        true := hact
    rw [getD_replicate_false] at hact2
    nomatch hact2

theorem agrees_values_eq (wf : WorkFlow) (h0 : Heap) (A B : RunState)
    (hGA : GInv wf h0 A) (hGB : GInv wf h0 B)
    (hAB : Agrees A B) (hBA : Agrees B A) (k : Nat) :
    A.values.lookup k = B.values.lookup k := by
  by_cases hBt : B.vact.lookup k = some true
  · exact (hAB.2.2.2 k hBt).2
  · have hAna : ¬ A.vact.lookup k = some true :=
      fun hcon => hBt (hBA.2.2.2 k hcon).1
    have hAv : A.values.lookup k = Option.none := by
      cases hv : A.values.lookup k with
      | none => rfl
      | some x => exact absurd (hGA.2.2.2.2.2.1 k x hv) hAna
    have hBv : B.values.lookup k = Option.none := by
      cases hv : B.values.lookup k with
      | none => rfl
      | some x => exact absurd (hGB.2.2.2.2.2.1 k x hv) hBt
    rw [hAv, hBv]

/-- C9 (amended; spec-modelled: `start_run`, `WorkflowState` and `advance`
are absent from the source and modelled from the spec, with `advance`
performing the §4.5 step-4 stepwise unit — one block evaluation, blocks
first, else all currently ready pipe propagations): the claimed
equivalence fails for heap-mutating blocks (see the counterexample on
`wfOrder`), but it holds for every workflow whose blocks are pure
functions of their input values, whose input binding, pipe relays and
block outputs write pairwise distinct variables, and whose pipe sources
are genuine workflow variables: for every such workflow and full input
binding, driving `start_run`'s state to completion through repeated
`advance` yields exactly the `output_value` (or the error) that `run`
produces. -/
theorem stepwise_run_equivalence_for_pure_blocks (wf : WorkFlow)
    (h0 : Heap) (args : List Value)
    (hpure : PureBlocks wf) (hsw : SingleWriter wf)
    (hpsrc : PipeSourcesValid wf)
    (hlen : args.length = wf.inputs.length) :
    (advanceToEnd (fuelOf wf) (startRun wf h0 args)).bind
        WorkflowState.output_value =
      (runW wf h0 args).map fun r => r.2.output_value := by
  have hGinit : GInv wf h0 (initState wf h0 args) := initState_GInv wf h0 args
  have hStinit : StInv wf (initState wf h0 args) := initState_inv wf h0 args
  have hbound : wf.pipes.length + wf.blocks.length +
      (varUniverse wf).length < score (initState wf h0 args) + fuelOf wf := by
    unfold fuelOf
    omega
  obtain ⟨Sr, hSr, hGr, hStr, hTr, hAgr⟩ :=
    runLoop_pres wf h0 hpure hsw hpsrc (fuelOf wf) (initState wf h0 args)
      hGinit hStinit hbound
  obtain ⟨Ss, hSs, hGs, hSts, hTs, hAgs⟩ :=
    advanceToEnd_pres wf h0 hpure hsw hpsrc (fuelOf wf)
      (initState wf h0 args) hGinit hStinit hbound
  have hrs : Agrees Sr Ss :=
    advanceToEnd_abs wf h0 hpure hsw hpsrc Sr hGr hTr (fuelOf wf)
      (initState wf h0 args) Ss hGinit hAgr hSs
  have hsr : Agrees Ss Sr :=
    runLoop_abs wf h0 hpure hsw hpsrc Ss hGs hTs (fuelOf wf)
      (initState wf h0 args) Sr hGinit hAgs hSr
  have hvals : Ss.values.lookup wf.output.id =
      Sr.values.lookup wf.output.id :=
    agrees_values_eq wf h0 Ss Sr hGs hGr hsr hrs wf.output.id
  have hdget : dget Ss.values wf.output.id = dget Sr.values wf.output.id := by
    unfold dget
    rw [hvals]
  have hSs2 : advanceToEnd (fuelOf wf) (startRun wf h0 args) =
      .ok ⟨wf, Ss⟩ := hSs
  unfold runW
  rw [if_neg (fun hc => hc hlen), hSs2, hSr]
  show (Except.ok (⟨wf, Ss⟩ : WorkflowState)).bind
      WorkflowState.output_value =
    Except.map (fun r => r.2.output_value)
      (match dget Sr.values wf.output.id with
        | Except.error e => Except.error e
        | Except.ok out =>
          Except.ok (Sr.heap, (⟨wf, Sr.values, out⟩ : WorkflowRun)))
  cases ho : dget Sr.values wf.output.id with
  | error e =>
    show dget Ss.values wf.output.id = Except.error e
    rw [hdget]
    exact ho
  | ok out =>
    show dget Ss.values wf.output.id = Except.ok out
    rw [hdget]
    exact ho

/-- Witness for C9's amended theorem: `wfPure`'s single block is pure, its
writers are distinct and it has no pipes; on input `5` the stepwise and
direct runs agree. -/
theorem stepwise_run_equivalence_for_pure_blocks_witness :
    PureBlocks wfPure ∧ SingleWriter wfPure ∧ PipeSourcesValid wfPure ∧
    [Value.int 5].length = wfPure.inputs.length ∧
    (advanceToEnd (fuelOf wfPure) (startRun wfPure [] [.int 5])).bind
        WorkflowState.output_value =
      (runW wfPure [] [.int 5]).map fun r => r.2.output_value := by
  have hpure : PureBlocks wfPure := by
    intro b hb
    have hb2 : b ∈ [(⟨[⟨0, "x"⟩], [⟨1, "o"⟩],
        fun h vs => .ok (h, .list [vs.headD .none])⟩ : Block)] := hb
    rw [List.mem_singleton] at hb2
    subst hb2
    exact ⟨fun vs => [vs.headD .none], fun h vs => rfl⟩
  have hsw : SingleWriter wfPure := by
    show (writerIds wfPure).Nodup
    decide
  have hpsrc : PipeSourcesValid wfPure := by
    intro p hp
    exact absurd hp (List.not_mem_nil p)
  exact ⟨hpure, hsw, hpsrc, rfl,
    stepwise_run_equivalence_for_pure_blocks wfPure [] [.int 5] hpure hsw
      hpsrc rfl⟩

end Dessia
